import Mathlib

/-!
# JDFTx lattice minimizer: strain basis and outer-loop interface

A shallow embedding of `electronic/LatticeMinimizer.cpp`, of the real-space index
`GridInfo::fullRindex` of `core/GridInfo.h`, and of the compile-time loop `staticLoopYlm` and
the phase loop of the augmentation functors of `electronic/SpeciesInfo_internal.h`.

* `double` is read as an exact ordered field `K`; the definitions are generic in `K`
  (they mirror the `matrix3<scalar>` template) and take the square root as a
  parameter, the theorems about norms instantiate them at `ℝ` with `Real.sqrt`.
* `matrix3<scalar>` is a 3x3 matrix indexed by `Fin 3`; `vector3<scalar>` is a function
  on `Fin 3`.
* `die(...)` is an `Except.error`, the `NAN` return value of `compute` is `none`.
* `Everything& e` is a record; the collaborators that are called on it (grid update,
  Coulomb rebuild, ionic minimizer, ...) are uninterpreted functions on an abstract
  component `ext`, and every call is recorded in `calls`.
* Log output (`logPrintf`, `print`, `printLattice`) changes no state and is left out.
* The member `strain` is default-constructed, the zero matrix, when the constructor runs.
-/

set_option linter.dupNamespace false

namespace JDFTx

/-! ## matrix3 / vector3 -/

/-- The 3x3 matrix type `matrix3<scalar>`. -/
abbrev matrix3 (α : Type) := Matrix (Fin 3) (Fin 3) α

/-- The 3-vector type `vector3<scalar>`. -/
abbrev vector3 (α : Type) := Fin 3 → α

/-- Modelled from the spec: `trace` of `core/matrix3.h` (not among the sources), the sum of
the diagonal entries. -/
def trace {α : Type} [AddCommMonoid α] (m : matrix3 α) : α := Matrix.trace m

/-- Modelled from the spec: `det` of `core/matrix3.h` (not among the sources), the
determinant. -/
def det {α : Type} [CommRing α] (m : matrix3 α) : α := Matrix.det m

/-- Modelled from the spec: `adjugate` of `core/matrix3.h` (not among the sources), the
classical adjoint, for which `m⁻¹ = det(m)·adjugate(m)` when `|det m| = 1`. -/
def adjugate {α : Type} [CommRing α] (m : matrix3 α) : matrix3 α := Matrix.adjugate m

/-- Modelled from the spec: `Diag` of `core/matrix3.h` (not among the sources), the diagonal
matrix `D = diag(per-axis move-scale)`. -/
def Diag {α : Type} [Zero α] (v : vector3 α) : matrix3 α := Matrix.diagonal v

/-- The conversion `matrix3<>(const matrix3<int>&)` from an integer to a real matrix. -/
def toReal {K : Type} [IntCast K] (m : matrix3 ℤ) : matrix3 K := m.map (fun x => (x : K))

/-! ## Functions required by `Minimizable<matrix3<>>` -/

/-- `void axpy(double alpha, const matrix3<>& x, matrix3<>& y) { y += alpha * x; }`:
the new value of `y`. -/
def axpy {K : Type} [Field K] (alpha : K) (x y : matrix3 K) : matrix3 K := y + alpha • x

/-- `double dot(x, y) { return trace(x*(~y)); }`. -/
def dot {K : Type} [Field K] (x y : matrix3 K) : K := trace (x * y.transpose)

/-- `matrix3<> clone(const matrix3<>& x) { return x; }`. -/
def clone {K : Type} (x : matrix3 K) : matrix3 K := x

/-- Modelled from the spec: `nrm2` of `core/matrix3.h` (not among the sources), read as the
Frobenius norm, the square root of `dot(m, m)`. -/
def nrm2 {K : Type} [Field K] (sqrt : K → K) (m : matrix3 K) : K := sqrt (dot m m)

/-! ## State -/

/-- The collaborator calls made on `e`, in the order the source makes them. -/
inductive Call
  | gInfoUpdate
  | updateSupercell
  | createCoulomb
  | iInfoUpdate
  | elecEnergyAndGrad
  | ionicMinimize
  deriving DecidableEq, Repr

/-- The part of `Everything` the lattice minimizer reads and writes. -/
structure Everything (K ρ : Type) where
  /-- The cell `e.gInfo.R`. -/
  R : matrix3 K
  /-- The configured `e.cntrl.lattMoveScale`. -/
  lattMoveScale : vector3 K
  /-- The result of `e.coulombParams.isTruncated()`. -/
  isTruncated : vector3 Bool
  /-- The result of `e.symm.getMatrices()`. -/
  sym : List (matrix3 ℤ)
  /-- The reported `e.latticeMinParams.nDim`. -/
  nDim : Nat
  /-- Everything else: grid, Coulomb, ionic and electronic state. -/
  ext : ρ
  /-- The record of collaborator calls, oldest first. -/
  calls : List Call

/-- The collaborators, as functions of the current cell and of the remaining state. None of
them is given access to `R`: they read the cell and rewrite what depends on it. -/
structure Collaborators (K ρ : Type) where
  gInfoUpdate : matrix3 K → ρ → ρ
  updateSupercell : matrix3 K → ρ → ρ
  createCoulomb : matrix3 K → ρ → ρ
  iInfoUpdate : matrix3 K → ρ → ρ
  elecEnergyAndGrad : matrix3 K → ρ → ρ
  ionicMinimize : matrix3 K → ρ → ρ
  relevantFreeEnergy : matrix3 K → ρ → K

/-- The fatal errors raised through `die`. -/
inductive Fatal
  /-- "latt-move-scale is not commensurate with symmetries", with the reported axes. -/
  | notCommensurate (i j : Fin 3)
  /-- "All lattice-vectors are constrained by coulomb truncation and/or latt-move-scale". -/
  | allConstrained
  deriving DecidableEq, Repr

/-- The members of `class LatticeMinimizer`. -/
structure LatticeMinimizer (K ρ : Type) where
  e : Everything K ρ
  Rorig : matrix3 K
  strain : matrix3 K
  strainBasis : List (matrix3 K)
  h : K

/-! ## Constructor -/

/-- The first pair `(i, j)` of the loops `for i, for j` with `m(i,j)` non-zero and different
move scales (lines 41-43). -/
def conflictIn {K : Type} [DecidableEq K] (lattMoveScale : vector3 K) (m : matrix3 ℤ) :
    Option (Fin 3 × Fin 3) :=
  (List.finRange 3).findSome? fun i =>
    (List.finRange 3).findSome? fun j =>
      if m i j ≠ 0 ∧ lattMoveScale i ≠ lattMoveScale j then some (i, j) else none

/-- The commensurability check of lines 38-47: the axes the `die` reports, if it fires. -/
def checkMoveScale {K : Type} [DecidableEq K] (lattMoveScale : vector3 K)
    (sym : List (matrix3 ℤ)) : Option (Fin 3 × Fin 3) :=
  sym.findSome? (conflictIn lattMoveScale)

/-- Lines 50-52: `isFixed[k] = (lattMoveScale[k]==0.) || isTruncated[k]`. -/
def isFixed {K : Type} [DecidableEq K] [Zero K] (lattMoveScale : vector3 K)
    (isTruncated : vector3 Bool) : vector3 Bool :=
  fun k => decide (lattMoveScale k = 0) || isTruncated k

/-- The axis with number `n % 3`. -/
def axis (n : Nat) : Fin 3 := ⟨n % 3, Nat.mod_lt _ (by decide)⟩

/-- Lines 57-67: the generator `s` of loop index `k`. -/
def generator (k : Nat) : matrix3 ℤ :=
  if k < 3 then
    fun a b => if a = axis k ∧ b = axis k then 1 else 0
  else
    fun a b =>
      if (a = axis (k + 1) ∧ b = axis (k + 2)) ∨ (a = axis (k + 2) ∧ b = axis (k + 1)) then 1
      else 0

/-- Lines 60 and 66: whether generator `k` is skipped because it alters a fixed direction. -/
def skipped (fixed : vector3 Bool) (k : Nat) : Bool :=
  if k < 3 then fixed (axis k) else fixed (axis (k + 1)) || fixed (axis (k + 2))

/-- Line 71: `matrix3<int> mInv = det(m) * adjugate(m)`. -/
def mInv (m : matrix3 ℤ) : matrix3 ℤ := det m • adjugate m

/-- Lines 69-73: `sSym`, the sum of `mInv * s * m` over the symmetry matrices. -/
def symmetrize (sym : List (matrix3 ℤ)) (s : matrix3 ℤ) : matrix3 ℤ :=
  sym.foldl (fun sSym m => sSym + mInv m * s * m) 0

/-- Lines 76-77: `for sPrev in strainBasis: strain -= sPrev * dot(sPrev, strain)`. -/
def orthogonalize {K : Type} [Field K] (strainBasis : List (matrix3 K)) (strain : matrix3 K) :
    matrix3 K :=
  strainBasis.foldl (fun strain sPrev => strain - dot sPrev strain • sPrev) strain

/-- One pass of the body of the loop of lines 55-81 for index `k`: the new `strainBasis`. -/
def basisStep {K : Type} [LinearOrderedField K] (sqrt : K → K) (symmThresholdSq : K)
    (sym : List (matrix3 ℤ)) (fixed : vector3 Bool) (strainBasis : List (matrix3 K)) (k : Nat) :
    List (matrix3 K) :=
  if skipped fixed k then strainBasis
  else
    let sSym := symmetrize sym (generator k)
    let strain := orthogonalize strainBasis (toReal sSym)
    let strainNorm := nrm2 sqrt strain
    if strainNorm < symmThresholdSq then strainBasis
    else strainBasis ++ [(1 / strainNorm) • strain]

/-- Lines 55-81: the loop `for(int k=0; k<6; k++)`, started from the empty basis. -/
def buildBasis {K : Type} [LinearOrderedField K] (sqrt : K → K) (symmThresholdSq : K)
    (sym : List (matrix3 ℤ)) (fixed : vector3 Bool) : List (matrix3 K) :=
  (List.range 6).foldl (basisStep sqrt symmThresholdSq sym fixed) []

/-- The constructor `LatticeMinimizer::LatticeMinimizer(Everything& e)`. The constant
`symmThresholdSq` is declared outside the sources and is a parameter. -/
def LatticeMinimizer.LatticeMinimizer {K ρ : Type} [LinearOrderedField K] (sqrt : K → K)
    (symmThresholdSq : K) (e : Everything K ρ) : Except Fatal (LatticeMinimizer K ρ) :=
  match checkMoveScale e.lattMoveScale e.sym with
  | some (i, j) => .error (.notCommensurate i j)
  | none =>
    let fixed := isFixed e.lattMoveScale e.isTruncated
    let strainBasis := buildBasis sqrt symmThresholdSq e.sym fixed
    if strainBasis.length = 0 then .error .allConstrained
    else
      .ok { e := { e with nDim := strainBasis.length }
            Rorig := e.R
            strain := 0
            strainBasis := strainBasis
            h := 1 / 100000 }

/-! ## The interface used by the generic minimizer -/

/-- `void LatticeMinimizer::step(const matrix3<>& dir, double alpha)`: `strain += alpha * dir`. -/
def step {K ρ : Type} [Field K] (lm : LatticeMinimizer K ρ) (dir : matrix3 K) (alpha : K) :
    LatticeMinimizer K ρ :=
  { lm with strain := lm.strain + alpha • dir }

/-- `void LatticeMinimizer::updateLatticeDependent(bool ignoreElectronic)` (lines 188-196),
acting on `e`. -/
def updateLatticeDependent {K ρ : Type} (c : Collaborators K ρ) (ignoreElectronic : Bool)
    (e : Everything K ρ) : Everything K ρ :=
  let e := { e with ext := c.gInfoUpdate e.R e.ext, calls := e.calls ++ [Call.gInfoUpdate] }
  let e := { e with ext := c.updateSupercell e.R e.ext,
                    calls := e.calls ++ [Call.updateSupercell] }
  let e := { e with ext := c.createCoulomb e.R e.ext, calls := e.calls ++ [Call.createCoulomb] }
  let e := { e with ext := c.iInfoUpdate e.R e.ext, calls := e.calls ++ [Call.iInfoUpdate] }
  if ignoreElectronic then e
  else { e with ext := c.elecEnergyAndGrad e.R e.ext,
                calls := e.calls ++ [Call.elecEnergyAndGrad] }

/-- `IonicMinimizer ionicMinimizer(e); ionicMinimizer.minimize(e.ionicMinParams);`
(lines 116-117), acting on `e`. -/
def ionicMinimize {K ρ : Type} (c : Collaborators K ρ) (e : Everything K ρ) : Everything K ρ :=
  { e with ext := c.ionicMinimize e.R e.ext, calls := e.calls ++ [Call.ionicMinimize] }

/-- `relevantFreeEnergy(e)`. -/
def relevantFreeEnergy {K ρ : Type} (c : Collaborators K ρ) (e : Everything K ρ) : K :=
  c.relevantFreeEnergy e.R e.ext

/-- One probe of `centralDifference`: set the cell for `strain + t*direction`, propagate with
`updateLatticeDependent()` and read the energy. -/
def probe {K ρ : Type} [Field K] (c : Collaborators K ρ) (lm : LatticeMinimizer K ρ)
    (t : K) (direction : matrix3 K) : K × LatticeMinimizer K ρ :=
  let e := { lm.e with R := lm.Rorig + lm.Rorig * (lm.strain + t • direction) }
  let e := updateLatticeDependent c false e
  (relevantFreeEnergy c e, { lm with e := e })

/-- `double LatticeMinimizer::centralDifference(matrix3<> direction)` (lines 145-165). -/
def centralDifference {K ρ : Type} [Field K] (c : Collaborators K ρ) (lm : LatticeMinimizer K ρ)
    (direction : matrix3 K) : K × LatticeMinimizer K ρ :=
  let (En2h, lm) := probe c lm (-2 * lm.h) direction
  let (Enh, lm) := probe c lm (-lm.h) direction
  let (Eph, lm) := probe c lm lm.h direction
  let (Ep2h, lm) := probe c lm (2 * lm.h) direction
  ((1 / (12 * lm.h)) * (En2h - 8 * Enh + 8 * Eph - Ep2h), lm)

/-- `std::vector<double> LatticeMinimizer::calculateStress()` (lines 133-143). -/
def calculateStress {K ρ : Type} [Field K] (c : Collaborators K ρ) (lm : LatticeMinimizer K ρ) :
    List K × LatticeMinimizer K ρ :=
  lm.strainBasis.foldl
    (fun (acc : List K × LatticeMinimizer K ρ) b =>
      let (d, lm) := centralDifference c acc.2 b
      (acc.1 ++ [d], lm))
    ([], lm)

/-- Lines 122-125: `*grad = matrix3<>(); for i: *grad += stress[i]*strainBasis[i]`. -/
def assembleGradient {K : Type} [Field K] (stress : List K) (strainBasis : List (matrix3 K)) :
    matrix3 K :=
  (List.zip stress strainBasis).foldl (fun g p => g + p.1 • p.2) 0

/-- `double LatticeMinimizer::compute(matrix3<>* grad)` (lines 101-131). The argument `grad`
is `none` for a null pointer and otherwise holds the matrix pointed to; the result is the
returned energy (`none` for `NAN`), the new state and the new contents of `*grad`. The
constant `maxAllowedStrain` is declared outside the sources and is a parameter. -/
def compute {K ρ : Type} [LinearOrderedField K] (sqrt : K → K) (maxAllowedStrain : K)
    (c : Collaborators K ρ) (lm : LatticeMinimizer K ρ) (grad : Option (matrix3 K)) :
    Option K × LatticeMinimizer K ρ × Option (matrix3 K) :=
  if sqrt (dot lm.strain lm.strain) > maxAllowedStrain then (none, lm, grad)
  else
    let e := { lm.e with R := lm.Rorig + lm.Rorig * lm.strain }
    let e := updateLatticeDependent c true e
    let e := ionicMinimize c e
    let lm := { lm with e := e }
    match grad with
    | none => (some (relevantFreeEnergy c lm.e), lm, none)
    | some _ =>
      let (stress, lm) := calculateStress c lm
      let g := assembleGradient stress lm.strainBasis
      let e := { lm.e with R := lm.Rorig + lm.Rorig * lm.strain }
      let e := updateLatticeDependent c false e
      (some (relevantFreeEnergy c e), { lm with e := e }, some g)

/-- `matrix3<> LatticeMinimizer::precondition(const matrix3<>& grad)` (lines 167-169). -/
def precondition {K ρ : Type} [Field K] (lm : LatticeMinimizer K ρ) (grad : matrix3 K) :
    matrix3 K :=
  Diag lm.e.lattMoveScale * grad * Diag lm.e.lattMoveScale

/-- `void LatticeMinimizer::constrain(matrix3<>& dir)` (lines 181-186): the new `dir`. -/
def constrain {K ρ : Type} [Field K] (lm : LatticeMinimizer K ρ) (dir : matrix3 K) :
    matrix3 K :=
  lm.strainBasis.foldl (fun result s => result + dot s dir • s) 0

/-- `void LatticeMinimizer::restore()` (lines 198-202). -/
def restore {K ρ : Type} [Field K] (c : Collaborators K ρ) (lm : LatticeMinimizer K ρ) :
    LatticeMinimizer K ρ :=
  let lm := { lm with strain := (0 : K) • lm.strain }
  let e := { lm.e with R := lm.Rorig }
  { lm with e := updateLatticeDependent c false e }

/-- A call the generic minimizer makes on the interface. -/
inductive Op (K : Type)
  | step (dir : matrix3 K) (alpha : K)
  | compute (grad : Option (matrix3 K))
  | restore

/-- The state after one call. -/
def Op.apply {K ρ : Type} [LinearOrderedField K] (sqrt : K → K) (maxAllowedStrain : K)
    (c : Collaborators K ρ) (lm : LatticeMinimizer K ρ) : Op K → LatticeMinimizer K ρ
  | .step dir alpha => JDFTx.step lm dir alpha
  | .compute grad => (JDFTx.compute sqrt maxAllowedStrain c lm grad).2.1
  | .restore => JDFTx.restore c lm

/-- The state after a sequence of calls, made in list order. -/
def run {K ρ : Type} [LinearOrderedField K] (sqrt : K → K) (maxAllowedStrain : K)
    (c : Collaborators K ρ) (lm : LatticeMinimizer K ρ) (ops : List (Op K)) :
    LatticeMinimizer K ρ :=
  ops.foldl (Op.apply sqrt maxAllowedStrain c) lm

/-! ## Predicates and sample data used in the statements -/

/-- A list of matrices is orthonormal for `dot`. -/
def Orthonormal {K : Type} [Field K] (basis : List (matrix3 K)) : Prop :=
  (∀ b ∈ basis, dot b b = 1) ∧ basis.Pairwise (fun a b => dot a b = 0)

/-- The matrix `b` satisfies `m⁻¹ * b * m = b`, with `m⁻¹ = det(m) * adjugate(m)`. -/
def InvariantUnder {K : Type} [Field K] (m : matrix3 ℤ) (b : matrix3 K) : Prop :=
  toReal (mInv m) * b * toReal m = b

/-- The exchange of the first two axes. -/
def swap01 : matrix3 ℤ := !![0, 1, 0; 1, 0, 0; 0, 0, 1]

/-- The three-fold rotation of a hexagonal lattice, in lattice coordinates. -/
def rot3 : matrix3 ℤ := !![0, -1, 0; 1, -1, 0; 0, 0, 1]

/-- The square of `rot3`. -/
def rot3sq : matrix3 ℤ := !![-1, 1, 0; -1, 0, 0; 0, 0, 1]

/-- A collaborator set on a state without further components. -/
def trivialCollaborators (K : Type) [Zero K] : Collaborators K Unit :=
  { gInfoUpdate := fun _ u => u
    updateSupercell := fun _ u => u
    createCoulomb := fun _ u => u
    iInfoUpdate := fun _ u => u
    elecEnergyAndGrad := fun _ u => u
    ionicMinimize := fun _ u => u
    relevantFreeEnergy := fun _ _ => 0 }

/-- A configuration with cell `R`, the given symmetries, move scales and truncation flags. -/
def config {K : Type} (R : matrix3 K) (sym : List (matrix3 ℤ)) (lattMoveScale : vector3 K)
    (isTruncated : vector3 Bool) : Everything K Unit :=
  { R := R, lattMoveScale := lattMoveScale, isTruncated := isTruncated, sym := sym, nDim := 0,
    ext := (), calls := [] }

/-- The signed permutation matrix with entry `sgn i` at `(i, p i)`. -/
def signedPerm (p : Fin 3 → Fin 3) (sgn : Fin 3 → ℤ) : matrix3 ℤ :=
  fun i j => if p i = j then sgn i else 0

/-- The full cubic point group: the 48 signed 3x3 permutation matrices. -/
def cubicGroup : List (matrix3 ℤ) :=
  [![0, 1, 2], ![0, 2, 1], ![1, 0, 2], ![1, 2, 0], ![2, 0, 1], ![2, 1, 0]].flatMap fun p =>
    [1, -1].flatMap fun a => [1, -1].flatMap fun b => [1, -1].map fun c =>
      signedPerm p ![a, b, c]

/-- A collaborator set on a state without further components whose free energy is the
function `E` of the cell. -/
def energyCollaborators {K : Type} (E : matrix3 K → K) : Collaborators K Unit :=
  { gInfoUpdate := fun _ u => u
    updateSupercell := fun _ u => u
    createCoulomb := fun _ u => u
    iInfoUpdate := fun _ u => u
    elecEnergyAndGrad := fun _ u => u
    ionicMinimize := fun _ u => u
    relevantFreeEnergy := fun R _ => E R }

/-- `inline int fullRindex(const vector3<int> iR) const` (GridInfo.h, lines 134-136), for the
sample counts `S`, with unbounded integers. -/
def fullRindex (S : vector3 ℤ) (iR : vector3 ℤ) : ℤ := iR 2 + S 2 * (iR 1 + S 1 * iR 0)

/-- The field `nr`, documented as "position space grid count = S[0]*S[1]*S[2]" (GridInfo.h,
line 99). -/
def nr (S : vector3 ℤ) : ℤ := S 0 * S 1 * S 2

/-- The coordinate `iR` lies in the box `0 <= iR[k] < S[k]`. -/
def inBox (S : vector3 ℤ) (iR : vector3 ℤ) : Prop := ∀ k, 0 ≤ iR k ∧ iR k < S k

/-- The state after one call of a driver that passes every step direction through
`constrain` first. -/
def Op.applyConstrained {K ρ : Type} [LinearOrderedField K] (sqrt : K → K)
    (maxAllowedStrain : K) (c : Collaborators K ρ) (lm : LatticeMinimizer K ρ) :
    Op K → LatticeMinimizer K ρ
  | .step dir alpha => JDFTx.step lm (JDFTx.constrain lm dir) alpha
  | .compute grad => (JDFTx.compute sqrt maxAllowedStrain c lm grad).2.1
  | .restore => JDFTx.restore c lm

/-- The state after a sequence of such calls, made in list order. -/
def runConstrained {K ρ : Type} [LinearOrderedField K] (sqrt : K → K) (maxAllowedStrain : K)
    (c : Collaborators K ρ) (lm : LatticeMinimizer K ρ) (ops : List (Op K)) :
    LatticeMinimizer K ρ :=
  ops.foldl (Op.applyConstrained sqrt maxAllowedStrain c) lm

/-- The symmetry matrix `m` does not couple axis `k` to the other two:
`m(k,j) = m(j,k) = 0` for `j ≠ k`. -/
def Decoupled (k : Fin 3) (m : matrix3 ℤ) : Prop := ∀ j, j ≠ k → m k j = 0 ∧ m j k = 0

/-- Every entry of `b` in row `k` and in column `k` is zero: `b` does not involve axis `k`. -/
def AvoidsAxis {α : Type} [Zero α] (k : Fin 3) (b : matrix3 α) : Prop :=
  ∀ j, b k j = 0 ∧ b j k = 0

/-- Every entry of `b` outside row `k` and column `k` is zero. -/
def TouchesOnly {α : Type} [Zero α] (k : Fin 3) (b : matrix3 α) : Prop :=
  ∀ i j, i ≠ k → j ≠ k → b i j = 0

instance decidableAvoidsAxis {α : Type} [Zero α] [DecidableEq α] (k : Fin 3) (b : matrix3 α) :
    Decidable (AvoidsAxis k b) := by
  unfold AvoidsAxis
  infer_instance

/-- The fixed-axis flags with exactly axis `k` fixed. -/
def onlyFixed (k : Fin 3) : vector3 Bool := fun a => decide (a = k)

/-! ## Compile-time loops of `electronic/SpeciesInfo_internal.h` -/

/-- `StaticLoopYlm<Nlm, Functor, lmInv>::exec(f)` (lines 65-73): the specialization for
`lmInv = 0` returns, the general template calls `(*f)(StaticLoopYlmTag<Nlm-lmInv>())` and
then `StaticLoopYlm<Nlm, Functor, lmInv-1>::exec(f)`. The functor is its state `s` together
with the effect `f lm` of `operator()(StaticLoopYlmTag<lm>)` on it. -/
def StaticLoopYlm.exec {σ : Type} (Nlm : Int) (f : Int → σ → σ) : Nat → σ → σ
  | 0, s => s
  | lmInv + 1, s => StaticLoopYlm.exec Nlm f lmInv (f (Nlm - ((lmInv + 1 : Nat) : Int)) s)

/-- `staticLoopYlm<Nlm>(f)` (lines 74-76): `StaticLoopYlm<Nlm, Functor, Nlm>::exec(f)`. -/
def staticLoopYlm {σ : Type} (Nlm : Nat) (f : Int → σ → σ) (s : σ) : σ :=
  StaticLoopYlm.exec (Nlm : Int) f Nlm s

/-- The run-time loop of the comment of lines 60-61:
`for(lm=0; lm < Nlm; lm++) (*f)(tag< lm >);`. -/
def runtimeLoopYlm {σ : Type} (Nlm : Nat) (f : Int → σ → σ) (s : σ) : σ :=
  (List.range Nlm).foldl (fun s (lm : Nat) => f (lm : Int) s) s

/-- The loop `for(int l=l0; l*(l+2) < lm; l++) phase *= mIota;` of lines 106 and 147: the
final value of the counter `l` and of `phase`. -/
def phaseLoop {C : Type} [Mul C] (mIota : C) (lm : Int) (l : Nat) (phase : C) : Nat × C :=
  if (l : Int) * ((l : Int) + 2) < lm then phaseLoop mIota lm (l + 1) (phase * mIota)
  else (l, phase)
termination_by (lm - (l : Int) * ((l : Int) + 2)).toNat
decreasing_by
  rename_i hlt
  have h0 : (0 : Int) ≤ (l : Int) := Int.ofNat_nonneg l
  have h1 : ((l + 1 : Nat) : Int) * (((l + 1 : Nat) : Int) + 2)
      = (l : Int) * ((l : Int) + 2) + 2 * (l : Int) + 3 := by
    push_cast
    ring
  rw [h1]
  generalize (l : Int) * ((l : Int) + 2) = p at hlt
  omega

/-- Lines 105-106 (and 146-147): `complex mIota(0,-1), phase(1,0);` followed by the loop, for
the tag `lm`: the number of passes and the final `phase`. -/
def phaseOf (lm : Int) : Nat × ℂ := phaseLoop (⟨0, -1⟩ : ℂ) lm 0 ⟨1, 0⟩

/-! ## Sample data for the discard test of the basis loop -/

/-- The integer matrix `w`, converted and scaled to unit norm: `(1/nrm2(w)) * w`. -/
def normalized {K : Type} [Field K] (sqrt : K → K) (w : matrix3 ℤ) : matrix3 K :=
  (1 / sqrt ((trace (w * w.transpose) : ℤ) : K)) • toReal w

/-- A cell matrix of the simple cubic lattice in a skewed basis: an integer matrix of
determinant `1`, whose columns are lattice vectors that generate the integer lattice. -/
def skewBasis : matrix3 ℤ := !![14, 9, -18; -15, -9, 19; -7, -11, 12]

/-- The mirror exchanging the first two cubic axes, in the lattice coordinates of the cell
`skewBasis`: `skewBasis * skewMirror = swap01 * skewBasis`. -/
def skewMirror : matrix3 ℤ := !![-318, -198, 407; -145, -89, 185; -319, -198, 408]

/-- A positive multiple, with integer entries, of the residual of generator `0` in the basis
loop for the group of `skewMirror`. -/
def skewResidual0 : matrix3 ℤ :=
  !![101125, 62964, -129426; 46110, 28710, -59015; 101442, 63162, -129833]

/-- A positive multiple, with integer entries, of the residual of generator `1` in the basis
loop for the group of `skewMirror`. -/
def skewResidual1 : matrix3 ℤ :=
  !![12308232689365, -9728857776330, -7885977862488; -7124668573575, -12190841987352,
    12665981634520; 6180901567896, -13556023587216, -19025917889]

/-- A positive multiple, with integer entries, of the residual of generator `2` in the basis
loop for the group of `skewMirror`. -/
def skewResidual2 : matrix3 ℤ :=
  !![12974358047504199, 13944239405712, 11371308360060; 10211690473880, 13009559836975261,
    -18162686142990; -8912647093020, 19438983007092, 12992144392229379]

/-- A positive multiple, with integer entries, of the residual of generator `3` in the basis
loop for the group of `skewMirror`. -/
def skewResidual3 : matrix3 ℤ :=
  !![-395330758434943059, 14741084982751617413, -6310836053321648585; -13255156759002380291,
    -1412129087110055081, 13894454690516685451; -6753861571921007184, 10869601794914335693,
    1807459845544998140]

/-- A positive multiple, with integer entries, of the residual of generator `4` in the basis
loop for the group of `skewMirror`. -/
def skewResidual4 : matrix3 ℤ :=
  !![19652772468967087, 68701389123578398, 4909322810162089; 68666570411562012,
    -74752054084064778, -9329273361436992; 5081586098596325, -9659910232464250,
    55099281615097691]

/-- The five matrices `skewResidual0`, ..., `skewResidual4`, in the order of the loop. -/
def skewResiduals : List (matrix3 ℤ) :=
  [skewResidual0, skewResidual1, skewResidual2, skewResidual3, skewResidual4]

/-! # Theorems -/

/-! ## The Frobenius inner product -/

theorem dot_eq_sum {K : Type} [Field K] (x y : matrix3 K) :
    dot x y = ∑ i, ∑ j, x i j * y i j := by
  simp [dot, trace, Matrix.trace, Matrix.mul_apply, Matrix.transpose_apply]

theorem dot_comm {K : Type} [Field K] (x y : matrix3 K) : dot x y = dot y x := by
  simp only [dot_eq_sum]
  exact Finset.sum_congr rfl fun i _ => Finset.sum_congr rfl fun j _ => mul_comm _ _

theorem dot_add_right {K : Type} [Field K] (x y z : matrix3 K) :
    dot x (y + z) = dot x y + dot x z := by
  simp [dot, trace, Matrix.transpose_add, mul_add, Matrix.trace_add]

theorem dot_sub_right {K : Type} [Field K] (x y z : matrix3 K) :
    dot x (y - z) = dot x y - dot x z := by
  simp [dot, trace, Matrix.transpose_sub, mul_sub, Matrix.trace_sub]

theorem dot_smul_right {K : Type} [Field K] (c : K) (x y : matrix3 K) :
    dot x (c • y) = c * dot x y := by
  simp [dot, trace, Matrix.transpose_smul, Matrix.trace_smul]

theorem dot_smul_left {K : Type} [Field K] (c : K) (x y : matrix3 K) :
    dot (c • x) y = c * dot x y := by
  rw [dot_comm, dot_smul_right, dot_comm]

theorem dot_zero_right {K : Type} [Field K] (x : matrix3 K) : dot x 0 = 0 := by
  simp [dot, trace]

theorem dot_self_nonneg {K : Type} [LinearOrderedField K] (x : matrix3 K) : 0 ≤ dot x x := by
  rw [dot_eq_sum]
  exact Finset.sum_nonneg fun i _ => Finset.sum_nonneg fun j _ => mul_self_nonneg _

/-- An invariant of the loop body that holds of the empty basis holds of the result. -/
theorem buildBasis_induction {K : Type} [LinearOrderedField K] (sqrt : K → K)
    (symmThresholdSq : K) (sym : List (matrix3 ℤ)) (fixed : vector3 Bool)
    (P : List (matrix3 K) → Prop) (h0 : P [])
    (hstep : ∀ basis k, P basis → P (basisStep sqrt symmThresholdSq sym fixed basis k)) :
    P (buildBasis sqrt symmThresholdSq sym fixed) := by
  unfold buildBasis
  generalize List.range 6 = ks
  suffices h : ∀ (basis : List (matrix3 K)), P basis →
      P (ks.foldl (basisStep sqrt symmThresholdSq sym fixed) basis) from h [] h0
  induction ks with
  | nil => intro basis hb; exact hb
  | cons k ks ih => intro basis hb; exact ih _ (hstep basis k hb)

theorem orthogonalize_nil {K : Type} [Field K] (v : matrix3 K) : orthogonalize [] v = v := rfl

theorem orthogonalize_cons {K : Type} [Field K] (p : matrix3 K) (ps : List (matrix3 K))
    (v : matrix3 K) : orthogonalize (p :: ps) v = orthogonalize ps (v - dot p v • p) := rfl

/-- Removing the components along `ps` does not change the component along a matrix
orthogonal to all of `ps`. -/
theorem dot_orthogonalize_of_orthogonal {K : Type} [Field K] (p : matrix3 K) :
    ∀ (ps : List (matrix3 K)) (v : matrix3 K), (∀ q ∈ ps, dot p q = 0) →
      dot p (orthogonalize ps v) = dot p v := by
  intro ps
  induction ps with
  | nil => intro v _; rfl
  | cons q qs ih =>
    intro v hq
    rw [orthogonalize_cons, ih _ (fun r hr => hq r (List.mem_cons_of_mem _ hr)),
      dot_sub_right, dot_smul_right, hq q (List.mem_cons_self _ _)]
    ring

/-- After the loop of lines 76-77 the candidate is orthogonal to every previous element. -/
theorem dot_orthogonalize_eq_zero {K : Type} [Field K] :
    ∀ (ps : List (matrix3 K)) (v : matrix3 K), Orthonormal ps →
      ∀ p ∈ ps, dot p (orthogonalize ps v) = 0 := by
  intro ps
  induction ps with
  | nil => intro v _ p hp; cases hp
  | cons q qs ih =>
    intro v hqs p hp
    obtain ⟨hunit, hpair⟩ := hqs
    rw [List.pairwise_cons] at hpair
    have hqs' : Orthonormal qs := ⟨fun b hb => hunit b (List.mem_cons_of_mem _ hb), hpair.2⟩
    rw [orthogonalize_cons]
    rcases List.mem_cons.mp hp with rfl | hp'
    · rw [dot_orthogonalize_of_orthogonal p qs _ hpair.1, dot_sub_right, dot_smul_right,
        hunit p (List.mem_cons_self _ _)]
      ring
    · exact ih _ hqs' p hp'

theorem orthonormal_nil {K : Type} [Field K] : Orthonormal ([] : List (matrix3 K)) :=
  ⟨fun _ hb => (List.not_mem_nil _ hb).elim, List.Pairwise.nil⟩

/-- Appending a unit matrix orthogonal to an orthonormal list keeps it orthonormal. -/
theorem orthonormal_append_singleton {K : Type} [Field K] (basis : List (matrix3 K))
    (u : matrix3 K) (hb : Orthonormal basis) (hu : dot u u = 1)
    (horth : ∀ b ∈ basis, dot b u = 0) : Orthonormal (basis ++ [u]) := by
  refine ⟨fun b hmem => ?_, ?_⟩
  · rcases List.mem_append.mp hmem with h | h
    · exact hb.1 b h
    · rw [List.mem_singleton.mp h]; exact hu
  · rw [List.pairwise_append]
    refine ⟨hb.2, List.pairwise_singleton _ _, fun a ha b hb' => ?_⟩
    rw [List.mem_singleton.mp hb']
    exact horth a ha

/-- Over the reals, with a positive threshold, the loop body keeps the basis orthonormal. -/
theorem basisStep_orthonormal (symmThresholdSq : ℝ) (hthr : 0 < symmThresholdSq)
    (sym : List (matrix3 ℤ)) (fixed : vector3 Bool) (basis : List (matrix3 ℝ)) (k : Nat)
    (hb : Orthonormal basis) :
    Orthonormal (basisStep Real.sqrt symmThresholdSq sym fixed basis k) := by
  unfold basisStep
  split
  · exact hb
  · simp only
    split
    · exact hb
    · rename_i hnorm
      set w := orthogonalize basis (toReal (symmetrize sym (generator k))) with hw
      have hpos : 0 < nrm2 Real.sqrt w := lt_of_lt_of_le hthr (not_lt.mp hnorm)
      have hsq : nrm2 Real.sqrt w * nrm2 Real.sqrt w = dot w w :=
        Real.mul_self_sqrt (dot_self_nonneg w)
      apply orthonormal_append_singleton _ _ hb
      · rw [dot_smul_left, dot_smul_right, ← hsq]
        field_simp
      · intro b hmem
        rw [dot_smul_right, hw, dot_orthogonalize_eq_zero basis _ hb b hmem, mul_zero]

/-- Over the reals, with a positive threshold, the basis built by the loop is orthonormal. -/
theorem buildBasis_orthonormal (symmThresholdSq : ℝ) (hthr : 0 < symmThresholdSq)
    (sym : List (matrix3 ℤ)) (fixed : vector3 Bool) :
    Orthonormal (buildBasis Real.sqrt symmThresholdSq sym fixed) :=
  buildBasis_induction Real.sqrt symmThresholdSq sym fixed Orthonormal orthonormal_nil
    (fun basis k hb => basisStep_orthonormal symmThresholdSq hthr sym fixed basis k hb)

/-- What a successful construction returns. -/
theorem LatticeMinimizer_ok {K ρ : Type} [LinearOrderedField K] (sqrt : K → K)
    (symmThresholdSq : K) (e : Everything K ρ) (lm : LatticeMinimizer K ρ)
    (hok : LatticeMinimizer.LatticeMinimizer sqrt symmThresholdSq e = .ok lm) :
    checkMoveScale e.lattMoveScale e.sym = none ∧
    lm.strainBasis =
      buildBasis sqrt symmThresholdSq e.sym (isFixed e.lattMoveScale e.isTruncated) ∧
    lm.strainBasis ≠ [] ∧ lm.strain = 0 ∧ lm.Rorig = e.R ∧ lm.e.R = e.R := by
  unfold LatticeMinimizer.LatticeMinimizer at hok
  split at hok
  · cases hok
  · rename_i hcheck
    simp only at hok
    split at hok
    · cases hok
    · rename_i hlen
      cases hok
      exact ⟨hcheck, rfl, fun h => hlen (congrArg List.length h), rfl, rfl, rfl⟩

/-- An orthonormal list, read by position. -/
theorem orthonormal_get {K : Type} [Field K] (basis : List (matrix3 K)) (hb : Orthonormal basis)
    (i j : Fin basis.length) : dot (basis.get i) (basis.get j) = if i = j then 1 else 0 := by
  split
  · rename_i hij
    rw [hij]
    exact hb.1 _ (List.get_mem _ _ _)
  · rename_i hij
    rcases lt_or_gt_of_ne (fun h => hij (Fin.ext h) : (i : Nat) ≠ j) with h | h
    · exact List.pairwise_iff_get.mp hb.2 i j h
    · rw [dot_comm]; exact List.pairwise_iff_get.mp hb.2 j i h

/-- C1: over the reals, with the Frobenius norm and a positive discard threshold, the strain
basis of every successful construction is orthonormal for `dot`: `dot(b_i, b_i) = 1` and
`dot(b_i, b_j) = 0` for `i ≠ j`. -/
theorem strainBasis_orthonormal {ρ : Type} (symmThresholdSq : ℝ) (hthr : 0 < symmThresholdSq)
    (e : Everything ℝ ρ) (lm : LatticeMinimizer ℝ ρ)
    (hok : LatticeMinimizer.LatticeMinimizer Real.sqrt symmThresholdSq e = .ok lm)
    (i j : Fin lm.strainBasis.length) :
    dot (lm.strainBasis.get i) (lm.strainBasis.get j) = if i = j then 1 else 0 := by
  have hb : Orthonormal lm.strainBasis := by
    rw [(LatticeMinimizer_ok Real.sqrt symmThresholdSq e lm hok).2.1]
    exact buildBasis_orthonormal symmThresholdSq hthr _ _
  exact orthonormal_get _ hb i j

/-! ## The outcome of the constructor -/

theorem conflictIn_eq_none {K : Type} [DecidableEq K] (lattMoveScale : vector3 K)
    (m : matrix3 ℤ) :
    conflictIn lattMoveScale m = none ↔
      ∀ i j, m i j ≠ 0 → lattMoveScale i = lattMoveScale j := by
  unfold conflictIn
  simp only [List.findSome?_eq_none_iff, List.mem_finRange, true_implies, ite_eq_right_iff,
    reduceCtorEq, imp_false, not_and, not_not]

theorem conflictIn_eq_some {K : Type} [DecidableEq K] (lattMoveScale : vector3 K)
    (m : matrix3 ℤ) (i j : Fin 3) (h : conflictIn lattMoveScale m = some (i, j)) :
    m i j ≠ 0 ∧ lattMoveScale i ≠ lattMoveScale j := by
  unfold conflictIn at h
  obtain ⟨a, _, ha⟩ := List.exists_of_findSome?_eq_some h
  obtain ⟨b, _, hb⟩ := List.exists_of_findSome?_eq_some ha
  split at hb
  · rename_i hab
    cases hb
    exact hab
  · cases hb

theorem checkMoveScale_eq_none {K : Type} [DecidableEq K] (lattMoveScale : vector3 K)
    (sym : List (matrix3 ℤ)) :
    checkMoveScale lattMoveScale sym = none ↔
      ∀ m ∈ sym, ∀ i j, m i j ≠ 0 → lattMoveScale i = lattMoveScale j := by
  unfold checkMoveScale
  rw [List.findSome?_eq_none_iff]
  exact forall_congr' fun m => imp_congr_right fun _ => conflictIn_eq_none lattMoveScale m

theorem checkMoveScale_eq_some {K : Type} [DecidableEq K] (lattMoveScale : vector3 K)
    (sym : List (matrix3 ℤ)) (i j : Fin 3) (h : checkMoveScale lattMoveScale sym = some (i, j)) :
    ∃ m ∈ sym, m i j ≠ 0 ∧ lattMoveScale i ≠ lattMoveScale j := by
  unfold checkMoveScale at h
  obtain ⟨m, hm, hc⟩ := List.exists_of_findSome?_eq_some h
  exact ⟨m, hm, conflictIn_eq_some lattMoveScale m i j hc⟩

theorem LatticeMinimizer_of_conflict {K ρ : Type} [LinearOrderedField K] (sqrt : K → K)
    (symmThresholdSq : K) (e : Everything K ρ) (i j : Fin 3)
    (h : checkMoveScale e.lattMoveScale e.sym = some (i, j)) :
    LatticeMinimizer.LatticeMinimizer sqrt symmThresholdSq e
      = .error (.notCommensurate i j) := by
  unfold LatticeMinimizer.LatticeMinimizer
  rw [h]

theorem LatticeMinimizer_of_empty {K ρ : Type} [LinearOrderedField K] (sqrt : K → K)
    (symmThresholdSq : K) (e : Everything K ρ)
    (h : checkMoveScale e.lattMoveScale e.sym = none)
    (hb : buildBasis sqrt symmThresholdSq e.sym (isFixed e.lattMoveScale e.isTruncated) = []) :
    LatticeMinimizer.LatticeMinimizer sqrt symmThresholdSq e = .error .allConstrained := by
  unfold LatticeMinimizer.LatticeMinimizer
  rw [h]
  simp [hb]

theorem LatticeMinimizer_of_nonempty {K ρ : Type} [LinearOrderedField K] (sqrt : K → K)
    (symmThresholdSq : K) (e : Everything K ρ)
    (h : checkMoveScale e.lattMoveScale e.sym = none)
    (hb : buildBasis sqrt symmThresholdSq e.sym (isFixed e.lattMoveScale e.isTruncated) ≠ []) :
    ∃ lm, LatticeMinimizer.LatticeMinimizer sqrt symmThresholdSq e = .ok lm := by
  unfold LatticeMinimizer.LatticeMinimizer
  rw [h]
  simp [hb]

theorem LatticeMinimizer_notCommensurate {K ρ : Type} [LinearOrderedField K] (sqrt : K → K)
    (symmThresholdSq : K) (e : Everything K ρ) (i j : Fin 3)
    (h : LatticeMinimizer.LatticeMinimizer sqrt symmThresholdSq e
      = .error (.notCommensurate i j)) :
    checkMoveScale e.lattMoveScale e.sym = some (i, j) := by
  unfold LatticeMinimizer.LatticeMinimizer at h
  split at h
  · rename_i a b hab
    cases h
    exact hab
  · simp only at h
    split at h <;> cases h

/-! ## The loop only appends -/

theorem basisStep_extends {K : Type} [LinearOrderedField K] (sqrt : K → K) (symmThresholdSq : K)
    (sym : List (matrix3 ℤ)) (fixed : vector3 Bool) (basis : List (matrix3 K)) (k : Nat) :
    basis <+: basisStep sqrt symmThresholdSq sym fixed basis k := by
  unfold basisStep
  split
  · exact List.prefix_refl _
  · simp only
    split
    · exact List.prefix_refl _
    · exact List.prefix_append _ _

theorem foldl_basisStep_extends {K : Type} [LinearOrderedField K] (sqrt : K → K)
    (symmThresholdSq : K) (sym : List (matrix3 ℤ)) (fixed : vector3 Bool) (ks : List Nat) :
    ∀ basis : List (matrix3 K),
      basis <+: ks.foldl (basisStep sqrt symmThresholdSq sym fixed) basis := by
  induction ks with
  | nil => intro basis; exact List.prefix_refl _
  | cons k ks ih =>
    intro basis
    exact (basisStep_extends sqrt symmThresholdSq sym fixed basis k).trans (ih _)

/-! ## Symmetrization over a finite group -/

theorem foldl_add_eq_sum {α M : Type} [AddCommMonoid M] (f : α → M) (l : List α) :
    ∀ a : M, l.foldl (fun acc x => acc + f x) a = a + (l.map f).sum := by
  induction l with
  | nil => intro a; simp
  | cons x xs ih => intro a; simp [ih, add_assoc]

theorem symmetrize_eq_sum (sym : List (matrix3 ℤ)) (s : matrix3 ℤ) :
    symmetrize sym s = (sym.map fun m => mInv m * s * m).sum := by
  unfold symmetrize
  rw [foldl_add_eq_sum, zero_add]

theorem map_perm_of_injOn {α : Type} (l : List α) (φ : α → α) (hl : l.Nodup)
    (hmem : ∀ a ∈ l, φ a ∈ l) (hinj : ∀ a ∈ l, ∀ b ∈ l, φ a = φ b → a = b) :
    (l.map φ).Perm l := by
  have hnd : (l.map φ).Nodup := List.Nodup.map_on hinj hl
  have hsub : l.map φ ⊆ l := by
    intro x hx
    obtain ⟨a, ha, rfl⟩ := List.mem_map.mp hx
    exact hmem a ha
  exact (List.subperm_of_subset hnd hsub).perm_of_length_le (by simp)

theorem mInv_mul (a b : matrix3 ℤ) : mInv (a * b) = mInv b * mInv a := by
  simp only [mInv, det, adjugate, Matrix.det_mul, Matrix.adjugate_mul_distrib,
    Matrix.smul_mul, Matrix.mul_smul, smul_smul]

theorem mul_mInv (m : matrix3 ℤ) (h : det m = 1 ∨ det m = -1) : m * mInv m = 1 := by
  have hsq : det m * det m = 1 := by rcases h with h | h <;> rw [h] <;> rfl
  simp only [mInv, adjugate, Matrix.mul_smul, Matrix.mul_adjugate]
  rw [smul_smul]
  show (det m * det m) • (1 : matrix3 ℤ) = 1
  rw [hsq, one_smul]

theorem mInv_mul_self (m : matrix3 ℤ) (h : det m = 1 ∨ det m = -1) : mInv m * m = 1 := by
  have hsq : det m * det m = 1 := by rcases h with h | h <;> rw [h] <;> rfl
  simp only [mInv, adjugate, Matrix.smul_mul, Matrix.adjugate_mul]
  rw [smul_smul]
  show (det m * det m) • (1 : matrix3 ℤ) = 1
  rw [hsq, one_smul]

/-- Conjugating the symmetrized generator by a member of a finite group returns it. -/
theorem symmetrize_invariant (sym : List (matrix3 ℤ)) (hnd : sym.Nodup)
    (hmul : ∀ a ∈ sym, ∀ b ∈ sym, a * b ∈ sym) (hdet : ∀ m ∈ sym, det m = 1 ∨ det m = -1)
    (s : matrix3 ℤ) (m : matrix3 ℤ) (hm : m ∈ sym) :
    mInv m * symmetrize sym s * m = symmetrize sym s := by
  have hperm : (sym.map fun g => g * m).Perm sym := by
    apply map_perm_of_injOn sym (fun g => g * m) hnd (fun a ha => hmul a ha m hm)
    intro a _ b _ hab
    have h2 := congrArg (fun x => x * mInv m) hab
    simpa [Matrix.mul_assoc, mul_mInv m (hdet m hm)] using h2
  rw [symmetrize_eq_sum]
  calc mInv m * (sym.map fun g => mInv g * s * g).sum * m
      = (sym.map fun g => mInv m * (mInv g * s * g) * m).sum := by
        rw [← List.sum_map_mul_left, ← List.sum_map_mul_right]
    _ = ((sym.map fun g => g * m).map fun g => mInv g * s * g).sum := by
        rw [List.map_map]
        refine congrArg List.sum (List.map_congr_left fun g _ => ?_)
        simp only [Function.comp, mInv_mul, Matrix.mul_assoc]
    _ = (sym.map fun g => mInv g * s * g).sum := (hperm.map _).sum_eq

/-! ## Invariance under the symmetries -/

theorem toReal_mul {K : Type} [Field K] (a b : matrix3 ℤ) :
    (toReal (a * b) : matrix3 K) = toReal a * toReal b := by
  unfold toReal
  exact Matrix.map_mul (f := Int.castRingHom K)

theorem toReal_transpose {K : Type} [Field K] (a : matrix3 ℤ) :
    (toReal a.transpose : matrix3 K) = (toReal a).transpose := rfl

theorem invariantUnder_toReal {K : Type} [Field K] (m w : matrix3 ℤ)
    (h : mInv m * w * m = w) : InvariantUnder m (toReal w : matrix3 K) := by
  unfold InvariantUnder
  rw [← toReal_mul, ← toReal_mul, h]

theorem invariantUnder_sub_smul {K : Type} [Field K] (m : matrix3 ℤ) (v p : matrix3 K) (c : K)
    (hv : InvariantUnder m v) (hp : InvariantUnder m p) : InvariantUnder m (v - c • p) := by
  unfold InvariantUnder at *
  rw [Matrix.mul_sub, Matrix.sub_mul, Matrix.mul_smul, Matrix.smul_mul, hv, hp]

theorem invariantUnder_smul {K : Type} [Field K] (m : matrix3 ℤ) (v : matrix3 K) (c : K)
    (hv : InvariantUnder m v) : InvariantUnder m (c • v) := by
  unfold InvariantUnder at *
  rw [Matrix.mul_smul, Matrix.smul_mul, hv]

theorem invariantUnder_orthogonalize {K : Type} [Field K] (m : matrix3 ℤ) :
    ∀ (ps : List (matrix3 K)) (v : matrix3 K), (∀ p ∈ ps, InvariantUnder m p) →
      InvariantUnder m v → InvariantUnder m (orthogonalize ps v) := by
  intro ps
  induction ps with
  | nil => intro v _ hv; exact hv
  | cons q qs ih =>
    intro v hq hv
    rw [orthogonalize_cons]
    exact ih _ (fun p hp => hq p (List.mem_cons_of_mem _ hp))
      (invariantUnder_sub_smul m v q _ hv (hq q (List.mem_cons_self _ _)))

/-- A property of matrices that holds of every symmetrized generator and is kept by the
Gram-Schmidt step and by scaling holds of every basis vector. -/
theorem buildBasis_forall {K : Type} [LinearOrderedField K] (sqrt : K → K)
    (symmThresholdSq : K) (sym : List (matrix3 ℤ)) (fixed : vector3 Bool)
    (P : matrix3 K → Prop) (hgen : ∀ k, P (toReal (symmetrize sym (generator k))))
    (hsub : ∀ (v p : matrix3 K) (c : K), P v → P p → P (v - c • p))
    (hsmul : ∀ (v : matrix3 K) (c : K), P v → P (c • v)) :
    ∀ b ∈ buildBasis sqrt symmThresholdSq sym fixed, P b := by
  have horth : ∀ (ps : List (matrix3 K)) (v : matrix3 K), (∀ p ∈ ps, P p) → P v →
      P (orthogonalize ps v) := by
    intro ps
    induction ps with
    | nil => intro v _ hv; exact hv
    | cons q qs ih =>
      intro v hq hv
      rw [orthogonalize_cons]
      exact ih _ (fun p hp => hq p (List.mem_cons_of_mem _ hp))
        (hsub v q _ hv (hq q (List.mem_cons_self _ _)))
  apply buildBasis_induction sqrt symmThresholdSq sym fixed (fun basis => ∀ b ∈ basis, P b)
  · intro b hb; exact (List.not_mem_nil _ hb).elim
  · intro basis k hbasis
    unfold basisStep
    split
    · exact hbasis
    · simp only
      split
      · exact hbasis
      · intro b hb
        rcases List.mem_append.mp hb with h | h
        · exact hbasis b h
        · rw [List.mem_singleton.mp h]
          exact hsmul _ _ (horth basis _ hbasis (hgen k))

/-- C3: when the symmetry list is a finite group of integer matrices (no repetition, closed
under product, determinants `+1` or `-1`), every strain-basis vector `b` of a successful
construction satisfies `m⁻¹ * b * m = b` for every `m` of the list, with
`m⁻¹ = det(m) * adjugate(m)`. -/
theorem strainBasis_invariant {K ρ : Type} [LinearOrderedField K] (sqrt : K → K)
    (symmThresholdSq : K) (e : Everything K ρ) (lm : LatticeMinimizer K ρ)
    (hnd : e.sym.Nodup) (hmul : ∀ a ∈ e.sym, ∀ b ∈ e.sym, a * b ∈ e.sym)
    (hdet : ∀ m ∈ e.sym, det m = 1 ∨ det m = -1)
    (hok : LatticeMinimizer.LatticeMinimizer sqrt symmThresholdSq e = .ok lm) :
    ∀ m ∈ e.sym, ∀ b ∈ lm.strainBasis,
      (toReal (det m • adjugate m) : matrix3 K) * b * toReal m = b := by
  intro m hm b hb
  rw [(LatticeMinimizer_ok sqrt symmThresholdSq e lm hok).2.1] at hb
  exact buildBasis_forall sqrt symmThresholdSq e.sym _ (InvariantUnder m)
    (fun k => invariantUnder_toReal m _ (symmetrize_invariant e.sym hnd hmul hdet _ m hm))
    (fun v p c hv hp => invariantUnder_sub_smul m v p c hv hp)
    (fun v c hv => invariantUnder_smul m v c hv) b hb

/-! ## Sample configurations -/

theorem dot_toReal {K : Type} [Field K] (a b : matrix3 ℤ) :
    dot (toReal a : matrix3 K) (toReal b) = ((trace (a * b.transpose) : ℤ) : K) := by
  simp [dot, trace, Matrix.trace, Matrix.mul_apply, toReal]

/-- The first vector of the basis: a generator that is not skipped and whose symmetrized form
has norm at least the threshold is accepted into the empty basis after normalization. -/
theorem basisStep_nil_accept {K : Type} [LinearOrderedField K] (sqrt : K → K)
    (symmThresholdSq : K) (sym : List (matrix3 ℤ)) (fixed : vector3 Bool) (k : Nat)
    (w : matrix3 ℤ) (n : ℤ) (hs : symmetrize sym (generator k) = w)
    (hn : trace (w * w.transpose) = n)
    (hskip : skipped fixed k = false) (hnorm : symmThresholdSq ≤ sqrt (n : K)) :
    basisStep sqrt symmThresholdSq sym fixed [] k = [(1 / sqrt (n : K)) • toReal w] := by
  unfold basisStep
  rw [hskip, hs]
  simp only [orthogonalize_nil, nrm2, dot_toReal, hn, Bool.false_eq_true, if_false,
    not_lt.mpr hnorm, List.nil_append]

/-- Once some generator is accepted into the empty basis, the final basis is not empty. -/
theorem foldl_basisStep_ne_nil {K : Type} [LinearOrderedField K] (sqrt : K → K)
    (symmThresholdSq : K) (sym : List (matrix3 ℤ)) (fixed : vector3 Bool) (k : Nat)
    (hk : basisStep sqrt symmThresholdSq sym fixed [] k ≠ []) :
    ∀ (ks : List Nat), k ∈ ks → ∀ basis : List (matrix3 K),
      ks.foldl (basisStep sqrt symmThresholdSq sym fixed) basis ≠ [] := by
  intro ks
  induction ks with
  | nil => intro hmem; exact (List.not_mem_nil _ hmem).elim
  | cons k' ks ih =>
    intro hmem basis
    rw [List.foldl_cons]
    by_cases hne : basisStep sqrt symmThresholdSq sym fixed basis k' = []
    · have hbasis : basis = [] :=
        List.prefix_nil.mp (hne ▸ basisStep_extends sqrt symmThresholdSq sym fixed basis k')
      rcases List.mem_cons.mp hmem with h | h
      · subst h; subst hbasis; exact absurd hne hk
      · exact ih h _
    · intro hnil
      exact hne (List.prefix_nil.mp
        (hnil ▸ foldl_basisStep_extends sqrt symmThresholdSq sym fixed ks _))

theorem buildBasis_ne_nil {K : Type} [LinearOrderedField K] (sqrt : K → K)
    (symmThresholdSq : K) (sym : List (matrix3 ℤ)) (fixed : vector3 Bool) (k : Nat) (hk6 : k < 6)
    (hk : basisStep sqrt symmThresholdSq sym fixed [] k ≠ []) :
    buildBasis sqrt symmThresholdSq sym fixed ≠ [] :=
  foldl_basisStep_ne_nil sqrt symmThresholdSq sym fixed k hk _ (List.mem_range.mpr hk6) []

/-- The vector accepted from generator `0` into the empty basis belongs to the final basis. -/
theorem mem_buildBasis_of_first {K : Type} [LinearOrderedField K] (sqrt : K → K)
    (symmThresholdSq : K) (sym : List (matrix3 ℤ)) (fixed : vector3 Bool) (b : matrix3 K)
    (hb : b ∈ basisStep sqrt symmThresholdSq sym fixed [] 0) :
    b ∈ buildBasis sqrt symmThresholdSq sym fixed := by
  have hr : List.range 6 = 0 :: [1, 2, 3, 4, 5] := by decide
  unfold buildBasis
  rw [hr, List.foldl_cons]
  exact (foldl_basisStep_extends sqrt symmThresholdSq sym fixed _ _).subset hb

/-- With equal move scales on all axes the commensurability check passes. -/
theorem checkMoveScale_const {K : Type} [DecidableEq K] (x : K) (sym : List (matrix3 ℤ)) :
    checkMoveScale (fun _ => x) sym = none :=
  (checkMoveScale_eq_none _ _).mpr fun _ _ _ _ _ => rfl

/-- The sample configuration with the axis exchange and a truncated first axis is accepted. -/
theorem swap_config_ok :
    ∃ lm, LatticeMinimizer.LatticeMinimizer Real.sqrt (1 / 100000000)
      (config (1 : matrix3 ℝ) [1, swap01] (fun _ => 1) ![true, false, false]) = .ok lm := by
  apply LatticeMinimizer_of_nonempty _ _ _ (checkMoveScale_const _ _)
  apply buildBasis_ne_nil _ _ _ _ 1 (by decide)
  show basisStep Real.sqrt (1 / 100000000) [1, swap01]
    (isFixed (fun _ => (1 : ℝ)) ![true, false, false]) [] 1 ≠ []
  rw [basisStep_nil_accept Real.sqrt _ [1, swap01] _ 1 !![1, 0, 0; 0, 1, 0; 0, 0, 0] 2
    (by decide) (by decide) (by simp [skipped, isFixed, axis])
    (Real.le_sqrt_of_sq_le (by norm_num))]
  exact List.cons_ne_nil _ _

/-! ## Symmetry of the basis vectors -/

theorem mInv_transpose (m : matrix3 ℤ) : mInv m.transpose = (mInv m).transpose := by
  unfold mInv det adjugate
  rw [Matrix.det_transpose, Matrix.transpose_smul, Matrix.adjugate_transpose]

theorem det_mInv (m : matrix3 ℤ) (h : det m = 1 ∨ det m = -1) :
    det (mInv m) = 1 ∨ det (mInv m) = -1 := by
  have h1 : det (mInv m) * det m = 1 := by
    have := congrArg Matrix.det (mInv_mul_self m h)
    rwa [Matrix.det_mul, Matrix.det_one] at this
  rcases h with h | h <;> rw [h] at h1
  · left; linarith
  · right; linarith

theorem mInv_mInv (m : matrix3 ℤ) (h : det m = 1 ∨ det m = -1) : mInv (mInv m) = m := by
  calc mInv (mInv m) = mInv (mInv m) * (mInv m * m) := by rw [mInv_mul_self m h, mul_one]
    _ = mInv (mInv m) * mInv m * m := by rw [Matrix.mul_assoc]
    _ = m := by rw [mInv_mul_self _ (det_mInv m h), one_mul]

theorem generator_transpose (k : Nat) : (generator k).transpose = generator k := by
  unfold generator
  split <;> (ext a b; simp only [Matrix.transpose_apply, and_comm, or_comm])

/-- The symmetrized generator of a symmetric `s` is symmetric when the list contains, with
every `m`, the transpose of its inverse. -/
theorem symmetrize_transpose (sym : List (matrix3 ℤ)) (hnd : sym.Nodup)
    (hdet : ∀ m ∈ sym, det m = 1 ∨ det m = -1)
    (htr : ∀ m ∈ sym, (mInv m).transpose ∈ sym) (s : matrix3 ℤ) (hs : s.transpose = s) :
    (symmetrize sym s).transpose = symmetrize sym s := by
  have hinv : ∀ m ∈ sym, (mInv (mInv m).transpose).transpose = m := by
    intro m hm
    rw [mInv_transpose, Matrix.transpose_transpose, mInv_mInv m (hdet m hm)]
  have hperm : (sym.map fun m => (mInv m).transpose).Perm sym := by
    apply map_perm_of_injOn sym _ hnd htr
    intro a ha b hb hab
    rw [← hinv a ha, ← hinv b hb]
    exact congrArg (fun x => (mInv x).transpose) hab
  rw [symmetrize_eq_sum, Matrix.transpose_list_sum, List.map_map]
  calc (sym.map (Matrix.transpose ∘ fun m => mInv m * s * m)).sum
      = ((sym.map fun m => (mInv m).transpose).map fun g => mInv g * s * g).sum := by
        rw [List.map_map]
        refine congrArg List.sum (List.map_congr_left fun g hg => ?_)
        simp only [Function.comp, Matrix.transpose_mul, hs, mInv_transpose,
          mInv_mInv g (hdet g hg), Matrix.mul_assoc]
    _ = (sym.map fun g => mInv g * s * g).sum := (hperm.map _).sum_eq

/-- A sufficient condition for symmetric basis vectors: when the symmetry list has no
repetition, determinants `+1` or `-1`, and contains with every `m` the transpose of
`m⁻¹ = det(m) * adjugate(m)` (as a group of orthogonal matrices does), every strain-basis
vector of a successful construction equals its transpose. -/
theorem strainBasis_symmetric {K ρ : Type} [LinearOrderedField K] (sqrt : K → K)
    (symmThresholdSq : K) (e : Everything K ρ) (lm : LatticeMinimizer K ρ)
    (hnd : e.sym.Nodup) (hdet : ∀ m ∈ e.sym, det m = 1 ∨ det m = -1)
    (htr : ∀ m ∈ e.sym, (det m • adjugate m).transpose ∈ e.sym)
    (hok : LatticeMinimizer.LatticeMinimizer sqrt symmThresholdSq e = .ok lm) :
    ∀ b ∈ lm.strainBasis, b.transpose = b := by
  intro b hb
  rw [(LatticeMinimizer_ok sqrt symmThresholdSq e lm hok).2.1] at hb
  refine buildBasis_forall sqrt symmThresholdSq e.sym _ (fun b => b.transpose = b)
    (fun k => ?_) (fun v p c hv hp => ?_) (fun v c hv => ?_) b hb
  · beta_reduce
    rw [← toReal_transpose,
      symmetrize_transpose e.sym hnd hdet htr _ (generator_transpose k)]
  · beta_reduce at hv hp ⊢
    rw [Matrix.transpose_sub, Matrix.transpose_smul, hv, hp]
  · beta_reduce at hv ⊢
    rw [Matrix.transpose_smul, hv]

/-- C2: for the three-fold rotation group of a hexagonal lattice, written in lattice
coordinates (a list without repetition, closed under products, with determinants `1`), with
equal move scales and no fixed axis, the construction succeeds and its basis contains
`(1/√7)` times the matrix with rows `(1,1,0)`, `(-1,2,0)`, `(0,0,0)`, accepted from the first
generator, which differs from its transpose. -/
theorem strainBasis_not_symmetric :
    ([1, rot3, rot3sq] : List (matrix3 ℤ)).Nodup ∧
    (∀ a ∈ [1, rot3, rot3sq], ∀ b ∈ [1, rot3, rot3sq], a * b ∈ [1, rot3, rot3sq]) ∧
    (∀ m ∈ [1, rot3, rot3sq], det m = 1 ∨ det m = -1) ∧
    ∃ lm, LatticeMinimizer.LatticeMinimizer Real.sqrt (1 / 100000000)
        (config (!![1, -1 / 2, 0; 0, √3 / 2, 0; 0, 0, 1] : matrix3 ℝ) [1, rot3, rot3sq]
          (fun _ => 1) (fun _ => false)) = .ok lm ∧
      (1 / √7) • (toReal !![1, 1, 0; -1, 2, 0; 0, 0, 0] : matrix3 ℝ) ∈ lm.strainBasis ∧
      ((1 / √7) • (toReal !![1, 1, 0; -1, 2, 0; 0, 0, 0] : matrix3 ℝ)).transpose
        ≠ (1 / √7) • (toReal !![1, 1, 0; -1, 2, 0; 0, 0, 0] : matrix3 ℝ) := by
  refine ⟨by decide, by decide, by decide, ?_⟩
  have hstep : basisStep Real.sqrt (1 / 100000000) [1, rot3, rot3sq]
      (isFixed (fun _ => (1 : ℝ)) (fun _ => false)) [] 0
        = [(1 / √((7 : ℤ) : ℝ)) • toReal !![1, 1, 0; -1, 2, 0; 0, 0, 0]] :=
    basisStep_nil_accept Real.sqrt _ [1, rot3, rot3sq] _ 0 !![1, 1, 0; -1, 2, 0; 0, 0, 0] 7
      (by decide) (by decide) (by simp [skipped, isFixed, axis])
      (Real.le_sqrt_of_sq_le (by norm_num))
  rw [Int.cast_ofNat] at hstep
  obtain ⟨lm, hlm⟩ := LatticeMinimizer_of_nonempty Real.sqrt (1 / 100000000)
    (config (!![1, -1 / 2, 0; 0, √3 / 2, 0; 0, 0, 1] : matrix3 ℝ) [1, rot3, rot3sq]
      (fun _ => 1) (fun _ => false)) (checkMoveScale_const _ _)
    (buildBasis_ne_nil _ _ _ _ 0 (by decide) (by
      show basisStep Real.sqrt (1 / 100000000) [1, rot3, rot3sq]
        (isFixed (fun _ => (1 : ℝ)) (fun _ => false)) [] 0 ≠ []
      rw [hstep]; exact List.cons_ne_nil _ _))
  refine ⟨lm, hlm, ?_, ?_⟩
  · rw [(LatticeMinimizer_ok _ _ _ lm hlm).2.1]
    apply mem_buildBasis_of_first
    show _ ∈ basisStep Real.sqrt (1 / 100000000) [1, rot3, rot3sq]
        (isFixed (fun _ => (1 : ℝ)) (fun _ => false)) [] 0
    rw [hstep]
    exact List.mem_singleton.mpr rfl
  · intro h
    have h01 := congrFun (congrFun h 0) 1
    have hpos : (0 : ℝ) < (√7)⁻¹ := inv_pos.mpr (Real.sqrt_pos.mpr (by norm_num))
    simp [toReal] at h01
    linarith

/-! ## Witnesses for the basis properties -/

/-- C1, witness: the configuration with the axis exchange and a truncated first axis. -/
theorem strainBasis_orthonormal_witness :
    ∃ lm, LatticeMinimizer.LatticeMinimizer Real.sqrt (1 / 100000000)
        (config (1 : matrix3 ℝ) [1, swap01] (fun _ => 1) ![true, false, false]) = .ok lm ∧
      ∀ i j : Fin lm.strainBasis.length,
        dot (lm.strainBasis.get i) (lm.strainBasis.get j) = if i = j then 1 else 0 :=
  swap_config_ok.elim fun lm hlm =>
    ⟨lm, hlm, strainBasis_orthonormal (1 / 100000000) (by norm_num) _ lm hlm⟩

/-- C3, witness: the group of the identity and the axis exchange. -/
theorem strainBasis_invariant_witness :
    ∃ lm, LatticeMinimizer.LatticeMinimizer Real.sqrt (1 / 100000000)
        (config (1 : matrix3 ℝ) [1, swap01] (fun _ => 1) ![true, false, false]) = .ok lm ∧
      ∀ m ∈ [1, swap01], ∀ b ∈ lm.strainBasis,
        (toReal (det m • adjugate m) : matrix3 ℝ) * b * toReal m = b :=
  swap_config_ok.elim fun lm hlm =>
    ⟨lm, hlm, strainBasis_invariant Real.sqrt (1 / 100000000) _ lm
      (by decide : ([1, swap01] : List (matrix3 ℤ)).Nodup)
      (by decide : ∀ a ∈ [1, swap01], ∀ b ∈ [1, swap01], a * b ∈ [1, swap01])
      (by decide : ∀ m ∈ [1, swap01], det m = 1 ∨ det m = -1) hlm⟩

/-! ## Fatal errors of the constructor -/

theorem skipped_of_allFixed (fixed : vector3 Bool) (hfix : ∀ k, fixed k = true) (k : Nat) :
    skipped fixed k = true := by
  unfold skipped
  split <;> simp [hfix]

theorem buildBasis_of_allFixed {K : Type} [LinearOrderedField K] (sqrt : K → K)
    (symmThresholdSq : K) (sym : List (matrix3 ℤ)) (fixed : vector3 Bool)
    (hfix : ∀ k, fixed k = true) : buildBasis sqrt symmThresholdSq sym fixed = [] := by
  apply buildBasis_induction sqrt symmThresholdSq sym fixed (fun basis => basis = []) rfl
  intro basis k hb
  unfold basisStep
  rw [skipped_of_allFixed fixed hfix k, if_pos rfl]
  exact hb

/-- The sample configuration in which the exchanged axes have move scales `0` and `1`. -/
theorem checkMoveScale_swap_conflict :
    checkMoveScale (![0, 1, 1] : vector3 ℝ) [1, swap01] = some (0, 1) := by
  have hr : List.finRange 3 = [0, 1, 2] := by decide
  simp [checkMoveScale, conflictIn, hr, swap01, List.findSome?]

/-- C4, counterexample: all three axes are fixed (the first by a zero move scale, the others by
truncation), the symmetry list exchanges the first two axes, and the constructor fails with the
commensurability error for axes `0` and `1`, not with the empty-basis error. -/
theorem allFixed_counterexample :
    (∀ k, isFixed (![0, 1, 1] : vector3 ℝ) ![false, true, true] k = true) ∧
    LatticeMinimizer.LatticeMinimizer Real.sqrt (1 / 100000000)
        (config (1 : matrix3 ℝ) [1, swap01] ![0, 1, 1] ![false, true, true])
      = .error (.notCommensurate 0 1) ∧
    LatticeMinimizer.LatticeMinimizer Real.sqrt (1 / 100000000)
        (config (1 : matrix3 ℝ) [1, swap01] ![0, 1, 1] ![false, true, true])
      ≠ .error .allConstrained := by
  have h := LatticeMinimizer_of_conflict Real.sqrt (1 / 100000000)
    (config (1 : matrix3 ℝ) [1, swap01] ![0, 1, 1] ![false, true, true]) 0 1
    checkMoveScale_swap_conflict
  refine ⟨?_, h, ?_⟩
  · intro k
    fin_cases k <;> simp [isFixed]
  · rw [h]
    intro hc
    cases hc

/-- C4, amended: if all three axes are fixed then every generator is skipped and the basis stays
empty; the constructor then fails with the empty-basis error when the move-scale check passes,
and has failed before with the commensurability error when it does not; it never returns. -/
theorem allFixed_fails {K ρ : Type} [LinearOrderedField K] (sqrt : K → K)
    (symmThresholdSq : K) (e : Everything K ρ)
    (hfix : ∀ k, isFixed e.lattMoveScale e.isTruncated k = true) :
    (∀ k, skipped (isFixed e.lattMoveScale e.isTruncated) k = true) ∧
    buildBasis sqrt symmThresholdSq e.sym (isFixed e.lattMoveScale e.isTruncated) = [] ∧
    (checkMoveScale e.lattMoveScale e.sym = none →
      LatticeMinimizer.LatticeMinimizer sqrt symmThresholdSq e = .error .allConstrained) ∧
    (∀ i j, checkMoveScale e.lattMoveScale e.sym = some (i, j) →
      LatticeMinimizer.LatticeMinimizer sqrt symmThresholdSq e
        = .error (.notCommensurate i j)) ∧
    ∀ lm, LatticeMinimizer.LatticeMinimizer sqrt symmThresholdSq e ≠ .ok lm := by
  have hb := buildBasis_of_allFixed sqrt symmThresholdSq e.sym _ hfix
  refine ⟨skipped_of_allFixed _ hfix, hb,
    fun h => LatticeMinimizer_of_empty sqrt symmThresholdSq e h hb,
    fun i j h => LatticeMinimizer_of_conflict sqrt symmThresholdSq e i j h, ?_⟩
  intro lm hok
  obtain ⟨_, hbasis, hne, _⟩ := LatticeMinimizer_ok sqrt symmThresholdSq e lm hok
  exact hne (hbasis.trans hb)

/-- C4, witness of the amended statement: all three axes truncated. -/
theorem allFixed_fails_witness :
    (∀ k, isFixed (fun _ => (1 : ℝ)) (fun _ => true) k = true) ∧
    LatticeMinimizer.LatticeMinimizer Real.sqrt (1 / 100000000)
        (config (1 : matrix3 ℝ) [1, swap01] (fun _ => 1) (fun _ => true))
      = .error .allConstrained :=
  ⟨fun _ => by simp [isFixed],
    (allFixed_fails Real.sqrt (1 / 100000000)
      (config (1 : matrix3 ℝ) [1, swap01] (fun _ => 1) (fun _ => true))
      (fun _ => by simp [isFixed, config])).2.2.1 (checkMoveScale_const _ _)⟩

/-- C5: the constructor fails with the commensurability error exactly when some symmetry
matrix has a non-zero entry `m(i,j)` between axes of different move scale; the reported axes
are such a pair; and the outcome is then the same whatever the truncation flags, the
threshold and the norm used by the basis loop. -/
theorem notCommensurate_iff {K ρ : Type} [LinearOrderedField K] (sqrt : K → K)
    (symmThresholdSq : K) (e : Everything K ρ) :
    ((∃ i j, LatticeMinimizer.LatticeMinimizer sqrt symmThresholdSq e
        = .error (.notCommensurate i j)) ↔
      ∃ m ∈ e.sym, ∃ i j, m i j ≠ 0 ∧ e.lattMoveScale i ≠ e.lattMoveScale j) ∧
    (∀ i j, LatticeMinimizer.LatticeMinimizer sqrt symmThresholdSq e
        = .error (.notCommensurate i j) →
      ∃ m ∈ e.sym, m i j ≠ 0 ∧ e.lattMoveScale i ≠ e.lattMoveScale j) ∧
    (∀ i j, LatticeMinimizer.LatticeMinimizer sqrt symmThresholdSq e
        = .error (.notCommensurate i j) →
      ∀ (sqrt' : K → K) (thr' : K) (trunc' : vector3 Bool),
        LatticeMinimizer.LatticeMinimizer sqrt' thr' { e with isTruncated := trunc' }
          = .error (.notCommensurate i j)) := by
  refine ⟨⟨?_, ?_⟩, ?_, ?_⟩
  · rintro ⟨i, j, h⟩
    obtain ⟨m, hm, hc⟩ := checkMoveScale_eq_some _ _ i j
      (LatticeMinimizer_notCommensurate sqrt symmThresholdSq e i j h)
    exact ⟨m, hm, i, j, hc⟩
  · rintro ⟨m, hm, i, j, hne, hms⟩
    cases hcheck : checkMoveScale e.lattMoveScale e.sym with
    | none => exact absurd ((checkMoveScale_eq_none _ _).mp hcheck m hm i j hne) hms
    | some p => exact ⟨p.1, p.2, LatticeMinimizer_of_conflict sqrt symmThresholdSq e p.1 p.2 hcheck⟩
  · intro i j h
    exact checkMoveScale_eq_some _ _ i j
      (LatticeMinimizer_notCommensurate sqrt symmThresholdSq e i j h)
  · intro i j h sqrt' thr' trunc'
    exact LatticeMinimizer_of_conflict sqrt' thr' { e with isTruncated := trunc' } i j
      (LatticeMinimizer_notCommensurate sqrt symmThresholdSq e i j h)

/-- The vector accepted from generator `1` belongs to the final basis when generator `0`
left the basis empty. -/
theorem mem_buildBasis_of_second {K : Type} [LinearOrderedField K] (sqrt : K → K)
    (symmThresholdSq : K) (sym : List (matrix3 ℤ)) (fixed : vector3 Bool) (b : matrix3 K)
    (h0 : basisStep sqrt symmThresholdSq sym fixed [] 0 = [])
    (hb : b ∈ basisStep sqrt symmThresholdSq sym fixed [] 1) :
    b ∈ buildBasis sqrt symmThresholdSq sym fixed := by
  have hr : List.range 6 = 0 :: 1 :: [2, 3, 4, 5] := by decide
  unfold buildBasis
  rw [hr, List.foldl_cons, List.foldl_cons, h0]
  exact (foldl_basisStep_extends sqrt symmThresholdSq sym fixed _ _).subset hb

/-- C6: the exchange of axes `0` and `1` connects them, both have move scale `1` and only
axis `0` is truncated, so that axis `0` is fixed and axis `1` is movable. The constructor
raises no error: it succeeds, and its basis contains `(1/√2) * diag(1, 1, 0)`, accepted from
the generator of axis `1`, whose component along the truncated axis `0` is not zero. -/
theorem truncated_axis_strained :
    swap01 ∈ [1, swap01] ∧ swap01 0 1 ≠ 0 ∧
    isFixed (fun _ => (1 : ℝ)) ![true, false, false] 0 = true ∧
    isFixed (fun _ => (1 : ℝ)) ![true, false, false] 1 = false ∧
    ∃ lm, LatticeMinimizer.LatticeMinimizer Real.sqrt (1 / 100000000)
        (config (1 : matrix3 ℝ) [1, swap01] (fun _ => 1) ![true, false, false]) = .ok lm ∧
      (1 / √2) • (toReal !![1, 0, 0; 0, 1, 0; 0, 0, 0] : matrix3 ℝ) ∈ lm.strainBasis ∧
      ((1 / √2) • (toReal !![1, 0, 0; 0, 1, 0; 0, 0, 0] : matrix3 ℝ)) 0 0 ≠ 0 := by
  refine ⟨by decide, by decide, by simp [isFixed], by simp [isFixed], ?_⟩
  obtain ⟨lm, hlm⟩ := swap_config_ok
  refine ⟨lm, hlm, ?_, ?_⟩
  · rw [(LatticeMinimizer_ok _ _ _ lm hlm).2.1]
    apply mem_buildBasis_of_second
    · show basisStep Real.sqrt (1 / 100000000) [1, swap01]
        (isFixed (fun _ => (1 : ℝ)) ![true, false, false]) [] 0 = []
      unfold basisStep
      rw [if_pos (by simp [skipped, isFixed, axis])]
    · show _ ∈ basisStep Real.sqrt (1 / 100000000) [1, swap01]
        (isFixed (fun _ => (1 : ℝ)) ![true, false, false]) [] 1
      rw [basisStep_nil_accept Real.sqrt _ [1, swap01] _ 1 !![1, 0, 0; 0, 1, 0; 0, 0, 0] 2
        (by decide) (by decide) (by simp [skipped, isFixed, axis])
        (Real.le_sqrt_of_sq_le (by norm_num))]
      rw [Int.cast_ofNat]
      exact List.mem_singleton.mpr rfl
  · have hpos : (0 : ℝ) < √2 := Real.sqrt_pos.mpr (by norm_num)
    simp [toReal]

/-- The part of the status check that the constructor performs: it fails with the
commensurability error whenever two axes connected by a symmetry element have different move
scales, in particular when exactly one of them has move scale zero. -/
theorem moveScale_mismatch_fails {K ρ : Type} [LinearOrderedField K] (sqrt : K → K)
    (symmThresholdSq : K) (e : Everything K ρ) (m : matrix3 ℤ) (i j : Fin 3)
    (hm : m ∈ e.sym) (hij : m i j ≠ 0) (hms : e.lattMoveScale i ≠ e.lattMoveScale j) :
    ∃ i' j', LatticeMinimizer.LatticeMinimizer sqrt symmThresholdSq e
      = .error (.notCommensurate i' j') := by
  cases hcheck : checkMoveScale e.lattMoveScale e.sym with
  | none => exact absurd ((checkMoveScale_eq_none _ _).mp hcheck m hm i j hij) hms
  | some p => exact ⟨p.1, p.2, LatticeMinimizer_of_conflict sqrt symmThresholdSq e p.1 p.2 hcheck⟩

/-! ## The interface: constrain, compute, step -/

theorem constrain_eq_sum {K ρ : Type} [Field K] (lm : LatticeMinimizer K ρ) (d : matrix3 K) :
    constrain lm d = (lm.strainBasis.map fun s => dot s d • s).sum := by
  unfold constrain
  rw [foldl_add_eq_sum, zero_add]

theorem dot_sum_of_orthogonal {K : Type} [Field K] (p : matrix3 K) (f : matrix3 K → K) :
    ∀ (l : List (matrix3 K)), (∀ t ∈ l, dot p t = 0) →
      dot p (l.map fun t => f t • t).sum = 0 := by
  intro l
  induction l with
  | nil => intro _; simp [dot_zero_right]
  | cons q qs ih =>
    intro h
    rw [List.map_cons, List.sum_cons, dot_add_right, dot_smul_right,
      h q (List.mem_cons_self _ _), ih (fun t ht => h t (List.mem_cons_of_mem _ ht))]
    ring

/-- The coefficient of a combination of an orthonormal list along one of its members. -/
theorem dot_sum_of_orthonormal {K : Type} [Field K] (f : matrix3 K → K) :
    ∀ (l : List (matrix3 K)), Orthonormal l → ∀ p ∈ l,
      dot p (l.map fun t => f t • t).sum = f p := by
  intro l
  induction l with
  | nil => intro _ p hp; exact (List.not_mem_nil _ hp).elim
  | cons q qs ih =>
    intro hl p hp
    obtain ⟨hunit, hpair⟩ := hl
    rw [List.pairwise_cons] at hpair
    rw [List.map_cons, List.sum_cons, dot_add_right, dot_smul_right]
    rcases List.mem_cons.mp hp with rfl | hp'
    · rw [hunit p (List.mem_cons_self _ _), dot_sum_of_orthogonal p f qs hpair.1]
      ring
    · rw [ih ⟨fun b hb => hunit b (List.mem_cons_of_mem _ hb), hpair.2⟩ p hp',
        dot_comm p q, hpair.1 p hp']
      ring

theorem constrain_idempotent_of_orthonormal {K ρ : Type} [Field K] (lm : LatticeMinimizer K ρ)
    (hb : Orthonormal lm.strainBasis) (d : matrix3 K) :
    constrain lm (constrain lm d) = constrain lm d := by
  rw [constrain_eq_sum lm (constrain lm d)]
  rw [constrain_eq_sum lm d]
  refine congrArg List.sum (List.map_congr_left fun s hs => ?_)
  rw [dot_sum_of_orthonormal (fun t => dot t d) lm.strainBasis hb s hs]

/-- C7: over the reals, with the Frobenius norm and a positive discard threshold, `constrain`
is idempotent on every matrix `d` for the basis of every successful construction. -/
theorem constrain_idempotent {ρ : Type} (symmThresholdSq : ℝ) (hthr : 0 < symmThresholdSq)
    (e : Everything ℝ ρ) (lm : LatticeMinimizer ℝ ρ)
    (hok : LatticeMinimizer.LatticeMinimizer Real.sqrt symmThresholdSq e = .ok lm)
    (d : matrix3 ℝ) : constrain lm (constrain lm d) = constrain lm d := by
  apply constrain_idempotent_of_orthonormal
  rw [(LatticeMinimizer_ok Real.sqrt symmThresholdSq e lm hok).2.1]
  exact buildBasis_orthonormal symmThresholdSq hthr _ _

/-- C7, witness: the configuration with the axis exchange, projected from the matrix with
rows `(1,2,3)`, `(4,5,6)`, `(7,8,9)`. -/
theorem constrain_idempotent_witness :
    ∃ lm, LatticeMinimizer.LatticeMinimizer Real.sqrt (1 / 100000000)
        (config (1 : matrix3 ℝ) [1, swap01] (fun _ => 1) ![true, false, false]) = .ok lm ∧
      constrain lm (constrain lm !![1, 2, 3; 4, 5, 6; 7, 8, 9])
        = constrain lm !![1, 2, 3; 4, 5, 6; 7, 8, 9] :=
  swap_config_ok.elim fun lm hlm =>
    ⟨lm, hlm, constrain_idempotent (1 / 100000000) (by norm_num) _ lm hlm _⟩

/-- C8: when the norm `sqrt(dot(strain, strain))` exceeds `maxAllowedStrain`, `compute`
returns the not-a-number sentinel and changes nothing: the strain, the cell, the rest of the
state, the record of collaborator calls and the gradient output are as before. -/
theorem compute_guard {K ρ : Type} [LinearOrderedField K] (sqrt : K → K)
    (maxAllowedStrain : K) (c : Collaborators K ρ) (lm : LatticeMinimizer K ρ)
    (grad : Option (matrix3 K))
    (hbig : maxAllowedStrain < sqrt (dot lm.strain lm.strain)) :
    compute sqrt maxAllowedStrain c lm grad = (none, lm, grad) := by
  unfold compute
  rw [if_pos hbig]

/-- C10: `step` is linear in its direction: `step(a*d1 + b*d2, 1)` gives the same state as
`step(d1, a)` followed by `step(d2, b)`, with strain `strain + a*d1 + b*d2`. -/
theorem step_linear {K ρ : Type} [Field K] (lm : LatticeMinimizer K ρ) (a b : K)
    (d1 d2 : matrix3 K) :
    step lm (a • d1 + b • d2) 1 = step (step lm d1 a) d2 b ∧
    (step lm (a • d1 + b • d2) 1).strain = lm.strain + a • d1 + b • d2 ∧
    (step (step lm d1 a) d2 b).strain = lm.strain + a • d1 + b • d2 := by
  refine ⟨?_, ?_, ?_⟩
  · simp only [step, one_smul, add_assoc]
  · simp only [step, one_smul, add_assoc]
  · simp only [step]

/-! ## The interface: restore and the frame of compute -/

/-- C8, witness: the state reached from the sample construction by one step along the
identity has strain of norm `sqrt 3`, above the ceiling `1`. -/
theorem compute_guard_witness :
    ∃ lm, LatticeMinimizer.LatticeMinimizer Real.sqrt (1 / 100000000)
        (config (1 : matrix3 ℝ) [1, swap01] (fun _ => 1) ![true, false, false]) = .ok lm ∧
      compute Real.sqrt 1 (trivialCollaborators ℝ) (step lm 1 1) (some 0)
        = (none, step lm 1 1, some 0) :=
  swap_config_ok.elim fun lm hlm =>
    ⟨lm, hlm, compute_guard Real.sqrt 1 (trivialCollaborators ℝ) (step lm 1 1) (some 0) (by
      have h0 : lm.strain = 0 := (LatticeMinimizer_ok _ _ _ lm hlm).2.2.2.1
      have hd : dot (step lm 1 1).strain (step lm 1 1).strain = 3 := by
        simp [step, h0, dot_eq_sum, Fin.sum_univ_three, Matrix.one_apply]
      rw [hd]
      exact Real.lt_sqrt_of_sq_lt (by norm_num))⟩

theorem updateLatticeDependent_R {K ρ : Type} (c : Collaborators K ρ) (b : Bool)
    (e : Everything K ρ) : (updateLatticeDependent c b e).R = e.R := by
  unfold updateLatticeDependent
  split <;> rfl

theorem centralDifference_frame {K ρ : Type} [Field K] (c : Collaborators K ρ)
    (lm : LatticeMinimizer K ρ) (d : matrix3 K) :
    (centralDifference c lm d).2.Rorig = lm.Rorig ∧
    (centralDifference c lm d).2.strain = lm.strain ∧
    (centralDifference c lm d).2.strainBasis = lm.strainBasis ∧
    (centralDifference c lm d).2.h = lm.h :=
  ⟨rfl, rfl, rfl, rfl⟩

theorem calculateStress_foldl_frame {K ρ : Type} [Field K] (c : Collaborators K ρ)
    (bs : List (matrix3 K)) :
    ∀ (acc : List K × LatticeMinimizer K ρ),
      (bs.foldl
        (fun (acc : List K × LatticeMinimizer K ρ) b =>
          let (d, lm) := centralDifference c acc.2 b
          (acc.1 ++ [d], lm)) acc).2.Rorig = acc.2.Rorig ∧
      (bs.foldl
        (fun (acc : List K × LatticeMinimizer K ρ) b =>
          let (d, lm) := centralDifference c acc.2 b
          (acc.1 ++ [d], lm)) acc).2.strain = acc.2.strain ∧
      (bs.foldl
        (fun (acc : List K × LatticeMinimizer K ρ) b =>
          let (d, lm) := centralDifference c acc.2 b
          (acc.1 ++ [d], lm)) acc).2.strainBasis = acc.2.strainBasis ∧
      (bs.foldl
        (fun (acc : List K × LatticeMinimizer K ρ) b =>
          let (d, lm) := centralDifference c acc.2 b
          (acc.1 ++ [d], lm)) acc).2.h = acc.2.h := by
  induction bs with
  | nil => intro acc; exact ⟨rfl, rfl, rfl, rfl⟩
  | cons b bs ih =>
    intro acc
    exact ih _

theorem calculateStress_frame {K ρ : Type} [Field K] (c : Collaborators K ρ)
    (lm : LatticeMinimizer K ρ) :
    (calculateStress c lm).2.Rorig = lm.Rorig ∧
    (calculateStress c lm).2.strain = lm.strain ∧
    (calculateStress c lm).2.strainBasis = lm.strainBasis ∧
    (calculateStress c lm).2.h = lm.h :=
  calculateStress_foldl_frame c lm.strainBasis ([], lm)

theorem compute_frame {K ρ : Type} [LinearOrderedField K] (sqrt : K → K)
    (maxAllowedStrain : K) (c : Collaborators K ρ) (lm : LatticeMinimizer K ρ)
    (grad : Option (matrix3 K)) :
    (compute sqrt maxAllowedStrain c lm grad).2.1.Rorig = lm.Rorig ∧
    (compute sqrt maxAllowedStrain c lm grad).2.1.strain = lm.strain ∧
    (compute sqrt maxAllowedStrain c lm grad).2.1.strainBasis = lm.strainBasis ∧
    (compute sqrt maxAllowedStrain c lm grad).2.1.h = lm.h := by
  unfold compute
  split
  · exact ⟨rfl, rfl, rfl, rfl⟩
  · cases grad with
    | none => exact ⟨rfl, rfl, rfl, rfl⟩
    | some g =>
      exact calculateStress_frame c _

theorem apply_Rorig {K ρ : Type} [LinearOrderedField K] (sqrt : K → K)
    (maxAllowedStrain : K) (c : Collaborators K ρ) (lm : LatticeMinimizer K ρ) (op : Op K) :
    (Op.apply sqrt maxAllowedStrain c lm op).Rorig = lm.Rorig := by
  cases op with
  | step dir alpha => rfl
  | compute grad => exact (compute_frame sqrt maxAllowedStrain c lm grad).1
  | restore => rfl

theorem run_Rorig {K ρ : Type} [LinearOrderedField K] (sqrt : K → K)
    (maxAllowedStrain : K) (c : Collaborators K ρ) (ops : List (Op K)) :
    ∀ lm : LatticeMinimizer K ρ, (run sqrt maxAllowedStrain c lm ops).Rorig = lm.Rorig := by
  unfold run
  induction ops with
  | nil => intro lm; rfl
  | cons op ops ih =>
    intro lm
    rw [List.foldl_cons, ih, apply_Rorig]

theorem restore_spec {K ρ : Type} [Field K] (c : Collaborators K ρ)
    (lm : LatticeMinimizer K ρ) :
    (restore c lm).strain = 0 ∧ (restore c lm).e.R = lm.Rorig ∧
      (restore c lm).Rorig = lm.Rorig := by
  refine ⟨?_, ?_, rfl⟩
  · show (0 : K) • lm.strain = 0
    exact zero_smul K _
  · show (updateLatticeDependent c false _).R = lm.Rorig
    rw [updateLatticeDependent_R]

/-- C9: after a successful construction on `e`, for every sequence of `step`, `compute` and
`restore` calls, a following `restore` leaves the zero strain and the cell `e.gInfo.R` equal
to the cell captured at construction, and `Rorig` is that cell after every such sequence. -/
theorem restore_after_run {K ρ : Type} [LinearOrderedField K] (sqrt : K → K)
    (symmThresholdSq maxAllowedStrain : K) (c : Collaborators K ρ) (e : Everything K ρ)
    (lm : LatticeMinimizer K ρ)
    (hok : LatticeMinimizer.LatticeMinimizer sqrt symmThresholdSq e = .ok lm)
    (ops : List (Op K)) :
    (restore c (run sqrt maxAllowedStrain c lm ops)).strain = 0 ∧
    (restore c (run sqrt maxAllowedStrain c lm ops)).e.R = e.R ∧
    (restore c (run sqrt maxAllowedStrain c lm ops)).Rorig = e.R ∧
    (run sqrt maxAllowedStrain c lm ops).Rorig = e.R := by
  have hR : lm.Rorig = e.R := (LatticeMinimizer_ok sqrt symmThresholdSq e lm hok).2.2.2.2.1
  have hrun := run_Rorig sqrt maxAllowedStrain c ops lm
  obtain ⟨h1, h2, h3⟩ := restore_spec c (run sqrt maxAllowedStrain c lm ops)
  exact ⟨h1, by rw [h2, hrun, hR], by rw [h3, hrun, hR], by rw [hrun, hR]⟩

/-- C9, witness: the sample construction followed by a step, a compute with gradient, a
second step, a compute without gradient and a compute stopped by the guard. -/
theorem restore_after_run_witness :
    ∃ lm, LatticeMinimizer.LatticeMinimizer Real.sqrt (1 / 100000000)
        (config (1 : matrix3 ℝ) [1, swap01] (fun _ => 1) ![true, false, false]) = .ok lm ∧
      (restore (trivialCollaborators ℝ) (run Real.sqrt 1 (trivialCollaborators ℝ) lm
        [.step 1 (1 / 10), .compute (some 0), .step 1 (1 / 10), .compute none, .step 1 5,
          .compute none])).strain = 0 ∧
      (restore (trivialCollaborators ℝ) (run Real.sqrt 1 (trivialCollaborators ℝ) lm
        [.step 1 (1 / 10), .compute (some 0), .step 1 (1 / 10), .compute none, .step 1 5,
          .compute none])).e.R = 1 :=
  swap_config_ok.elim fun lm hlm =>
    ⟨lm, hlm,
      (restore_after_run Real.sqrt (1 / 100000000) 1 (trivialCollaborators ℝ) _ lm hlm _).1,
      (restore_after_run Real.sqrt (1 / 100000000) 1 (trivialCollaborators ℝ) _ lm hlm _).2.1⟩

/-! ## Scenario A: the cubic point group -/

/-- A generator whose residual vanishes is discarded when the threshold is positive. -/
theorem basisStep_reject (symmThresholdSq : ℝ) (hthr : 0 < symmThresholdSq)
    (sym : List (matrix3 ℤ)) (fixed : vector3 Bool) (basis : List (matrix3 ℝ)) (k : Nat)
    (hres : orthogonalize basis (toReal (symmetrize sym (generator k))) = 0) :
    basisStep Real.sqrt symmThresholdSq sym fixed basis k = basis := by
  unfold basisStep
  split
  · rfl
  · simp only [hres, nrm2, dot_zero_right, Real.sqrt_zero, hthr, if_true]

theorem sqrt_768 : √(768 : ℝ) = 16 * √3 := by
  rw [show (768 : ℝ) = 16 ^ 2 * 3 by norm_num, Real.sqrt_mul (by positivity),
    Real.sqrt_sq (by norm_num)]

theorem toReal_sixteen : (toReal !![16, 0, 0; 0, 16, 0; 0, 0, 16] : matrix3 ℝ) = (16 : ℝ) • 1 := by
  have h : (!![16, 0, 0; 0, 16, 0; 0, 0, 16] : matrix3 ℤ) = (16 : ℤ) • 1 := by decide
  rw [h]
  ext i j
  simp only [toReal, Matrix.map_apply, Matrix.smul_apply, Matrix.one_apply]
  split_ifs <;> simp

theorem toReal_zero {K : Type} [Field K] : (toReal 0 : matrix3 K) = 0 := by
  ext i j
  simp [toReal]

theorem cubic_first :
    (1 / √(((768 : ℤ) : ℝ))) • (toReal !![16, 0, 0; 0, 16, 0; 0, 0, 16] : matrix3 ℝ)
      = (1 / √3) • 1 := by
  have h3 : (0 : ℝ) < √3 := Real.sqrt_pos.mpr (by norm_num)
  rw [toReal_sixteen, smul_smul]
  congr 1
  push_cast
  rw [sqrt_768]
  field_simp

theorem cubic_residual_diag :
    orthogonalize [(1 / √3) • (1 : matrix3 ℝ)]
      (toReal !![16, 0, 0; 0, 16, 0; 0, 0, 16]) = 0 := by
  have h3 : (0 : ℝ) < √3 := Real.sqrt_pos.mpr (by norm_num)
  have hd : dot (1 : matrix3 ℝ) 1 = 3 := by
    simp [dot_eq_sum, Fin.sum_univ_three, Matrix.one_apply]
  rw [orthogonalize_cons, orthogonalize_nil, toReal_sixteen, dot_smul_left, dot_smul_right, hd,
    smul_smul, ← sub_smul]
  have hc : (16 : ℝ) - 1 / √3 * (16 * 3) * (1 / √3) = 0 := by
    have := Real.mul_self_sqrt (show (0 : ℝ) ≤ 3 by norm_num)
    field_simp
  rw [hc, zero_smul]

theorem cubic_residual_zero :
    orthogonalize [(1 / √3) • (1 : matrix3 ℝ)] (toReal 0) = 0 := by
  rw [orthogonalize_cons, orthogonalize_nil, toReal_zero, dot_zero_right, zero_smul, sub_zero]

set_option maxRecDepth 100000 in
theorem cubic_symmetrize :
    symmetrize cubicGroup (generator 0) = !![16, 0, 0; 0, 16, 0; 0, 0, 16] ∧
    symmetrize cubicGroup (generator 1) = !![16, 0, 0; 0, 16, 0; 0, 0, 16] ∧
    symmetrize cubicGroup (generator 2) = !![16, 0, 0; 0, 16, 0; 0, 0, 16] ∧
    symmetrize cubicGroup (generator 3) = 0 ∧
    symmetrize cubicGroup (generator 4) = 0 ∧
    symmetrize cubicGroup (generator 5) = 0 := by
  decide

set_option maxRecDepth 100000 in
theorem cubicGroup_card : cubicGroup.length = 48 ∧ cubicGroup.Nodup := by
  decide

/-- The basis loop on the cubic group with no fixed axis. -/
theorem cubic_buildBasis (symmThresholdSq : ℝ) (hthr : 0 < symmThresholdSq)
    (hle : symmThresholdSq ≤ 16 * √3) :
    buildBasis Real.sqrt symmThresholdSq cubicGroup (fun _ => false)
      = [(1 / √3) • (1 : matrix3 ℝ)] := by
  obtain ⟨h0, h1, h2, h3, h4, h5⟩ := cubic_symmetrize
  have hr : List.range 6 = [0, 1, 2, 3, 4, 5] := by decide
  have s0 : basisStep Real.sqrt symmThresholdSq cubicGroup (fun _ => false) [] 0
      = [(1 / √3) • (1 : matrix3 ℝ)] := by
    rw [basisStep_nil_accept Real.sqrt symmThresholdSq cubicGroup _ 0 _ 768 h0 (by decide)
      (by simp [skipped]) (by push_cast; rw [sqrt_768]; exact hle), cubic_first]
  unfold buildBasis
  rw [hr]
  simp only [List.foldl_cons, List.foldl_nil, s0]
  rw [basisStep_reject _ hthr _ _ _ 1 (by rw [h1]; exact cubic_residual_diag),
    basisStep_reject _ hthr _ _ _ 2 (by rw [h2]; exact cubic_residual_diag),
    basisStep_reject _ hthr _ _ _ 3 (by rw [h3]; exact cubic_residual_zero),
    basisStep_reject _ hthr _ _ _ 4 (by rw [h4]; exact cubic_residual_zero),
    basisStep_reject _ hthr _ _ _ 5 (by rw [h5]; exact cubic_residual_zero)]

theorem LatticeMinimizer_nDim {K ρ : Type} [LinearOrderedField K] (sqrt : K → K)
    (symmThresholdSq : K) (e : Everything K ρ) (lm : LatticeMinimizer K ρ)
    (hok : LatticeMinimizer.LatticeMinimizer sqrt symmThresholdSq e = .ok lm) :
    lm.e.nDim = lm.strainBasis.length ∧ lm.h = 1 / 100000 := by
  unfold LatticeMinimizer.LatticeMinimizer at hok
  split at hok
  · cases hok
  · simp only at hok
    split at hok
    · cases hok
    · cases hok
      exact ⟨rfl, rfl⟩

theorem isFixed_eq_false {K : Type} [LinearOrderedField K] (lattMoveScale : vector3 K)
    (isTruncated : vector3 Bool) (hms : ∀ k, lattMoveScale k ≠ 0)
    (htr : ∀ k, isTruncated k = false) :
    isFixed lattMoveScale isTruncated = fun _ => false := by
  funext k
  simp [isFixed, hms k, htr k]

/-- C13: scenario A. With the 48 signed permutation matrices as symmetry list, one common
non-zero move scale, no truncated axis and a discard threshold in `(0, 16*sqrt 3]`, the
constructor succeeds with the one-element basis `identity/sqrt(3)` and reports dimension 1;
the residuals of the other five generators are zero. -/
theorem cubic_scenario {ρ : Type} (symmThresholdSq : ℝ) (hthr : 0 < symmThresholdSq)
    (hle : symmThresholdSq ≤ 16 * √3) (e : Everything ℝ ρ) (s : ℝ) (hs : s ≠ 0)
    (hsym : e.sym = cubicGroup) (hms : ∀ k, e.lattMoveScale k = s)
    (htr : ∀ k, e.isTruncated k = false) :
    ∃ lm, LatticeMinimizer.LatticeMinimizer Real.sqrt symmThresholdSq e = .ok lm ∧
      lm.strainBasis = [(1 / √3) • (1 : matrix3 ℝ)] ∧ lm.e.nDim = 1 ∧
      ∀ k, 1 ≤ k → k < 6 →
        orthogonalize [(1 / √3) • (1 : matrix3 ℝ)]
          (toReal (symmetrize cubicGroup (generator k))) = 0 := by
  have hfix : isFixed e.lattMoveScale e.isTruncated = fun _ => false :=
    isFixed_eq_false _ _ (fun k => by rw [hms k]; exact hs) htr
  have hb : buildBasis Real.sqrt symmThresholdSq e.sym (isFixed e.lattMoveScale e.isTruncated)
      = [(1 / √3) • (1 : matrix3 ℝ)] := by
    rw [hsym, hfix]
    exact cubic_buildBasis symmThresholdSq hthr hle
  have hcheck : checkMoveScale e.lattMoveScale e.sym = none :=
    (checkMoveScale_eq_none _ _).mpr fun _ _ i j _ => by rw [hms i, hms j]
  obtain ⟨lm, hlm⟩ := LatticeMinimizer_of_nonempty Real.sqrt symmThresholdSq e hcheck
    (by rw [hb]; exact List.cons_ne_nil _ _)
  have hbasis : lm.strainBasis = [(1 / √3) • (1 : matrix3 ℝ)] :=
    (LatticeMinimizer_ok _ _ e lm hlm).2.1.trans hb
  refine ⟨lm, hlm, hbasis, ?_, ?_⟩
  · rw [(LatticeMinimizer_nDim _ _ e lm hlm).1, hbasis]
    rfl
  · obtain ⟨_, h1, h2, h3, h4, h5⟩ := cubic_symmetrize
    intro k hk1 hk6
    interval_cases k
    · rw [h1]; exact cubic_residual_diag
    · rw [h2]; exact cubic_residual_diag
    · rw [h3]; exact cubic_residual_zero
    · rw [h4]; exact cubic_residual_zero
    · rw [h5]; exact cubic_residual_zero

/-- C13, witness: a cubic cell of side 1, move scale 1 on every axis, threshold `1e-8`. -/
theorem cubic_scenario_witness :
    ∃ lm, LatticeMinimizer.LatticeMinimizer Real.sqrt (1 / 100000000)
        (config (1 : matrix3 ℝ) cubicGroup (fun _ => 1) (fun _ => false)) = .ok lm ∧
      lm.strainBasis = [(1 / √3) • (1 : matrix3 ℝ)] ∧ lm.e.nDim = 1 :=
  (cubic_scenario (1 / 100000000) (by norm_num)
    (le_trans (by norm_num : (1 / 100000000 : ℝ) ≤ 16 * 1)
      (mul_le_mul_of_nonneg_left (Real.le_sqrt_of_sq_le (by norm_num)) (by norm_num)))
    (config (1 : matrix3 ℝ) cubicGroup (fun _ => 1) (fun _ => false)) 1 one_ne_zero rfl
    (fun _ => rfl) (fun _ => rfl)).elim
    fun lm h => ⟨lm, h.1, h.2.1, h.2.2.1⟩

/-! ## Stress evaluation by central differences -/

theorem probe_fst {K ρ : Type} [Field K] (c : Collaborators K ρ) (lm : LatticeMinimizer K ρ)
    (t : K) (d : matrix3 K) :
    ∃ ext, (probe c lm t d).1
      = c.relevantFreeEnergy (lm.Rorig + lm.Rorig * (lm.strain + t • d)) ext := by
  refine ⟨(updateLatticeDependent c false
    { lm.e with R := lm.Rorig + lm.Rorig * (lm.strain + t • d) }).ext, ?_⟩
  unfold probe relevantFreeEnergy
  simp only [updateLatticeDependent_R]

theorem probe_frame {K ρ : Type} [Field K] (c : Collaborators K ρ) (lm : LatticeMinimizer K ρ)
    (t : K) (d : matrix3 K) :
    (probe c lm t d).2.Rorig = lm.Rorig ∧ (probe c lm t d).2.strain = lm.strain ∧
    (probe c lm t d).2.strainBasis = lm.strainBasis ∧ (probe c lm t d).2.h = lm.h ∧
    (probe c lm t d).2.e.R = lm.Rorig + lm.Rorig * (lm.strain + t • d) :=
  ⟨rfl, rfl, rfl, rfl, updateLatticeDependent_R _ _ _⟩

/-- The value returned by `centralDifference` when the energy read by a probe at offset `t`
along the direction is `f t`. -/
theorem centralDifference_value {K ρ : Type} [Field K] (c : Collaborators K ρ)
    (lm : LatticeMinimizer K ρ) (d : matrix3 K) (f : K → K)
    (hf : ∀ t ext, c.relevantFreeEnergy (lm.Rorig + lm.Rorig * (lm.strain + t • d)) ext = f t) :
    (centralDifference c lm d).1
      = (1 / (12 * lm.h)) * (f (-2 * lm.h) - 8 * f (-lm.h) + 8 * f lm.h - f (2 * lm.h)) := by
  obtain ⟨x1, h1⟩ := probe_fst c lm (-2 * lm.h) d
  obtain ⟨x2, h2⟩ := probe_fst c (probe c lm (-2 * lm.h) d).2 (-lm.h) d
  obtain ⟨x3, h3⟩ := probe_fst c (probe c (probe c lm (-2 * lm.h) d).2 (-lm.h) d).2 lm.h d
  obtain ⟨x4, h4⟩ := probe_fst c
    (probe c (probe c (probe c lm (-2 * lm.h) d).2 (-lm.h) d).2 lm.h d).2 (2 * lm.h) d
  show (1 / (12 * lm.h)) * ((probe c lm (-2 * lm.h) d).1
    - 8 * (probe c (probe c lm (-2 * lm.h) d).2 (-lm.h) d).1
    + 8 * (probe c (probe c (probe c lm (-2 * lm.h) d).2 (-lm.h) d).2 lm.h d).1
    - (probe c (probe c (probe c (probe c lm (-2 * lm.h) d).2 (-lm.h) d).2 lm.h d).2
        (2 * lm.h) d).1) = _
  rw [h1, h2, h3, h4]
  simp only [probe_frame, hf]

theorem dot_add_left {K : Type} [Field K] (x y z : matrix3 K) :
    dot (x + y) z = dot x z + dot y z := by
  rw [dot_comm, dot_add_right, dot_comm z x, dot_comm z y]

/-- C12: with the energy `k * dot(strain, strain)` as a function of the strain that the cell
`Rorig + Rorig*strain` encodes, and a non-zero step `h`, `centralDifference(d)` returns the
analytic stress `2 * k * dot(strain, d)` exactly. -/
theorem centralDifference_quadratic {K ρ : Type} [LinearOrderedField K] (c : Collaborators K ρ)
    (lm : LatticeMinimizer K ρ) (d : matrix3 K) (k : K) (hh : lm.h ≠ 0)
    (hE : ∀ ε ext, c.relevantFreeEnergy (lm.Rorig + lm.Rorig * ε) ext = k * dot ε ε) :
    (centralDifference c lm d).1 = 2 * k * dot lm.strain d := by
  rw [centralDifference_value c lm d (fun t => k * dot (lm.strain + t • d) (lm.strain + t • d))
    (fun t ext => hE _ ext)]
  simp only [dot_add_left, dot_add_right, dot_smul_left, dot_smul_right, dot_comm d lm.strain]
  field_simp
  ring

/-- C20: if the energy read along the probed line `t ↦ strain + t*d` is the polynomial
`a0 + a1 t + a2 t^2 + a3 t^3 + a4 t^4 + a5 t^5` and `h` is not zero, `centralDifference(d)`
returns `a1 - 4 * a5 * h^4`, where `a1` is the derivative of the polynomial at `t = 0`: the
formula is exact up to degree 4 and a term `a5 t^5` leaves the error `-4 * a5 * h^4`. -/
theorem centralDifference_fourth_order {ρ : Type} (c : Collaborators ℝ ρ)
    (lm : LatticeMinimizer ℝ ρ) (d : matrix3 ℝ) (a0 a1 a2 a3 a4 a5 : ℝ) (hh : lm.h ≠ 0)
    (hE : ∀ t ext, c.relevantFreeEnergy (lm.Rorig + lm.Rorig * (lm.strain + t • d)) ext
      = a0 + a1 * t + a2 * t ^ 2 + a3 * t ^ 3 + a4 * t ^ 4 + a5 * t ^ 5) :
    (centralDifference c lm d).1
      = deriv (fun t : ℝ => a0 + a1 * t + a2 * t ^ 2 + a3 * t ^ 3 + a4 * t ^ 4 + a5 * t ^ 5) 0
        - 4 * a5 * lm.h ^ 4 ∧
    deriv (fun t : ℝ => a0 + a1 * t + a2 * t ^ 2 + a3 * t ^ 3 + a4 * t ^ 4 + a5 * t ^ 5) 0
      = a1 := by
  have hderiv : deriv
      (fun t : ℝ => a0 + a1 * t + a2 * t ^ 2 + a3 * t ^ 3 + a4 * t ^ 4 + a5 * t ^ 5) 0 = a1 := by
    have h : HasDerivAt
        (fun t : ℝ => a0 + a1 * t + a2 * t ^ 2 + a3 * t ^ 3 + a4 * t ^ 4 + a5 * t ^ 5)
        (0 + a1 * 1 + a2 * (2 * (0 : ℝ) ^ 1 * 1) + a3 * (3 * (0 : ℝ) ^ 2 * 1)
          + a4 * (4 * (0 : ℝ) ^ 3 * 1) + a5 * (5 * (0 : ℝ) ^ 4 * 1)) 0 :=
      (((((hasDerivAt_const (0 : ℝ) a0).add ((hasDerivAt_id 0).const_mul a1)).add
        (((hasDerivAt_id (0 : ℝ)).pow 2).const_mul a2)).add
        (((hasDerivAt_id (0 : ℝ)).pow 3).const_mul a3)).add
        (((hasDerivAt_id (0 : ℝ)).pow 4).const_mul a4)).add
        (((hasDerivAt_id (0 : ℝ)).pow 5).const_mul a5)
    rw [h.deriv]
    ring
  refine ⟨?_, hderiv⟩
  rw [hderiv, centralDifference_value c lm d _ hE]
  field_simp
  ring

theorem LatticeMinimizer_calls {K ρ : Type} [LinearOrderedField K] (sqrt : K → K)
    (symmThresholdSq : K) (e : Everything K ρ) (lm : LatticeMinimizer K ρ)
    (hok : LatticeMinimizer.LatticeMinimizer sqrt symmThresholdSq e = .ok lm) :
    lm.e.calls = e.calls ∧ lm.e.ext = e.ext ∧ lm.e.lattMoveScale = e.lattMoveScale ∧
      lm.e.sym = e.sym := by
  unfold LatticeMinimizer.LatticeMinimizer at hok
  split at hok
  · cases hok
  · simp only at hok
    split at hok
    · cases hok
    · cases hok
      exact ⟨rfl, rfl, rfl, rfl⟩

/-- C12, witness: energy `3 * dot(R - 1, R - 1)` on the unit cell of the sample construction,
after a step to the strain with rows `(1,2,3)`, `(4,5,6)`, `(7,8,9)`, probed along the
identity. -/
theorem centralDifference_quadratic_witness :
    ∃ lm, LatticeMinimizer.LatticeMinimizer Real.sqrt (1 / 100000000)
        (config (1 : matrix3 ℝ) [1, swap01] (fun _ => 1) ![true, false, false]) = .ok lm ∧
      (centralDifference (energyCollaborators fun R => 3 * dot (R - 1) (R - 1))
        (step lm !![1, 2, 3; 4, 5, 6; 7, 8, 9] 1) 1).1
          = 2 * 3 * dot (step lm !![1, 2, 3; 4, 5, 6; 7, 8, 9] 1).strain 1 := by
  obtain ⟨lm, hlm⟩ := swap_config_ok
  have hR : lm.Rorig = 1 := (LatticeMinimizer_ok _ _ _ lm hlm).2.2.2.2.1
  have hh : lm.h = 1 / 100000 := (LatticeMinimizer_nDim _ _ _ lm hlm).2
  exact ⟨lm, hlm, centralDifference_quadratic
    (energyCollaborators fun R => 3 * dot (R - 1) (R - 1))
    (step lm !![1, 2, 3; 4, 5, 6; 7, 8, 9] 1) 1 3
    (by show lm.h ≠ 0; rw [hh]; norm_num)
    (by
      intro ε ext
      show 3 * dot (lm.Rorig + lm.Rorig * ε - 1) (lm.Rorig + lm.Rorig * ε - 1) = 3 * dot ε ε
      rw [hR, one_mul, add_sub_cancel_left])⟩

/-- C20, witness: on the unit cell of the sample construction, at zero strain and along the
identity, the energy `1 + 2x + 3x^2 + 4x^3 + 5x^4 + 6x^5` of `x = R(0,0) - 1`. -/
theorem centralDifference_fourth_order_witness :
    ∃ lm, LatticeMinimizer.LatticeMinimizer Real.sqrt (1 / 100000000)
        (config (1 : matrix3 ℝ) [1, swap01] (fun _ => 1) ![true, false, false]) = .ok lm ∧
      (centralDifference
        (energyCollaborators fun R : matrix3 ℝ => 1 + 2 * (R 0 0 - 1) + 3 * (R 0 0 - 1) ^ 2
          + 4 * (R 0 0 - 1) ^ 3 + 5 * (R 0 0 - 1) ^ 4 + 6 * (R 0 0 - 1) ^ 5) lm 1).1
        = deriv (fun t : ℝ => 1 + 2 * t + 3 * t ^ 2 + 4 * t ^ 3 + 5 * t ^ 4 + 6 * t ^ 5) 0
          - 4 * 6 * lm.h ^ 4 := by
  obtain ⟨lm, hlm⟩ := swap_config_ok
  have hR : lm.Rorig = 1 := (LatticeMinimizer_ok _ _ _ lm hlm).2.2.2.2.1
  have hs : lm.strain = 0 := (LatticeMinimizer_ok _ _ _ lm hlm).2.2.2.1
  have hh : lm.h = 1 / 100000 := (LatticeMinimizer_nDim _ _ _ lm hlm).2
  exact ⟨lm, hlm, (centralDifference_fourth_order
    (energyCollaborators fun R : matrix3 ℝ => 1 + 2 * (R 0 0 - 1) + 3 * (R 0 0 - 1) ^ 2
      + 4 * (R 0 0 - 1) ^ 3 + 5 * (R 0 0 - 1) ^ 4 + 6 * (R 0 0 - 1) ^ 5) lm 1 1 2 3 4 5 6
    (by rw [hh]; norm_num)
    (by
      intro t ext
      have hx : (lm.Rorig + lm.Rorig * (lm.strain + t • (1 : matrix3 ℝ))) 0 0 - 1 = t := by
        rw [hR, hs]
        simp
      show 1 + 2 * ((lm.Rorig + lm.Rorig * (lm.strain + t • (1 : matrix3 ℝ))) 0 0 - 1)
        + 3 * ((lm.Rorig + lm.Rorig * (lm.strain + t • (1 : matrix3 ℝ))) 0 0 - 1) ^ 2
        + 4 * ((lm.Rorig + lm.Rorig * (lm.strain + t • (1 : matrix3 ℝ))) 0 0 - 1) ^ 3
        + 5 * ((lm.Rorig + lm.Rorig * (lm.strain + t • (1 : matrix3 ℝ))) 0 0 - 1) ^ 4
        + 6 * ((lm.Rorig + lm.Rorig * (lm.strain + t • (1 : matrix3 ℝ))) 0 0 - 1) ^ 5 = _
      rw [hx])).1⟩

/-- The cell left by `calculateStress` is the last probe of the last basis vector. -/
theorem calculateStress_last {K ρ : Type} [Field K] (c : Collaborators K ρ)
    (lm : LatticeMinimizer K ρ) (bs : List (matrix3 K)) (d : matrix3 K)
    (hb : lm.strainBasis = bs ++ [d]) :
    (calculateStress c lm).2.e.R = lm.Rorig + lm.Rorig * (lm.strain + (2 * lm.h) • d) := by
  unfold calculateStress
  rw [hb, List.foldl_append, List.foldl_cons, List.foldl_nil]
  obtain ⟨h1, h2, _, h4⟩ := calculateStress_foldl_frame c bs ([], lm)
  show (updateLatticeDependent c false _).R = _
  rw [updateLatticeDependent_R]
  show _ + _ * (_ + (2 * _) • d) = _
  rw [h1, h2, h4]

/-- C11: when the norm of the strain does not exceed `maxAllowedStrain`, `compute` returns an
energy, leaves the strain unchanged and leaves the cell `e.gInfo.R` at
`Rorig + Rorig*strain`, with or without gradient; with a gradient the stress evaluation had
left the cell at the last probe `Rorig + Rorig*(strain + 2h*d)` of the last basis vector `d`. -/
theorem compute_cell {K ρ : Type} [LinearOrderedField K] (sqrt : K → K)
    (maxAllowedStrain : K) (c : Collaborators K ρ) (lm : LatticeMinimizer K ρ)
    (grad : Option (matrix3 K))
    (hsmall : sqrt (dot lm.strain lm.strain) ≤ maxAllowedStrain) :
    (∃ E, (compute sqrt maxAllowedStrain c lm grad).1 = some E) ∧
    (compute sqrt maxAllowedStrain c lm grad).2.1.e.R = lm.Rorig + lm.Rorig * lm.strain ∧
    (compute sqrt maxAllowedStrain c lm grad).2.1.strain = lm.strain ∧
    (grad.isSome = true → ∀ bs d, lm.strainBasis = bs ++ [d] →
      (calculateStress c { lm with e := ionicMinimize c (updateLatticeDependent c true
          { lm.e with R := lm.Rorig + lm.Rorig * lm.strain }) }).2.e.R
        = lm.Rorig + lm.Rorig * (lm.strain + (2 * lm.h) • d)) := by
  refine ⟨?_, ?_, (compute_frame sqrt maxAllowedStrain c lm grad).2.1, ?_⟩
  · unfold compute
    rw [if_neg (not_lt.mpr hsmall)]
    cases grad with
    | none => exact ⟨_, rfl⟩
    | some g => exact ⟨_, rfl⟩
  · unfold compute
    rw [if_neg (not_lt.mpr hsmall)]
    cases grad with
    | none =>
      show (updateLatticeDependent c true _).R = _
      rw [updateLatticeDependent_R]
    | some g =>
      show (updateLatticeDependent c false _).R = _
      rw [updateLatticeDependent_R]
      show (calculateStress c _).2.Rorig + (calculateStress c _).2.Rorig
        * (calculateStress c _).2.strain = _
      rw [(calculateStress_frame c _).1, (calculateStress_frame c _).2.1]
  · intro _ bs d hb
    exact calculateStress_last c _ bs d hb

/-- C11, witness: the sample construction after a step of `1/10` along the identity, below
the ceiling `1`, with a gradient requested. -/
theorem compute_cell_witness :
    ∃ lm, LatticeMinimizer.LatticeMinimizer Real.sqrt (1 / 100000000)
        (config (1 : matrix3 ℝ) [1, swap01] (fun _ => 1) ![true, false, false]) = .ok lm ∧
      (compute Real.sqrt 1 (trivialCollaborators ℝ) (step lm 1 (1 / 10)) (some 0)).2.1.e.R
        = 1 + 1 * ((1 / 10 : ℝ) • (1 : matrix3 ℝ)) := by
  obtain ⟨lm, hlm⟩ := swap_config_ok
  have hR : lm.Rorig = 1 := (LatticeMinimizer_ok _ _ _ lm hlm).2.2.2.2.1
  have hs : lm.strain = 0 := (LatticeMinimizer_ok _ _ _ lm hlm).2.2.2.1
  have hstrain : (step lm 1 (1 / 10)).strain = (1 / 10 : ℝ) • (1 : matrix3 ℝ) := by
    show lm.strain + _ = _
    rw [hs, zero_add]
  have hsmall : √(dot (step lm 1 (1 / 10)).strain (step lm 1 (1 / 10)).strain) ≤ 1 := by
    have hd : dot (1 : matrix3 ℝ) 1 = 3 := by
      simp [dot_eq_sum, Fin.sum_univ_three, Matrix.one_apply]
    rw [hstrain, dot_smul_left, dot_smul_right, hd]
    exact Real.sqrt_le_iff.mpr ⟨by norm_num, by norm_num⟩
  refine ⟨lm, hlm, ?_⟩
  have h := (compute_cell Real.sqrt 1 (trivialCollaborators ℝ) (step lm 1 (1 / 10)) (some 0)
    hsmall).2.1
  rw [h, hstrain]
  show lm.Rorig + lm.Rorig * _ = _
  rw [hR]

/-! ## Preconditioner and grid index -/

/-- C16: `precondition` returns `D * grad * D` with `D = diag(lattMoveScale)`: its `(i,j)`
entry is `lattMoveScale[i] * g(i,j) * lattMoveScale[j]`, the rows and columns of an axis with
move scale zero vanish, and a symmetric `g` gives a symmetric result. -/
theorem precondition_entries {K ρ : Type} [Field K] (lm : LatticeMinimizer K ρ)
    (g : matrix3 K) :
    precondition lm g
      = Matrix.diagonal lm.e.lattMoveScale * g * Matrix.diagonal lm.e.lattMoveScale ∧
    (∀ i j, precondition lm g i j = lm.e.lattMoveScale i * g i j * lm.e.lattMoveScale j) ∧
    (∀ k, lm.e.lattMoveScale k = 0 →
      ∀ j, precondition lm g k j = 0 ∧ precondition lm g j k = 0) ∧
    (g.transpose = g → (precondition lm g).transpose = precondition lm g) := by
  have hentry : ∀ i j,
      precondition lm g i j = lm.e.lattMoveScale i * g i j * lm.e.lattMoveScale j := by
    intro i j
    simp only [precondition, Diag, Matrix.mul_diagonal, Matrix.diagonal_mul]
  refine ⟨rfl, hentry, ?_, ?_⟩
  · intro k hk j
    rw [hentry, hentry, hk]
    constructor <;> ring
  · intro hg
    ext i j
    rw [Matrix.transpose_apply, hentry, hentry]
    have hji : g j i = g i j := by
      have := congrFun (congrFun hg i) j
      rwa [Matrix.transpose_apply] at this
    rw [hji]
    ring

/-- C17: for positive sample counts, `fullRindex` maps the box `0 <= iR[k] < S[k]` into
`[0, nr)`, is injective on it and reaches every index of `[0, nr)`. -/
theorem fullRindex_bijective (S : vector3 ℤ) (hS : ∀ k, 0 < S k) :
    (∀ iR, inBox S iR → 0 ≤ fullRindex S iR ∧ fullRindex S iR < nr S) ∧
    (∀ iR iR', inBox S iR → inBox S iR' → fullRindex S iR = fullRindex S iR' → iR = iR') ∧
    (∀ n, 0 ≤ n → n < nr S → ∃ iR, inBox S iR ∧ fullRindex S iR = n) := by
  have h0 := hS 0
  have h1 := hS 1
  have h2 := hS 2
  refine ⟨?_, ?_, ?_⟩
  · intro iR hb
    obtain ⟨a0, a1⟩ := hb 0
    obtain ⟨b0, b1⟩ := hb 1
    obtain ⟨c0, c1⟩ := hb 2
    unfold fullRindex nr
    constructor
    · have : 0 ≤ S 2 * (iR 1 + S 1 * iR 0) :=
        mul_nonneg h2.le (add_nonneg b0 (mul_nonneg h1.le a0))
      linarith
    · have e1 : iR 1 + S 1 * iR 0 ≤ S 1 * S 0 - 1 := by
        have : S 1 * iR 0 ≤ S 1 * (S 0 - 1) := mul_le_mul_of_nonneg_left (by linarith) h1.le
        nlinarith
      have e2 : S 2 * (iR 1 + S 1 * iR 0) ≤ S 2 * (S 1 * S 0 - 1) :=
        mul_le_mul_of_nonneg_left e1 h2.le
      nlinarith
  · intro iR iR' hb hb' heq
    unfold fullRindex at heq
    have hmod : ∀ (a b x y s : ℤ), 0 < s → 0 ≤ a → a < s → 0 ≤ b → b < s →
        a + s * x = b + s * y → a = b ∧ x = y := by
      intro a b x y s hs ha0 ha1 hb0 hb1 h
      have ha : (a + s * x) % s = a := by
        rw [Int.add_mul_emod_self_left]; exact Int.emod_eq_of_lt ha0 ha1
      have hb : (b + s * y) % s = b := by
        rw [Int.add_mul_emod_self_left]; exact Int.emod_eq_of_lt hb0 hb1
      have hab : a = b := by rw [← ha, ← hb, h]
      refine ⟨hab, ?_⟩
      subst hab
      have : s * x = s * y := by linarith
      exact mul_left_cancel₀ hs.ne' this
    obtain ⟨e2, e⟩ := hmod _ _ _ _ _ h2 (hb 2).1 (hb 2).2 (hb' 2).1 (hb' 2).2 heq
    obtain ⟨e1, e0⟩ := hmod _ _ _ _ _ h1 (hb 1).1 (hb 1).2 (hb' 1).1 (hb' 1).2 e
    funext k
    fin_cases k
    · exact e0
    · exact e1
    · exact e2
  · intro n hn0 hn1
    unfold nr at hn1
    refine ⟨![n / S 2 / S 1, n / S 2 % S 1, n % S 2], ?_, ?_⟩
    · intro k
      fin_cases k
      · refine ⟨Int.ediv_nonneg (Int.ediv_nonneg hn0 h2.le) h1.le, ?_⟩
        show n / S 2 / S 1 < S 0
        rw [Int.ediv_lt_iff_lt_mul h1, Int.ediv_lt_iff_lt_mul h2]
        exact hn1
      · exact ⟨Int.emod_nonneg _ h1.ne', Int.emod_lt_of_pos _ h1⟩
      · exact ⟨Int.emod_nonneg _ h2.ne', Int.emod_lt_of_pos _ h2⟩
    · show n % S 2 + S 2 * (n / S 2 % S 1 + S 1 * (n / S 2 / S 1)) = n
      rw [Int.emod_add_ediv, Int.emod_add_ediv]

/-- C17, witness: a grid of `2 x 3 x 4` samples. -/
theorem fullRindex_bijective_witness :
    (∀ iR, inBox ![2, 3, 4] iR →
      0 ≤ fullRindex ![2, 3, 4] iR ∧ fullRindex ![2, 3, 4] iR < nr ![2, 3, 4]) ∧
    fullRindex ![2, 3, 4] ![1, 2, 3] = 23 ∧ nr ![2, 3, 4] = 24 :=
  ⟨(fullRindex_bijective ![2, 3, 4] (by decide)).1, by decide, by decide⟩

/-! ## The collaborator calls of a gradient evaluation -/

theorem constrain_congr {K ρ : Type} [Field K] (lm1 lm2 : LatticeMinimizer K ρ)
    (h : lm1.strainBasis = lm2.strainBasis) (d : matrix3 K) :
    constrain lm1 d = constrain lm2 d := by
  unfold constrain
  rw [h]

theorem constrain_zero {K ρ : Type} [Field K] (lm : LatticeMinimizer K ρ) :
    constrain lm 0 = 0 := by
  rw [constrain_eq_sum]
  simp only [dot_zero_right, zero_smul]
  induction lm.strainBasis with
  | nil => rfl
  | cons b bs ih => rw [List.map_cons, List.sum_cons, ih, add_zero]

theorem constrain_add_smul {K ρ : Type} [Field K] (lm : LatticeMinimizer K ρ)
    (x y : matrix3 K) (a : K) :
    constrain lm (x + a • y) = constrain lm x + a • constrain lm y := by
  simp only [constrain_eq_sum]
  induction lm.strainBasis with
  | nil => simp
  | cons b bs ih =>
    simp only [List.map_cons, List.sum_cons]
    rw [ih, dot_add_right, dot_smul_right, add_smul, mul_smul, smul_add]
    abel

/-- The strain stays in the span of an orthonormal basis under constrained calls. -/
theorem applyConstrained_invariant {K ρ : Type} [LinearOrderedField K] (sqrt : K → K)
    (maxAllowedStrain : K) (c : Collaborators K ρ) (lm : LatticeMinimizer K ρ) (op : Op K)
    (hb : Orthonormal lm.strainBasis) (hs : constrain lm lm.strain = lm.strain) :
    (Op.applyConstrained sqrt maxAllowedStrain c lm op).strainBasis = lm.strainBasis ∧
    constrain (Op.applyConstrained sqrt maxAllowedStrain c lm op)
        (Op.applyConstrained sqrt maxAllowedStrain c lm op).strain
      = (Op.applyConstrained sqrt maxAllowedStrain c lm op).strain := by
  cases op with
  | step dir alpha =>
    refine ⟨rfl, ?_⟩
    show constrain (step lm (constrain lm dir) alpha) (lm.strain + alpha • constrain lm dir)
      = lm.strain + alpha • constrain lm dir
    rw [constrain_congr (step lm (constrain lm dir) alpha) lm rfl, constrain_add_smul, hs,
      constrain_idempotent_of_orthonormal lm hb]
  | compute grad =>
    obtain ⟨_, h2, h3, _⟩ := compute_frame sqrt maxAllowedStrain c lm grad
    refine ⟨h3, ?_⟩
    show constrain (compute sqrt maxAllowedStrain c lm grad).2.1
      (compute sqrt maxAllowedStrain c lm grad).2.1.strain = _
    rw [constrain_congr _ lm h3, h2, hs]
    exact h2.symm
  | restore =>
    refine ⟨rfl, ?_⟩
    show constrain (restore c lm) ((0 : K) • lm.strain) = (0 : K) • lm.strain
    rw [constrain_congr (restore c lm) lm rfl, zero_smul, constrain_zero]

theorem runConstrained_invariant {K ρ : Type} [LinearOrderedField K] (sqrt : K → K)
    (maxAllowedStrain : K) (c : Collaborators K ρ) (ops : List (Op K)) :
    ∀ lm : LatticeMinimizer K ρ, Orthonormal lm.strainBasis →
      constrain lm lm.strain = lm.strain →
      constrain (runConstrained sqrt maxAllowedStrain c lm ops)
          (runConstrained sqrt maxAllowedStrain c lm ops).strain
        = (runConstrained sqrt maxAllowedStrain c lm ops).strain := by
  unfold runConstrained
  induction ops with
  | nil => intro lm _ hs; exact hs
  | cons op ops ih =>
    intro lm hb hs
    obtain ⟨h1, h2⟩ := applyConstrained_invariant sqrt maxAllowedStrain c lm op hb hs
    rw [List.foldl_cons]
    exact ih _ (by rw [h1]; exact hb) h2

theorem sum_zero_of_orthogonal {K : Type} [Field K] (p : matrix3 K) :
    ∀ (l : List (matrix3 K)), (∀ t ∈ l, dot t p = 0) →
      (l.map fun t => dot t p • t).sum = 0 := by
  intro l
  induction l with
  | nil => intro _; rfl
  | cons q qs ih =>
    intro h
    rw [List.map_cons, List.sum_cons, h q (List.mem_cons_self _ _),
      ih (fun t ht => h t (List.mem_cons_of_mem _ ht)), zero_smul, add_zero]

/-- A member of an orthonormal list is its own combination. -/
theorem sum_dot_of_orthonormal {K : Type} [Field K] :
    ∀ (l : List (matrix3 K)), Orthonormal l → ∀ p ∈ l,
      (l.map fun t => dot t p • t).sum = p := by
  intro l
  induction l with
  | nil => intro _ p hp; exact (List.not_mem_nil _ hp).elim
  | cons q qs ih =>
    intro hl p hp
    obtain ⟨hunit, hpair⟩ := hl
    rw [List.pairwise_cons] at hpair
    rw [List.map_cons, List.sum_cons]
    rcases List.mem_cons.mp hp with rfl | hp'
    · rw [hunit p (List.mem_cons_self _ _), one_smul,
        sum_zero_of_orthogonal p qs (fun t ht => by rw [dot_comm]; exact hpair.1 t ht), add_zero]
    · rw [hpair.1 p hp', zero_smul, zero_add,
        ih ⟨fun b hb => hunit b (List.mem_cons_of_mem _ hb), hpair.2⟩ p hp']

/-- For an orthonormal basis, `constrain` is the orthogonal projection onto the span. -/
theorem constrain_projection {ρ : Type} (lm : LatticeMinimizer ℝ ρ)
    (hb : Orthonormal lm.strainBasis) (d : matrix3 ℝ) :
    constrain lm d ∈ Submodule.span ℝ {b | b ∈ lm.strainBasis} ∧
    (∀ b ∈ lm.strainBasis, dot b (d - constrain lm d) = 0) ∧
    (d ∈ Submodule.span ℝ {b | b ∈ lm.strainBasis} → constrain lm d = d) := by
  refine ⟨?_, ?_, ?_⟩
  · rw [constrain_eq_sum]
    apply list_sum_mem
    intro x hx
    obtain ⟨s, hs, rfl⟩ := List.mem_map.mp hx
    exact Submodule.smul_mem _ _ (Submodule.subset_span hs)
  · intro b hbm
    rw [dot_sub_right, constrain_eq_sum,
      dot_sum_of_orthonormal (fun t => dot t d) lm.strainBasis hb b hbm, sub_self]
  · intro hd
    induction hd using Submodule.span_induction with
    | mem x hx =>
      rw [constrain_eq_sum]
      exact sum_dot_of_orthonormal lm.strainBasis hb x hx
    | zero => exact constrain_zero lm
    | add x y _ _ hx hy =>
      have := constrain_add_smul lm x y 1
      rw [one_smul, one_smul] at this
      rw [this, hx, hy]
    | smul a x _ hx =>
      have := constrain_add_smul lm 0 x a
      rw [zero_add, constrain_zero, zero_add] at this
      rw [this, hx]

theorem runConstrained_strainBasis {K ρ : Type} [LinearOrderedField K] (sqrt : K → K)
    (maxAllowedStrain : K) (c : Collaborators K ρ) (ops : List (Op K)) :
    ∀ lm : LatticeMinimizer K ρ,
      (runConstrained sqrt maxAllowedStrain c lm ops).strainBasis = lm.strainBasis := by
  unfold runConstrained
  induction ops with
  | nil => intro lm; rfl
  | cons op ops ih =>
    intro lm
    rw [List.foldl_cons, ih]
    cases op with
    | step dir alpha => rfl
    | compute grad => exact (compute_frame sqrt maxAllowedStrain c lm grad).2.2.1
    | restore => rfl

/-- C15: over the reals, with the Frobenius norm and a positive discard threshold, in every
state reached from a successful construction by `restore`, `compute` and `step` calls whose
direction is the output of `constrain`, the basis is the constructed one, the strain lies in
the linear span of the basis and equals its projection, `constrain(strain) = strain`; here
`constrain` is the orthogonal projection onto that span: for every matrix `d` the output
`constrain(d)` lies in the span, `d - constrain(d)` is orthogonal to every basis vector, and
`constrain(d) = d` when `d` lies in the span. -/
theorem strain_in_span {ρ : Type} (symmThresholdSq : ℝ) (hthr : 0 < symmThresholdSq)
    (maxAllowedStrain : ℝ) (c : Collaborators ℝ ρ) (e : Everything ℝ ρ)
    (lm : LatticeMinimizer ℝ ρ)
    (hok : LatticeMinimizer.LatticeMinimizer Real.sqrt symmThresholdSq e = .ok lm)
    (ops : List (Op ℝ)) :
    (runConstrained Real.sqrt maxAllowedStrain c lm ops).strainBasis = lm.strainBasis ∧
    (runConstrained Real.sqrt maxAllowedStrain c lm ops).strain
      ∈ Submodule.span ℝ {b | b ∈ lm.strainBasis} ∧
    constrain (runConstrained Real.sqrt maxAllowedStrain c lm ops)
        (runConstrained Real.sqrt maxAllowedStrain c lm ops).strain
      = (runConstrained Real.sqrt maxAllowedStrain c lm ops).strain ∧
    ∀ d : matrix3 ℝ,
      constrain (runConstrained Real.sqrt maxAllowedStrain c lm ops) d
        ∈ Submodule.span ℝ {b | b ∈ lm.strainBasis} ∧
      (∀ b ∈ lm.strainBasis,
        dot b (d - constrain (runConstrained Real.sqrt maxAllowedStrain c lm ops) d) = 0) ∧
      (d ∈ Submodule.span ℝ {b | b ∈ lm.strainBasis} →
        constrain (runConstrained Real.sqrt maxAllowedStrain c lm ops) d = d) := by
  obtain ⟨_, hbasis, _, hs, _⟩ := LatticeMinimizer_ok Real.sqrt symmThresholdSq e lm hok
  have horth : Orthonormal lm.strainBasis := by
    rw [hbasis]
    exact buildBasis_orthonormal symmThresholdSq hthr _ _
  have hsb := runConstrained_strainBasis Real.sqrt maxAllowedStrain c ops lm
  have hfix := runConstrained_invariant Real.sqrt maxAllowedStrain c ops lm horth
    (by rw [hs, constrain_zero])
  have hproj : ∀ d : matrix3 ℝ,
      constrain (runConstrained Real.sqrt maxAllowedStrain c lm ops) d
        ∈ Submodule.span ℝ {b | b ∈ lm.strainBasis} ∧
      (∀ b ∈ lm.strainBasis,
        dot b (d - constrain (runConstrained Real.sqrt maxAllowedStrain c lm ops) d) = 0) ∧
      (d ∈ Submodule.span ℝ {b | b ∈ lm.strainBasis} →
        constrain (runConstrained Real.sqrt maxAllowedStrain c lm ops) d = d) := by
    intro d
    rw [constrain_congr _ lm hsb d]
    exact constrain_projection lm horth d
  refine ⟨hsb, ?_, hfix, hproj⟩
  rw [← hfix]
  exact (hproj _).1

/-- C15, witness: the sample construction followed by two constrained steps, two computes and
a restore. -/
theorem strain_in_span_witness :
    ∃ lm, LatticeMinimizer.LatticeMinimizer Real.sqrt (1 / 100000000)
        (config (1 : matrix3 ℝ) [1, swap01] (fun _ => 1) ![true, false, false]) = .ok lm ∧
      (runConstrained Real.sqrt 1 (trivialCollaborators ℝ) lm
          [.step !![1, 2, 3; 4, 5, 6; 7, 8, 9] (1 / 10), .compute (some 0), .step 1 2,
            .compute none, .restore, .step !![0, 1, 0; 0, 0, 0; 0, 0, 0] 1]).strain
        ∈ Submodule.span ℝ {b | b ∈ lm.strainBasis} ∧
      constrain (runConstrained Real.sqrt 1 (trivialCollaborators ℝ) lm
          [.step !![1, 2, 3; 4, 5, 6; 7, 8, 9] (1 / 10), .compute (some 0), .step 1 2,
            .compute none, .restore, .step !![0, 1, 0; 0, 0, 0; 0, 0, 0] 1])
        (runConstrained Real.sqrt 1 (trivialCollaborators ℝ) lm
          [.step !![1, 2, 3; 4, 5, 6; 7, 8, 9] (1 / 10), .compute (some 0), .step 1 2,
            .compute none, .restore, .step !![0, 1, 0; 0, 0, 0; 0, 0, 0] 1]).strain
        = (runConstrained Real.sqrt 1 (trivialCollaborators ℝ) lm
          [.step !![1, 2, 3; 4, 5, 6; 7, 8, 9] (1 / 10), .compute (some 0), .step 1 2,
            .compute none, .restore, .step !![0, 1, 0; 0, 0, 0; 0, 0, 0] 1]).strain ∧
      constrain (runConstrained Real.sqrt 1 (trivialCollaborators ℝ) lm
          [.step !![1, 2, 3; 4, 5, 6; 7, 8, 9] (1 / 10), .compute (some 0), .step 1 2,
            .compute none, .restore, .step !![0, 1, 0; 0, 0, 0; 0, 0, 0] 1])
          !![1, 2, 3; 4, 5, 6; 7, 8, 9]
        ∈ Submodule.span ℝ {b | b ∈ lm.strainBasis} :=
  swap_config_ok.elim fun lm hlm =>
    have h := strain_in_span (1 / 100000000) (by norm_num) 1 (trivialCollaborators ℝ) _ lm hlm
      [.step !![1, 2, 3; 4, 5, 6; 7, 8, 9] (1 / 10), .compute (some 0), .step 1 2,
        .compute none, .restore, .step !![0, 1, 0; 0, 0, 0; 0, 0, 0] 1]
    ⟨lm, hlm, h.2.1, h.2.2.1, (h.2.2.2 _).1⟩

/-! ## Scenario B: one decoupled axis fixed -/

theorem decoupled_mInv (k : Fin 3) (m : matrix3 ℤ) (h : Decoupled k m) :
    Decoupled k (mInv m) := by
  intro j hj
  have h0 := h 0
  have h1 := h 1
  have h2 := h 2
  unfold mInv det adjugate
  rw [Matrix.adjugate_fin_three]
  fin_cases k <;> fin_cases j <;> simp_all [Matrix.vecHead, Matrix.vecTail]

theorem avoidsAxis_conj (k : Fin 3) (a b s : matrix3 ℤ) (ha : Decoupled k a)
    (hb : Decoupled k b) (hs : AvoidsAxis k s) : AvoidsAxis k (a * s * b) := by
  have hrow : ∀ j, (a * s) k j = 0 := by
    intro j
    rw [Matrix.mul_apply]
    refine Finset.sum_eq_zero fun x _ => ?_
    by_cases hx : x = k
    · rw [hx, (hs j).1, mul_zero]
    · rw [(ha x hx).1, zero_mul]
  have hcol : ∀ j, (a * s) j k = 0 := by
    intro j
    rw [Matrix.mul_apply]
    exact Finset.sum_eq_zero fun x _ => by rw [(hs x).2, mul_zero]
  intro j
  constructor
  · rw [Matrix.mul_apply]
    exact Finset.sum_eq_zero fun x _ => by rw [hrow x, zero_mul]
  · rw [Matrix.mul_apply]
    refine Finset.sum_eq_zero fun x _ => ?_
    by_cases hx : x = k
    · rw [hx, hcol j, zero_mul]
    · rw [(hb x hx).2, mul_zero]

theorem touchesOnly_conj (k : Fin 3) (a b s : matrix3 ℤ) (ha : Decoupled k a)
    (hb : Decoupled k b) (hs : TouchesOnly k s) : TouchesOnly k (a * s * b) := by
  intro i j hi hj
  rw [Matrix.mul_apply]
  refine Finset.sum_eq_zero fun y _ => ?_
  by_cases hy : y = k
  · rw [hy, (hb j hj).1, mul_zero]
  · have : (a * s) i y = 0 := by
      rw [Matrix.mul_apply]
      refine Finset.sum_eq_zero fun x _ => ?_
      by_cases hx : x = k
      · rw [hx, (ha i hi).2, zero_mul]
      · rw [hs x y hx hy, mul_zero]
    rw [this, zero_mul]

/-- A property of integer matrices that holds of zero, of sums and of every `mInv * s * m`
holds of the symmetrized `s`. -/
theorem symmetrize_induction (P : matrix3 ℤ → Prop) (sym : List (matrix3 ℤ)) (s : matrix3 ℤ)
    (h0 : P 0) (hadd : ∀ x y, P x → P y → P (x + y))
    (hterm : ∀ m ∈ sym, P (mInv m * s * m)) : P (symmetrize sym s) := by
  unfold symmetrize
  suffices h : ∀ acc, P acc → P (sym.foldl (fun sSym m => sSym + mInv m * s * m) acc) from
    h 0 h0
  induction sym with
  | nil => intro acc hacc; exact hacc
  | cons m ms ih =>
    intro acc hacc
    rw [List.foldl_cons]
    exact ih (fun x hx => hterm x (List.mem_cons_of_mem _ hx)) _
      (hadd _ _ hacc (hterm m (List.mem_cons_self _ _)))

theorem avoidsAxis_symmetrize (k : Fin 3) (sym : List (matrix3 ℤ))
    (hdec : ∀ m ∈ sym, Decoupled k m) (s : matrix3 ℤ) (hs : AvoidsAxis k s) :
    AvoidsAxis k (toReal (symmetrize sym s) : matrix3 ℝ) := by
  have h : AvoidsAxis k (symmetrize sym s) := by
    apply symmetrize_induction (AvoidsAxis k)
    · intro j; exact ⟨rfl, rfl⟩
    · intro x y hx hy j
      simp only [Matrix.add_apply, (hx j).1, (hx j).2, (hy j).1, (hy j).2, add_zero, and_self]
    · intro m hm
      exact avoidsAxis_conj k _ _ _ (decoupled_mInv k m (hdec m hm)) (hdec m hm) hs
  intro j
  simp only [toReal, Matrix.map_apply, (h j).1, (h j).2, Int.cast_zero, and_self]

theorem touchesOnly_symmetrize (k : Fin 3) (sym : List (matrix3 ℤ))
    (hdec : ∀ m ∈ sym, Decoupled k m) (s : matrix3 ℤ) (hs : TouchesOnly k s) :
    TouchesOnly k (toReal (symmetrize sym s) : matrix3 ℝ) := by
  have h : TouchesOnly k (symmetrize sym s) := by
    apply symmetrize_induction (TouchesOnly k)
    · intro i j _ _; rfl
    · intro x y hx hy i j hi hj
      simp only [Matrix.add_apply, hx i j hi hj, hy i j hi hj, add_zero]
    · intro m hm
      exact touchesOnly_conj k _ _ _ (decoupled_mInv k m (hdec m hm)) (hdec m hm) hs
  intro i j hi hj
  simp only [toReal, Matrix.map_apply, h i j hi hj, Int.cast_zero]

/-- A generator is skipped with only axis `k` fixed exactly when it touches axis `k`. -/
theorem generator_class (k : Fin 3) (n : Nat) :
    (skipped (onlyFixed k) n = true → TouchesOnly k (generator n)) ∧
    (skipped (onlyFixed k) n = false → AvoidsAxis k (generator n)) := by
  unfold skipped generator onlyFixed
  by_cases hn : n < 3
  · simp only [hn, if_true, decide_eq_true_eq, decide_eq_false_iff_not]
    constructor
    · intro hk i j hi _
      simp [hk, hi]
    · intro hk j
      have hk' : ¬ k = axis n := fun h => hk h.symm
      simp [hk']
  · simp only [hn, if_false, Bool.or_eq_true, Bool.or_eq_false_iff, decide_eq_true_eq,
      decide_eq_false_iff_not]
    constructor
    · intro hk i j hi hj
      rcases hk with hk | hk
      · simp [hk, hi, hj]
      · simp [hk, hi, hj]
    · rintro ⟨h1, h2⟩ j
      have h1' : ¬ k = axis (n + 1) := fun h => h1 h.symm
      have h2' : ¬ k = axis (n + 2) := fun h => h2 h.symm
      simp [h1', h2']

theorem dot_avoids_touches (k : Fin 3) (x y : matrix3 ℝ) (hx : AvoidsAxis k x)
    (hy : TouchesOnly k y) : dot x y = 0 := by
  rw [dot_eq_sum]
  refine Finset.sum_eq_zero fun i _ => Finset.sum_eq_zero fun j _ => ?_
  by_cases hi : i = k
  · rw [hi, (hx j).1, zero_mul]
  · by_cases hj : j = k
    · rw [hj, (hx i).2, zero_mul]
    · rw [hy i j hi hj, mul_zero]

theorem eq_zero_of_avoids_touches {α : Type} [Zero α] (k : Fin 3) (b : matrix3 α)
    (h1 : AvoidsAxis k b) (h2 : TouchesOnly k b) : b = 0 := by
  ext i j
  by_cases hi : i = k
  · rw [hi]; exact (h1 j).1
  · by_cases hj : j = k
    · rw [hj]; exact (h1 i).2
    · exact h2 i j hi hj

theorem avoidsAxis_sub_smul (k : Fin 3) (v p : matrix3 ℝ) (c : ℝ) (hv : AvoidsAxis k v)
    (hp : AvoidsAxis k p) : AvoidsAxis k (v - c • p) := by
  intro j
  simp [Matrix.sub_apply, Matrix.smul_apply, (hv j).1, (hv j).2, (hp j).1, (hp j).2]

theorem touchesOnly_sub_smul (k : Fin 3) (v p : matrix3 ℝ) (c : ℝ) (hv : TouchesOnly k v)
    (hp : TouchesOnly k p) : TouchesOnly k (v - c • p) := by
  intro i j hi hj
  simp [Matrix.sub_apply, Matrix.smul_apply, hv i j hi hj, hp i j hi hj]

/-- Orthogonalizing a matrix that avoids axis `k` ignores the basis vectors that touch it. -/
theorem orthogonalize_filter (k : Fin 3) :
    ∀ (ps : List (matrix3 ℝ)) (v : matrix3 ℝ),
      (∀ p ∈ ps, AvoidsAxis k p ∨ (TouchesOnly k p ∧ ¬ AvoidsAxis k p)) → AvoidsAxis k v →
      orthogonalize ps v = orthogonalize (ps.filter fun b => decide (AvoidsAxis k b)) v ∧
        AvoidsAxis k (orthogonalize ps v) := by
  intro ps
  induction ps with
  | nil => intro v _ hv; exact ⟨rfl, hv⟩
  | cons p ps ih =>
    intro v hps hv
    have hps' := fun q hq => hps q (List.mem_cons_of_mem _ hq)
    rcases hps p (List.mem_cons_self _ _) with hp | ⟨hp, hnp⟩
    · rw [List.filter_cons_of_pos (by simpa using hp), orthogonalize_cons, orthogonalize_cons]
      exact ih _ hps' (avoidsAxis_sub_smul k v p _ hv hp)
    · rw [List.filter_cons_of_neg (by simpa using hnp), orthogonalize_cons,
        dot_comm, dot_avoids_touches k v p hv hp, zero_smul, sub_zero]
      exact ih _ hps' hv

/-- Orthogonalizing a matrix supported on row and column `k` keeps it there. -/
theorem orthogonalize_touchesOnly (k : Fin 3) :
    ∀ (ps : List (matrix3 ℝ)) (v : matrix3 ℝ),
      (∀ p ∈ ps, AvoidsAxis k p ∨ (TouchesOnly k p ∧ ¬ AvoidsAxis k p)) → TouchesOnly k v →
      TouchesOnly k (orthogonalize ps v) := by
  intro ps
  induction ps with
  | nil => intro v _ hv; exact hv
  | cons p ps ih =>
    intro v hps hv
    have hps' := fun q hq => hps q (List.mem_cons_of_mem _ hq)
    rw [orthogonalize_cons]
    rcases hps p (List.mem_cons_self _ _) with hp | ⟨hp, _⟩
    · rw [dot_avoids_touches k p v hp hv, zero_smul, sub_zero]
      exact ih _ hps' hv
    · exact ih _ hps' (touchesOnly_sub_smul k v p _ hv hp)

theorem skipped_none (n : Nat) : skipped (fun _ => false) n = false := by
  unfold skipped
  split <;> rfl

/-- One pass of the loop body, run with no axis fixed and with only axis `k` fixed. -/
theorem basisStep_scenarioB (symmThresholdSq : ℝ) (hthr : 0 < symmThresholdSq)
    (sym : List (matrix3 ℤ)) (k : Fin 3) (hdec : ∀ m ∈ sym, Decoupled k m)
    (Bf Bk : List (matrix3 ℝ)) (n : Nat)
    (hgood : ∀ b ∈ Bf, AvoidsAxis k b ∨ (TouchesOnly k b ∧ ¬ AvoidsAxis k b))
    (hfilter : Bk = Bf.filter fun b => decide (AvoidsAxis k b)) :
    (∀ b ∈ basisStep Real.sqrt symmThresholdSq sym (fun _ => false) Bf n,
      AvoidsAxis k b ∨ (TouchesOnly k b ∧ ¬ AvoidsAxis k b)) ∧
    basisStep Real.sqrt symmThresholdSq sym (onlyFixed k) Bk n
      = (basisStep Real.sqrt symmThresholdSq sym (fun _ => false) Bf n).filter
          fun b => decide (AvoidsAxis k b) := by
  unfold basisStep
  rw [skipped_none]
  simp only [Bool.false_eq_true, if_false]
  cases hskip : skipped (onlyFixed k) n with
  | true =>
    simp only [if_true]
    have hw := touchesOnly_symmetrize k sym hdec _ ((generator_class k n).1 hskip)
    have hr := orthogonalize_touchesOnly k Bf _ hgood hw
    split
    · exact ⟨hgood, hfilter⟩
    · rename_i hnorm
      set r := orthogonalize Bf (toReal (symmetrize sym (generator n))) with hrdef
      have hpos : 0 < nrm2 Real.sqrt r := lt_of_lt_of_le hthr (not_lt.mp hnorm)
      have hv : TouchesOnly k ((1 / nrm2 Real.sqrt r) • r) := by
        intro i j hi hj
        simp [Matrix.smul_apply, hr i j hi hj]
      have hnv : ¬ AvoidsAxis k ((1 / nrm2 Real.sqrt r) • r) := by
        intro ha
        have h0 := eq_zero_of_avoids_touches k _ ha hv
        have hr0 : r = 0 := by
          rcases smul_eq_zero.mp h0 with h | h
          · exact absurd h (one_div_ne_zero hpos.ne')
          · exact h
        rw [hr0, nrm2, dot_zero_right, Real.sqrt_zero] at hpos
        exact lt_irrefl _ hpos
      constructor
      · intro b hb
        rcases List.mem_append.mp hb with h | h
        · exact hgood b h
        · rw [List.mem_singleton.mp h]; exact Or.inr ⟨hv, hnv⟩
      · rw [List.filter_append, ← hfilter, List.filter_cons_of_neg (by simpa using hnv),
          List.filter_nil, List.append_nil]
  | false =>
    simp only [Bool.false_eq_true, if_false]
    have hw := avoidsAxis_symmetrize k sym hdec _ ((generator_class k n).2 hskip)
    obtain ⟨hres, hr⟩ := orthogonalize_filter k Bf _ hgood hw
    rw [hfilter, ← hres]
    split
    · exact ⟨hgood, rfl⟩
    · set r := orthogonalize Bf (toReal (symmetrize sym (generator n))) with hrdef
      have hv : AvoidsAxis k ((1 / nrm2 Real.sqrt r) • r) := by
        intro j
        simp [Matrix.smul_apply, (hr j).1, (hr j).2]
      constructor
      · intro b hb
        rcases List.mem_append.mp hb with h | h
        · exact hgood b h
        · rw [List.mem_singleton.mp h]; exact Or.inl hv
      · rw [List.filter_append, List.filter_cons_of_pos (by simpa using hv), List.filter_nil]

/-- The two runs of the basis loop, with no axis fixed and with only axis `k` fixed. -/
theorem buildBasis_scenarioB (symmThresholdSq : ℝ) (hthr : 0 < symmThresholdSq)
    (sym : List (matrix3 ℤ)) (k : Fin 3) (hdec : ∀ m ∈ sym, Decoupled k m) :
    (∀ b ∈ buildBasis Real.sqrt symmThresholdSq sym (fun _ => false),
      AvoidsAxis k b ∨ (TouchesOnly k b ∧ ¬ AvoidsAxis k b)) ∧
    buildBasis Real.sqrt symmThresholdSq sym (onlyFixed k)
      = (buildBasis Real.sqrt symmThresholdSq sym (fun _ => false)).filter
          fun b => decide (AvoidsAxis k b) := by
  unfold buildBasis
  generalize List.range 6 = ks
  suffices h : ∀ (Bf Bk : List (matrix3 ℝ)),
      (∀ b ∈ Bf, AvoidsAxis k b ∨ (TouchesOnly k b ∧ ¬ AvoidsAxis k b)) →
      Bk = Bf.filter (fun b => decide (AvoidsAxis k b)) →
      (∀ b ∈ ks.foldl (basisStep Real.sqrt symmThresholdSq sym (fun _ => false)) Bf,
        AvoidsAxis k b ∨ (TouchesOnly k b ∧ ¬ AvoidsAxis k b)) ∧
      ks.foldl (basisStep Real.sqrt symmThresholdSq sym (onlyFixed k)) Bk
        = (ks.foldl (basisStep Real.sqrt symmThresholdSq sym (fun _ => false)) Bf).filter
            fun b => decide (AvoidsAxis k b) from
    h [] [] (fun b hb => (List.not_mem_nil _ hb).elim) rfl
  induction ks with
  | nil => intro Bf Bk hg hf; exact ⟨hg, hf⟩
  | cons n ks ih =>
    intro Bf Bk hg hf
    obtain ⟨hg', hf'⟩ := basisStep_scenarioB symmThresholdSq hthr sym k hdec Bf Bk n hg hf
    exact ih _ _ hg' hf'

theorem symmetrize_identity (s : matrix3 ℤ) : symmetrize [1] s = s := by
  simp [symmetrize, mInv, det, adjugate]

theorem orthogonalize_of_orthogonal {K : Type} [Field K] :
    ∀ (ps : List (matrix3 K)) (v : matrix3 K), (∀ p ∈ ps, dot p v = 0) →
      orthogonalize ps v = v := by
  intro ps
  induction ps with
  | nil => intro v _; rfl
  | cons p ps ih =>
    intro v h
    rw [orthogonalize_cons, h p (List.mem_cons_self _ _), zero_smul, sub_zero]
    exact ih v fun q hq => h q (List.mem_cons_of_mem _ hq)

theorem generator_orthogonal :
    ∀ a < 6, ∀ b < 6, a ≠ b → trace (generator a * (generator b).transpose) = 0 := by
  decide

theorem generator_norm : ∀ a < 6,
    trace (generator a * (generator a).transpose) = 1 ∨
      trace (generator a * (generator a).transpose) = 2 := by
  decide

/-- With the identity as only symmetry and a threshold at most `1`, every generator that is
not skipped is accepted. -/
theorem identity_foldl_length (symmThresholdSq : ℝ) (hle : symmThresholdSq ≤ 1)
    (fixed : vector3 Bool) :
    ∀ (ks : List Nat), ks.Nodup → (∀ n ∈ ks, n < 6) → ∀ basis : List (matrix3 ℝ),
      (∀ b ∈ basis, ∃ (j : Nat) (c : ℝ),
        j < 6 ∧ j ∉ ks ∧ b = c • (toReal (generator j) : matrix3 ℝ)) →
      (ks.foldl (basisStep Real.sqrt symmThresholdSq [1] fixed) basis).length
        = basis.length + (ks.filter fun n => !skipped fixed n).length := by
  intro ks
  induction ks with
  | nil => intro _ _ basis _; simp
  | cons n ks ih =>
    intro hnd hlt basis hbasis
    rw [List.nodup_cons] at hnd
    have hn6 : n < 6 := hlt n (List.mem_cons_self _ _)
    rw [List.foldl_cons]
    have hrest : ∀ b ∈ basis,
        ∃ (j : Nat) (c : ℝ), j < 6 ∧ j ∉ ks ∧ b = c • (toReal (generator j) : matrix3 ℝ) := by
      intro b hb
      obtain ⟨j, c, hj6, hj, hbj⟩ := hbasis b hb
      exact ⟨j, c, hj6, fun h => hj (List.mem_cons_of_mem _ h), hbj⟩
    cases hskip : skipped fixed n with
    | true =>
      have hstep : basisStep Real.sqrt symmThresholdSq [1] fixed basis n = basis := by
        unfold basisStep; rw [hskip, if_pos rfl]
      rw [hstep, ih hnd.2 (fun m hm => hlt m (List.mem_cons_of_mem _ hm)) basis hrest,
        List.filter_cons_of_neg (by simp [hskip])]
    | false =>
      have horth : ∀ p ∈ basis, dot p (toReal (generator n) : matrix3 ℝ) = 0 := by
        intro p hp
        obtain ⟨j, c, hj6, hj, hpj⟩ := hbasis p hp
        have hjn : j ≠ n := fun h => hj (h ▸ List.mem_cons_self _ _)
        rw [hpj, dot_smul_left, dot_toReal, generator_orthogonal j hj6 n hn6 hjn]
        simp
      have hnorm : ¬ nrm2 Real.sqrt (toReal (generator n) : matrix3 ℝ) < symmThresholdSq := by
        rw [not_lt, nrm2, dot_toReal]
        refine le_trans hle (Real.le_sqrt_of_sq_le ?_)
        rcases generator_norm n hn6 with h | h <;> rw [h] <;> norm_num
      have hstep : basisStep Real.sqrt symmThresholdSq [1] fixed basis n
          = basis ++ [(1 / nrm2 Real.sqrt (toReal (generator n) : matrix3 ℝ))
              • toReal (generator n)] := by
        unfold basisStep
        rw [hskip, symmetrize_identity]
        simp only [Bool.false_eq_true, if_false, orthogonalize_of_orthogonal basis _ horth,
          hnorm]
      rw [hstep, ih hnd.2 (fun m hm => hlt m (List.mem_cons_of_mem _ hm)),
        List.filter_cons_of_pos (by simp [hskip])]
      · simp only [List.length_append, List.length_cons, List.length_nil]
        omega
      · intro b hb
        rcases List.mem_append.mp hb with h | h
        · exact hrest b h
        · exact ⟨n, _, hn6, hnd.1, List.mem_singleton.mp h⟩

theorem identity_buildBasis_length (symmThresholdSq : ℝ) (hle : symmThresholdSq ≤ 1)
    (fixed : vector3 Bool) :
    (buildBasis Real.sqrt symmThresholdSq [1] fixed).length
      = ((List.range 6).filter fun n => !skipped fixed n).length := by
  unfold buildBasis
  rw [identity_foldl_length symmThresholdSq hle fixed (List.range 6) (List.nodup_range 6)
    (fun n hn => List.mem_range.mp hn) [] (fun b hb => (List.not_mem_nil _ hb).elim)]
  simp

theorem identity_decoupled (k : Fin 3) : ∀ m ∈ ([1] : List (matrix3 ℤ)), Decoupled k m := by
  intro m hm j hj
  rw [List.mem_singleton.mp hm]
  exact ⟨Matrix.one_apply_ne hj.symm, Matrix.one_apply_ne hj⟩

/-- C14: scenario B. For a symmetry list in which axis `k` is not coupled to the other two
and a positive discard threshold, the basis built with only axis `k` fixed is the basis built
with no axis fixed with the vectors that involve axis `k` removed; every other vector is kept
unchanged, and every removed vector is non-zero only in row and column `k`, as the
symmetrized generators touching axis `k` are. With the identity as only symmetry and a
threshold at most `1` the dimension drops from 6 to 3. -/
theorem scenarioB {ρ : Type} (symmThresholdSq : ℝ) (hthr : 0 < symmThresholdSq) (k : Fin 3)
    (e1 e2 : Everything ℝ ρ) (lm1 lm2 : LatticeMinimizer ℝ ρ)
    (hsym : e2.sym = e1.sym) (hdec : ∀ m ∈ e1.sym, Decoupled k m)
    (hfree : ∀ a, isFixed e1.lattMoveScale e1.isTruncated a = false)
    (hfix : ∀ a, isFixed e2.lattMoveScale e2.isTruncated a = decide (a = k))
    (hok1 : LatticeMinimizer.LatticeMinimizer Real.sqrt symmThresholdSq e1 = .ok lm1)
    (hok2 : LatticeMinimizer.LatticeMinimizer Real.sqrt symmThresholdSq e2 = .ok lm2) :
    lm2.strainBasis = lm1.strainBasis.filter (fun b => decide (AvoidsAxis k b)) ∧
    (∀ b ∈ lm1.strainBasis, AvoidsAxis k b ∨ (TouchesOnly k b ∧ ¬ AvoidsAxis k b)) ∧
    (∀ n, skipped (onlyFixed k) n = true →
      TouchesOnly k (toReal (symmetrize e1.sym (generator n)) : matrix3 ℝ)) ∧
    (∀ n, skipped (onlyFixed k) n = false →
      AvoidsAxis k (toReal (symmetrize e1.sym (generator n)) : matrix3 ℝ)) ∧
    (e1.sym = [1] → symmThresholdSq ≤ 1 →
      lm1.strainBasis.length = 6 ∧ lm2.strainBasis.length = 3) := by
  have hf1 : isFixed e1.lattMoveScale e1.isTruncated = fun _ => false := funext hfree
  have hf2 : isFixed e2.lattMoveScale e2.isTruncated = onlyFixed k := funext hfix
  have hb1 := (LatticeMinimizer_ok _ _ e1 lm1 hok1).2.1
  have hb2 := (LatticeMinimizer_ok _ _ e2 lm2 hok2).2.1
  rw [hf1] at hb1
  rw [hf2, hsym] at hb2
  obtain ⟨hgood, hfilter⟩ := buildBasis_scenarioB symmThresholdSq hthr e1.sym k hdec
  refine ⟨?_, ?_, ?_, ?_, ?_⟩
  · rw [hb2, hb1]; exact hfilter
  · rw [hb1]; exact hgood
  · intro n hn
    exact touchesOnly_symmetrize k e1.sym hdec _ ((generator_class k n).1 hn)
  · intro n hn
    exact avoidsAxis_symmetrize k e1.sym hdec _ ((generator_class k n).2 hn)
  · intro hid hle
    rw [hb1, hb2, hid, identity_buildBasis_length _ hle, identity_buildBasis_length _ hle]
    constructor
    · decide
    · fin_cases k <;> decide

theorem identity_config_ok (isTruncated : vector3 Bool) (n : Nat) (hn : n < 6)
    (hskip : skipped (isFixed (fun _ => (1 : ℝ)) isTruncated) n = false) :
    ∃ lm, LatticeMinimizer.LatticeMinimizer Real.sqrt (1 / 100000000)
      (config (1 : matrix3 ℝ) [1] (fun _ => 1) isTruncated) = .ok lm := by
  apply LatticeMinimizer_of_nonempty _ _ _ (checkMoveScale_const _ _)
  intro hnil
  have hlen := identity_buildBasis_length (1 / 100000000) (by norm_num)
    (isFixed (fun _ => (1 : ℝ)) isTruncated)
  have hmem : n ∈ (List.range 6).filter
      fun n => !skipped (isFixed (fun _ => (1 : ℝ)) isTruncated) n :=
    List.mem_filter.mpr ⟨List.mem_range.mpr hn, by simp [hskip]⟩
  have hpos := List.length_pos_of_mem hmem
  rw [← hlen] at hpos
  exact absurd (congrArg List.length hnil) (by
    show (buildBasis Real.sqrt (1 / 100000000) [1]
      (isFixed (fun _ => (1 : ℝ)) isTruncated)).length ≠ 0
    omega)

/-- C14, witness: the identity as only symmetry, with no axis fixed and with axis `0`
truncated. -/
theorem scenarioB_witness :
    ∃ lm1 lm2,
      LatticeMinimizer.LatticeMinimizer Real.sqrt (1 / 100000000)
        (config (1 : matrix3 ℝ) [1] (fun _ => 1) (fun _ => false)) = .ok lm1 ∧
      LatticeMinimizer.LatticeMinimizer Real.sqrt (1 / 100000000)
        (config (1 : matrix3 ℝ) [1] (fun _ => 1) ![true, false, false]) = .ok lm2 ∧
      lm2.strainBasis = lm1.strainBasis.filter (fun b => decide (AvoidsAxis 0 b)) ∧
      lm1.strainBasis.length = 6 ∧ lm2.strainBasis.length = 3 := by
  obtain ⟨lm1, h1⟩ := identity_config_ok (fun _ => false) 0 (by decide)
    (by simp [skipped, isFixed, axis])
  obtain ⟨lm2, h2⟩ := identity_config_ok ![true, false, false] 1 (by decide)
    (by simp [skipped, isFixed, axis])
  have h := scenarioB (1 / 100000000) (by norm_num) 0
    (config (1 : matrix3 ℝ) [1] (fun _ => 1) (fun _ => false))
    (config (1 : matrix3 ℝ) [1] (fun _ => 1) ![true, false, false]) lm1 lm2 rfl
    (identity_decoupled 0) (fun a => by simp [isFixed, config])
    (fun a => by fin_cases a <;> simp [isFixed, config]) h1 h2
  exact ⟨lm1, lm2, h1, h2, h.1, h.2.2.2.2 rfl (by norm_num)⟩

/-! ## The discard test of the basis loop -/

theorem foldl_basisStep_nil {K : Type} [LinearOrderedField K] (sqrt : K → K)
    (symmThresholdSq : K) (sym : List (matrix3 ℤ)) (fixed : vector3 Bool) (ks : List Nat)
    (h : ∀ k ∈ ks, basisStep sqrt symmThresholdSq sym fixed [] k = []) :
    ks.foldl (basisStep sqrt symmThresholdSq sym fixed) [] = [] := by
  induction ks with
  | nil => rfl
  | cons k ks ih =>
    rw [List.foldl_cons, h k (List.mem_cons_self _ _)]
    exact ih fun n hn => h n (List.mem_cons_of_mem _ hn)

theorem toReal_add {K : Type} [Field K] (a b : matrix3 ℤ) :
    (toReal (a + b) : matrix3 K) = toReal a + toReal b := by
  ext i j
  simp [toReal]

theorem toReal_smul {K : Type} [Field K] (c : ℤ) (a : matrix3 ℤ) :
    (toReal (c • a) : matrix3 K) = (c : K) • toReal a := by
  ext i j
  simp only [toReal, Matrix.map_apply, Matrix.smul_apply, smul_eq_mul, Int.cast_mul]

theorem toReal_zipWith_sum {K : Type} [Field K] :
    ∀ (ws : List (matrix3 ℤ)) (cs : List ℤ),
      (toReal (List.zipWith (fun c w => c • w) cs ws).sum : matrix3 K)
        = (List.zipWith (fun (c : K) w => c • w) (cs.map fun (c : ℤ) => (c : K))
            (ws.map toReal)).sum := by
  intro ws
  induction ws with
  | nil => intro cs; cases cs <;> simp [toReal_zero]
  | cons w ws ih =>
    intro cs
    cases cs with
    | nil => simp [toReal_zero]
    | cons c cs =>
      simp only [List.zipWith_cons_cons, List.sum_cons, List.map_cons]
      rw [toReal_add, toReal_smul, ih]

theorem dot_zipWith_sum_of_orthogonal {K : Type} [Field K] (p : matrix3 K) :
    ∀ (ws : List (matrix3 K)) (cs : List K), (∀ w ∈ ws, dot p w = 0) →
      dot p (List.zipWith (fun c w => c • w) cs ws).sum = 0 := by
  intro ws
  induction ws with
  | nil => intro cs _; cases cs <;> simp [dot_zero_right]
  | cons w ws ih =>
    intro cs h
    cases cs with
    | nil => simp [dot_zero_right]
    | cons c cs =>
      simp only [List.zipWith_cons_cons, List.sum_cons]
      rw [dot_add_right, dot_smul_right, h w (List.mem_cons_self _ _),
        ih cs (fun t ht => h t (List.mem_cons_of_mem _ ht))]
      ring

/-- The loop of lines 76-77, run on the normalized members of an orthogonal list `ws`, takes
`r` plus a combination of `ws` to `r` when `r` is orthogonal to `ws`. -/
theorem orthogonalize_decompose :
    ∀ (ws : List (matrix3 ℝ)) (cs : List ℝ) (r : matrix3 ℝ),
      (∀ w ∈ ws, 0 < dot w w) → ws.Pairwise (fun a b => dot a b = 0) →
      (∀ w ∈ ws, dot w r = 0) →
      orthogonalize (ws.map fun w => (1 / √(dot w w)) • w)
        (r + (List.zipWith (fun c w => c • w) cs ws).sum) = r := by
  intro ws
  induction ws with
  | nil => intro cs r _ _ _; cases cs <;> simp [orthogonalize_nil]
  | cons w ws ih =>
    intro cs r hpos horth hr
    rw [List.pairwise_cons] at horth
    have hw : 0 < dot w w := hpos w (List.mem_cons_self _ _)
    have hwr : dot w r = 0 := hr w (List.mem_cons_self _ _)
    have hsq : √(dot w w) * √(dot w w) = dot w w := Real.mul_self_sqrt hw.le
    have hne : √(dot w w) ≠ 0 := (Real.sqrt_pos.mpr hw).ne'
    rw [List.map_cons, orthogonalize_cons]
    cases cs with
    | nil =>
      have := ih [] r (fun t ht => hpos t (List.mem_cons_of_mem _ ht)) horth.2
        (fun t ht => hr t (List.mem_cons_of_mem _ ht))
      simp only [List.zipWith_nil_left, List.sum_nil, add_zero] at this ⊢
      rw [dot_smul_left, hwr, mul_zero, zero_smul, sub_zero]
      exact this
    | cons c cs =>
      have := ih cs r (fun t ht => hpos t (List.mem_cons_of_mem _ ht)) horth.2
        (fun t ht => hr t (List.mem_cons_of_mem _ ht))
      simp only [List.zipWith_cons_cons, List.sum_cons]
      rw [dot_smul_left, dot_add_right, dot_add_right, dot_smul_right, hwr,
        dot_zipWith_sum_of_orthogonal w ws cs horth.1]
      convert this using 2
      rw [smul_smul]
      have hcoef : 1 / √(dot w w) * (0 + (c * dot w w + 0)) * (1 / √(dot w w)) = c := by
        field_simp
      rw [hcoef]
      abel

theorem orthogonalize_smul {K : Type} [Field K] (a : K) :
    ∀ (ps : List (matrix3 K)) (x : matrix3 K),
      orthogonalize ps (a • x) = a • orthogonalize ps x := by
  intro ps
  induction ps with
  | nil => intro x; rfl
  | cons p ps ih =>
    intro x
    rw [orthogonalize_cons, orthogonalize_cons, ← ih, dot_smul_right, smul_sub, smul_smul]

theorem map_normalized (ws : List (matrix3 ℤ)) :
    ws.map (normalized Real.sqrt)
      = (ws.map (toReal : matrix3 ℤ → matrix3 ℝ)).map fun w => (1 / √(dot w w)) • w := by
  rw [List.map_map]
  refine List.map_congr_left fun w _ => ?_
  simp only [Function.comp, normalized, dot_toReal]

/-- The residual of an integer candidate `V` against the normalized members of an orthogonal
list `ws` of integer matrices: if `D * V = g * W + (a combination of ws)` with `W` orthogonal
to `ws`, the loop of lines 76-77 leaves `(g/D) * W`. -/
theorem orthogonalize_int (ws : List (matrix3 ℤ)) (cs : List ℤ) (V W : matrix3 ℤ) (D g : ℤ)
    (hpos : ∀ w ∈ ws, 0 < trace (w * w.transpose))
    (horth : ws.Pairwise fun a b => trace (a * b.transpose) = 0)
    (hW : ∀ w ∈ ws, trace (w * W.transpose) = 0) (hD : 0 < D)
    (hdec : D • V = g • W + (List.zipWith (fun c w => c • w) cs ws).sum) :
    orthogonalize (ws.map (normalized Real.sqrt)) (toReal V)
      = ((g : ℝ) / (D : ℝ)) • (toReal W : matrix3 ℝ) := by
  have hD' : (D : ℝ) ≠ 0 := Int.cast_ne_zero.mpr hD.ne'
  have hV : (toReal V : matrix3 ℝ) = (1 / (D : ℝ)) • ((g : ℝ) • toReal W
      + (List.zipWith (fun (c : ℝ) w => c • w) (cs.map fun (c : ℤ) => (c : ℝ))
          (ws.map toReal)).sum) := by
    rw [← toReal_zipWith_sum, ← toReal_smul, ← toReal_add, ← hdec, toReal_smul, smul_smul,
      one_div, inv_mul_cancel₀ hD', one_smul]
  rw [hV, orthogonalize_smul, map_normalized, orthogonalize_decompose, smul_smul,
    one_div, inv_mul_eq_div]
  · intro w hw
    obtain ⟨w', hw', rfl⟩ := List.mem_map.mp hw
    rw [dot_toReal]
    exact_mod_cast hpos w' hw'
  · rw [List.pairwise_map]
    exact horth.imp fun {a b} h => by rw [dot_toReal, h, Int.cast_zero]
  · intro w hw
    obtain ⟨w', hw', rfl⟩ := List.mem_map.mp hw
    rw [dot_smul_right, dot_toReal, hW w' hw', Int.cast_zero, mul_zero]

/-- One pass of the loop body on a basis of normalized, pairwise orthogonal integer matrices:
a candidate whose residual `(g/D) * W` has norm `g * sqrt(W·W) / D` at least the threshold is
accepted, and the new basis vector is `W` normalized. -/
theorem basisStep_int_accept (symmThresholdSq : ℝ) (sym : List (matrix3 ℤ))
    (fixed : vector3 Bool) (k : Nat) (ws : List (matrix3 ℤ)) (cs : List ℤ)
    (V W : matrix3 ℤ) (D g : ℤ)
    (hskip : skipped fixed k = false) (hV : symmetrize sym (generator k) = V)
    (hpos : ∀ w ∈ ws, 0 < trace (w * w.transpose))
    (horth : ws.Pairwise fun a b => trace (a * b.transpose) = 0)
    (hW : ∀ w ∈ ws, trace (w * W.transpose) = 0) (hD : 0 < D) (hg : 0 < g)
    (hdec : D • V = g • W + (List.zipWith (fun c w => c • w) cs ws).sum)
    (hT : symmThresholdSq * D ≤ g * √((trace (W * W.transpose) : ℤ) : ℝ)) :
    basisStep Real.sqrt symmThresholdSq sym fixed (ws.map (normalized Real.sqrt)) k
      = (ws ++ [W]).map (normalized Real.sqrt) := by
  have hD' : (0 : ℝ) < D := Int.cast_pos.mpr hD
  have hg' : (0 : ℝ) < g := Int.cast_pos.mpr hg
  have hres := orthogonalize_int ws cs V W D g hpos horth hW hD hdec
  have hnorm : nrm2 Real.sqrt (((g : ℝ) / (D : ℝ)) • (toReal W : matrix3 ℝ))
      = (g : ℝ) / D * √((trace (W * W.transpose) : ℤ) : ℝ) := by
    unfold nrm2
    rw [dot_smul_left, dot_smul_right, dot_toReal, ← mul_assoc,
      Real.sqrt_mul (mul_self_nonneg _), Real.sqrt_mul_self (div_pos hg' hD').le]
  unfold basisStep
  rw [hskip, hV]
  simp only [Bool.false_eq_true, if_false, hres, hnorm]
  have hle : symmThresholdSq ≤ (g : ℝ) / D * √((trace (W * W.transpose) : ℤ) : ℝ) := by
    rw [div_mul_eq_mul_div]
    exact (le_div_iff₀ hD').mpr hT
  rw [if_neg (not_lt.mpr hle), List.map_append, List.map_singleton]
  congr 2
  unfold normalized
  rw [smul_smul]
  congr 1
  rw [one_div, one_div, mul_inv, mul_comm, ← mul_assoc, mul_inv_cancel₀ (div_pos hg' hD').ne',
    one_mul]

/-- One pass of the loop body on a basis of normalized, pairwise orthogonal integer matrices:
a candidate that is a combination of the basis has residual zero and is discarded when the
threshold is positive. -/
theorem basisStep_int_reject (symmThresholdSq : ℝ) (hthr : 0 < symmThresholdSq)
    (sym : List (matrix3 ℤ)) (fixed : vector3 Bool) (k : Nat) (ws : List (matrix3 ℤ))
    (cs : List ℤ) (V : matrix3 ℤ) (D : ℤ) (hV : symmetrize sym (generator k) = V)
    (hpos : ∀ w ∈ ws, 0 < trace (w * w.transpose))
    (horth : ws.Pairwise fun a b => trace (a * b.transpose) = 0) (hD : 0 < D)
    (hdec : D • V = (List.zipWith (fun c w => c • w) cs ws).sum) :
    basisStep Real.sqrt symmThresholdSq sym fixed (ws.map (normalized Real.sqrt)) k
      = ws.map (normalized Real.sqrt) := by
  have hres := orthogonalize_int ws cs V 0 D 0 hpos horth
    (fun w _ => by simp [trace]) hD (by rw [zero_smul, zero_add]; exact hdec)
  unfold basisStep
  split
  · rfl
  · rw [hV]
    simp only [hres, Int.cast_zero, zero_div, zero_smul, nrm2, dot_zero_right, Real.sqrt_zero,
      hthr, if_true]

/-- A threshold of at most `10⁻⁵` is at most the norm `g * sqrt(n) / D` when
`D² ≤ 10¹⁰ * g² * n`. -/
theorem threshold_le (symmThresholdSq : ℝ) (W : matrix3 ℤ) (D g : ℤ)
    (hhi : symmThresholdSq ≤ 1 / 100000) (hD : 0 < D) (hg : 0 < g)
    (h : D ^ 2 ≤ 10000000000 * g ^ 2 * trace (W * W.transpose)) :
    symmThresholdSq * D ≤ g * √((trace (W * W.transpose) : ℤ) : ℝ) := by
  have hD' : (0 : ℝ) < D := Int.cast_pos.mpr hD
  have hg' : (0 : ℝ) < g := Int.cast_pos.mpr hg
  have h' : (D : ℝ) ^ 2
      ≤ 10000000000 * (g : ℝ) ^ 2 * ((trace (W * W.transpose) : ℤ) : ℝ) := by
    exact_mod_cast h
  have h1 : symmThresholdSq * D ≤ D / 100000 := by
    rw [div_eq_mul_one_div, mul_comm (D : ℝ)]
    exact mul_le_mul_of_nonneg_right hhi hD'.le
  have h2 : (D : ℝ) / 100000 ≤ g * √((trace (W * W.transpose) : ℤ) : ℝ) := by
    rw [← Real.sqrt_sq hg'.le, ← Real.sqrt_mul (sq_nonneg _)]
    apply Real.le_sqrt_of_sq_le
    rw [div_pow]
    rw [div_le_iff₀ (by norm_num)]
    linarith
  exact h1.trans h2

/-- The loop of lines 55-81 on the group of `skewMirror` without fixed axes, for a threshold
between `10⁻⁹` and `10⁻⁵`: the first five candidates are accepted, the sixth is discarded;
after `k` passes the basis consists of the first `k` of `skewResiduals`, normalized. -/
theorem skew_buildBasis (symmThresholdSq : ℝ) (hlo : 1 / 1000000000 ≤ symmThresholdSq)
    (hhi : symmThresholdSq ≤ 1 / 100000) (k : Nat) (hk : k ≤ 6) :
    (List.range k).foldl (basisStep Real.sqrt symmThresholdSq [1, skewMirror]
        (isFixed (fun _ => (1 : ℝ)) (fun _ => false))) []
      = (skewResiduals.take k).map (normalized Real.sqrt) := by
  have hskip : ∀ j, skipped (isFixed (fun _ => (1 : ℝ)) (fun _ => false)) j = false := by
    intro j; unfold skipped; split <;> simp [isFixed]
  have h0 : basisStep Real.sqrt symmThresholdSq [1, skewMirror]
      (isFixed (fun _ => (1 : ℝ)) (fun _ => false))
      [] 0 = (skewResiduals.take 1).map (normalized Real.sqrt) :=
    basisStep_int_accept symmThresholdSq _ _ 0 []
      []
      !![101125, 62964, -129426; 46110, 28710, -59015; 101442, 63162, -129833]
      skewResidual0
      1
      1
      (hskip _) (by decide) (by decide) (by decide) (by decide) (by decide) (by decide)
      (by decide)
      (threshold_le symmThresholdSq _ _ _ hhi (by decide) (by decide) (by decide))
  have h1 : basisStep Real.sqrt symmThresholdSq [1, skewMirror]
      (isFixed (fun _ => (1 : ℝ)) (fun _ => false))
      ((skewResiduals.take 1).map (normalized Real.sqrt)) 1
        = (skewResiduals.take 2).map (normalized Real.sqrt) :=
    basisStep_int_accept symmThresholdSq _ _ 1 (skewResiduals.take 1)
      [19329120257]
      !![28710, 17622, -36630; 12905, 7922, -16465; 28710, 17622, -36630]
      skewResidual1
      68511512319
      1
      (hskip _) (by decide) (by decide) (by decide) (by decide) (by decide) (by decide)
      (by decide)
      (threshold_le symmThresholdSq _ _ _ hhi (by decide) (by decide) (by decide))
  have h2 : basisStep Real.sqrt symmThresholdSq [1, skewMirror]
      (isFixed (fun _ => (1 : ℝ)) (fun _ => false))
      ((skewResiduals.take 2).map (normalized Real.sqrt)) 2
        = (skewResiduals.take 3).map (normalized Real.sqrt) :=
    basisStep_int_accept symmThresholdSq _ _ 2 (skewResiduals.take 2)
      [-1141231457010080425823387708, -12991871105037241]
      !![-129833, -80586, 166056; -59015, -36630, 75480; -130152, -80784, 166465]
      skewResidual2
      890106215499857614128518991
      137023024638
      (hskip _) (by decide) (by decide) (by decide) (by decide) (by decide) (by decide)
      (by decide)
      (threshold_le symmThresholdSq _ _ _ hhi (by decide) (by decide) (by decide))
  have h3 : basisStep Real.sqrt symmThresholdSq [1, skewMirror]
      (isFixed (fun _ => (1 : ℝ)) (fun _ => false))
      ((skewResiduals.take 3).map (normalized Real.sqrt)) 3
        = (skewResiduals.take 4).map (normalized Real.sqrt) :=
    basisStep_int_accept symmThresholdSq _ _ 3 (skewResiduals.take 3)
      [476561340373121014573109781447243837415475, -9579265456573181262180056288521,
        -278640309193589671229414]
      !![4147, 2981, -5489; 1566, 1157, -2086; 4002, 2893, -5304]
      skewResidual3
      11564278429402689612364879077401976263020483
      296702071833285871376172997
      (hskip _) (by decide) (by decide) (by decide) (by decide) (by decide) (by decide)
      (by decide)
      (threshold_le symmThresholdSq _ _ _ hhi (by decide) (by decide) (by decide))
  have h4 : basisStep Real.sqrt symmThresholdSq [1, skewMirror]
      (isFixed (fun _ => (1 : ℝ)) (fun _ => false))
      ((skewResiduals.take 4).map (normalized Real.sqrt)) 4
        = (skewResiduals.take 5).map (normalized Real.sqrt) :=
    basisStep_int_accept symmThresholdSq _ _ 4 (skewResiduals.take 4)
      [-195838318600921971603040162707633737478279463127881502262765362713,
        -308984764557045632939374003126264925910830326412934797,
        10828950699756079196909029317629121546709725307986,
        -9710335988564869670747774683862710948424687322828]
      !![-27984, -17622, 35906; -12575, -7920, 16135; -27982, -17622, 35904]
      skewResidual4
      707689169846910902071184098721824497433687643801959219182215157393
      138771341152832275348378548928823715156245796
      (hskip _) (by decide) (by decide) (by decide) (by decide) (by decide) (by decide)
      (by decide)
      (threshold_le symmThresholdSq _ _ _ hhi (by decide) (by decide) (by decide))
  have h5 : basisStep Real.sqrt symmThresholdSq [1, skewMirror]
      (isFixed (fun _ => (1 : ℝ)) (fun _ => false))
      ((skewResiduals.take 5).map (normalized Real.sqrt)) 5
        = (skewResiduals.take 5).map (normalized Real.sqrt) :=
    basisStep_int_reject symmThresholdSq (lt_of_lt_of_le (by norm_num) hlo) _ _ 5
      (skewResiduals.take 5)
      [760974164843344093618161692136225190077865275927654181059806542235,
        19416893342952213806813310041697142726607401997960756851,
        -88051143477768115999912181413834148818489116272646,
        3221422411341245919948203262227145378827047672491,
        20576494073612646667625014815607497394436290709145]
      !![109074, 67507, -139416; 49328, 30527, -63048; 109219, 67595, -139601]
      707689169846910902071184098721824497433687643801959219182215157393
      (by decide) (by decide) (by decide) (by decide) (by decide)
  interval_cases k
  · rfl
  · simp only [List.range_succ, List.range_zero, List.nil_append, List.cons_append,
      List.foldl_cons, List.foldl_nil, List.map_nil]
    rw [h0]
  · simp only [List.range_succ, List.range_zero, List.nil_append, List.cons_append,
      List.foldl_cons, List.foldl_nil, List.map_nil]
    rw [h0, h1]
  · simp only [List.range_succ, List.range_zero, List.nil_append, List.cons_append,
      List.foldl_cons, List.foldl_nil, List.map_nil]
    rw [h0, h1, h2]
  · simp only [List.range_succ, List.range_zero, List.nil_append, List.cons_append,
      List.foldl_cons, List.foldl_nil, List.map_nil]
    rw [h0, h1, h2, h3]
  · simp only [List.range_succ, List.range_zero, List.nil_append, List.cons_append,
      List.foldl_cons, List.foldl_nil, List.map_nil]
    rw [h0, h1, h2, h3, h4]
  · simp only [List.range_succ, List.range_zero, List.nil_append, List.cons_append,
      List.foldl_cons, List.foldl_nil, List.map_nil]
    rw [h0, h1, h2, h3, h4, h5]
    rfl

/-- The loop body accepts a candidate that is not skipped and whose residual norm is not below
the threshold, appending the normalized residual. -/
theorem basisStep_of_not_lt {K : Type} [LinearOrderedField K] (sqrt : K → K)
    (symmThresholdSq : K) (sym : List (matrix3 ℤ)) (fixed : vector3 Bool)
    (basis : List (matrix3 K)) (k : Nat) (hskip : skipped fixed k = false)
    (h : ¬ nrm2 sqrt (orthogonalize basis (toReal (symmetrize sym (generator k))))
      < symmThresholdSq) :
    basisStep sqrt symmThresholdSq sym fixed basis k
      = basis ++ [(1 / nrm2 sqrt (orthogonalize basis (toReal (symmetrize sym (generator k)))))
          • orthogonalize basis (toReal (symmetrize sym (generator k)))] := by
  unfold basisStep
  rw [hskip]
  simp only [Bool.false_eq_true, if_false, if_neg h]

/-- C19: a mirror of the simple cubic lattice written in the lattice coordinates of a skewed
unimodular basis (a two-element group of integer matrices with determinant `1` and `-1`),
equal move scales, no truncated axis, and any threshold between `10⁻⁹` and `10⁻⁵`. The
construction succeeds; when the loop reaches generator `4`, four vectors have been accepted,
and the residual of the symmetrized candidate after orthogonalization against them has
squared Frobenius norm below `10⁻⁹`, hence below the threshold, while its norm is at least
`10⁻⁵`, hence not below the threshold: the loop accepts the candidate, normalized, as the
fifth and last basis vector. -/
theorem discard_compares_norm (symmThresholdSq : ℝ) (hlo : 1 / 1000000000 ≤ symmThresholdSq)
    (hhi : symmThresholdSq ≤ 1 / 100000) :
    ([1, skewMirror] : List (matrix3 ℤ)).Nodup ∧
    (∀ a ∈ [1, skewMirror], ∀ b ∈ [1, skewMirror], a * b ∈ [1, skewMirror]) ∧
    (∀ m ∈ [1, skewMirror], det m = 1 ∨ det m = -1) ∧
    det skewBasis = 1 ∧ skewBasis * skewMirror = swap01 * skewBasis ∧
    ∃ (lm : LatticeMinimizer ℝ Unit) (accepted : List (matrix3 ℝ)) (r : matrix3 ℝ),
      LatticeMinimizer.LatticeMinimizer Real.sqrt symmThresholdSq
        (config (toReal skewBasis) [1, skewMirror] (fun _ => 1) (fun _ => false)) = .ok lm ∧
      accepted = (List.range 4).foldl (basisStep Real.sqrt symmThresholdSq [1, skewMirror]
        (isFixed (fun _ => (1 : ℝ)) (fun _ => false))) [] ∧
      accepted.length = 4 ∧
      r = orthogonalize accepted (toReal (symmetrize [1, skewMirror] (generator 4))) ∧
      dot r r < 1 / 1000000000 ∧ 1 / 100000 ≤ nrm2 Real.sqrt r ∧
      dot r r < symmThresholdSq ∧
      ¬ nrm2 Real.sqrt r < symmThresholdSq ∧
      basisStep Real.sqrt symmThresholdSq [1, skewMirror]
        (isFixed (fun _ => (1 : ℝ)) (fun _ => false)) accepted 4
          = accepted ++ [(1 / nrm2 Real.sqrt r) • r] ∧
      lm.strainBasis = accepted ++ [(1 / nrm2 Real.sqrt r) • r] ∧
      lm.e.nDim = 5 := by
  refine ⟨by decide, by decide, by decide, by decide, by decide, ?_⟩
  have hskip : skipped (isFixed (fun _ => (1 : ℝ)) (fun _ => false)) 4 = false := by
    simp [skipped, isFixed]
  have h4 := skew_buildBasis symmThresholdSq hlo hhi 4 (by decide)
  have h5 := skew_buildBasis symmThresholdSq hlo hhi 5 (by decide)
  have h6 := skew_buildBasis symmThresholdSq hlo hhi 6 (by decide)
  have hbuild : buildBasis Real.sqrt symmThresholdSq [1, skewMirror]
      (isFixed (fun _ => (1 : ℝ)) (fun _ => false))
        = (skewResiduals.take 5).map (normalized Real.sqrt) := h6
  obtain ⟨lm, hlm⟩ := LatticeMinimizer_of_nonempty Real.sqrt symmThresholdSq
    (config (toReal skewBasis) [1, skewMirror] (fun _ => 1) (fun _ => false))
    (checkMoveScale_const _ _) (by
      show buildBasis Real.sqrt symmThresholdSq [1, skewMirror]
        (isFixed (fun _ => (1 : ℝ)) (fun _ => false)) ≠ []
      rw [hbuild]
      exact List.cons_ne_nil _ _)
  have hbasis : lm.strainBasis
      = (skewResiduals.take 5).map (normalized Real.sqrt) :=
    ((LatticeMinimizer_ok _ _ _ lm hlm).2.1).trans hbuild
  have hres : orthogonalize
      ((skewResiduals.take 4).map (normalized Real.sqrt))
      (toReal (symmetrize [1, skewMirror] (generator 4)))
        = ((138771341152832275348378548928823715156245796 : ℤ) /
            (707689169846910902071184098721824497433687643801959219182215157393 : ℤ) : ℝ)
          • (toReal skewResidual4 : matrix3 ℝ) :=
    orthogonalize_int (skewResiduals.take 4)
      [-195838318600921971603040162707633737478279463127881502262765362713,
        -308984764557045632939374003126264925910830326412934797,
        10828950699756079196909029317629121546709725307986,
        -9710335988564869670747774683862710948424687322828]
      (symmetrize [1, skewMirror] (generator 4)) skewResidual4 _ _
      (by decide) (by decide) (by decide) (by decide) (by decide)
  have hsq : dot (orthogonalize
      ((skewResiduals.take 4).map (normalized Real.sqrt))
      (toReal (symmetrize [1, skewMirror] (generator 4))))
      (orthogonalize
      ((skewResiduals.take 4).map (normalized Real.sqrt))
      (toReal (symmetrize [1, skewMirror] (generator 4)))) < 1 / 1000000000 := by
    rw [hres, dot_smul_left, dot_smul_right, dot_toReal,
      (by decide : trace (skewResidual4 * skewResidual4.transpose)
        = 18675283824482629150382133707140992)]
    norm_num
  have hnotT : ∀ T : ℝ, 1 / 1000000000 ≤ T → T ≤ 1 / 100000 →
      ¬ nrm2 Real.sqrt (orthogonalize
        ((skewResiduals.take 4).map (normalized Real.sqrt))
        (toReal (symmetrize [1, skewMirror] (generator 4)))) < T := by
    intro T hT1 hT2 hlt
    have hstep : basisStep Real.sqrt T [1, skewMirror]
        (isFixed (fun _ => (1 : ℝ)) (fun _ => false))
        ((skewResiduals.take 4).map (normalized Real.sqrt)) 4
          = (skewResiduals.take 4).map (normalized Real.sqrt) := by
      unfold basisStep
      rw [hskip]
      simp only [Bool.false_eq_true, if_false, if_pos hlt]
    have h45 : (List.range 5).foldl (basisStep Real.sqrt T [1, skewMirror]
        (isFixed (fun _ => (1 : ℝ)) (fun _ => false))) []
          = (skewResiduals.take 4).map (normalized Real.sqrt) := by
      rw [List.range_succ, List.foldl_append, skew_buildBasis T hT1 hT2 4 (by decide)]
      exact hstep
    have := congrArg List.length
      (h45.symm.trans (skew_buildBasis T hT1 hT2 5 (by decide)))
    exact absurd this (by decide)
  have hnot := hnotT symmThresholdSq hlo hhi
  have hge := not_lt.mp (hnotT (1 / 100000) (by norm_num) le_rfl)
  have hacc := basisStep_of_not_lt Real.sqrt symmThresholdSq [1, skewMirror]
    (isFixed (fun _ => (1 : ℝ)) (fun _ => false))
    ((skewResiduals.take 4).map (normalized Real.sqrt))
    4 hskip hnot
  have h45 : (List.range 5).foldl (basisStep Real.sqrt symmThresholdSq [1, skewMirror]
      (isFixed (fun _ => (1 : ℝ)) (fun _ => false))) []
        = basisStep Real.sqrt symmThresholdSq [1, skewMirror]
          (isFixed (fun _ => (1 : ℝ)) (fun _ => false))
          ((skewResiduals.take 4).map (normalized Real.sqrt)) 4 := by
    rw [List.range_succ, List.foldl_append, h4]
    rfl
  refine ⟨lm,
    (skewResiduals.take 4).map (normalized Real.sqrt),
    orthogonalize
      ((skewResiduals.take 4).map (normalized Real.sqrt))
      (toReal (symmetrize [1, skewMirror] (generator 4))),
    hlm, h4.symm, rfl, rfl, hsq, hge, lt_of_lt_of_le hsq hlo, hnot, hacc, ?_, ?_⟩
  · exact hbasis.trans ((h5.symm.trans h45).trans hacc)
  · rw [(LatticeMinimizer_nDim _ _ _ lm hlm).1, hbasis]
    rfl

/-- C19, witness: the threshold `10⁻⁸`. -/
theorem discard_compares_norm_witness :
    ∃ (lm : LatticeMinimizer ℝ Unit) (accepted : List (matrix3 ℝ)) (r : matrix3 ℝ),
      LatticeMinimizer.LatticeMinimizer Real.sqrt (1 / 100000000)
        (config (toReal skewBasis) [1, skewMirror] (fun _ => 1) (fun _ => false)) = .ok lm ∧
      accepted = (List.range 4).foldl (basisStep Real.sqrt (1 / 100000000) [1, skewMirror]
        (isFixed (fun _ => (1 : ℝ)) (fun _ => false))) [] ∧
      accepted.length = 4 ∧
      r = orthogonalize accepted (toReal (symmetrize [1, skewMirror] (generator 4))) ∧
      dot r r < 1 / 1000000000 ∧ 1 / 100000 ≤ nrm2 Real.sqrt r ∧
      dot r r < 1 / 100000000 ∧
      ¬ nrm2 Real.sqrt r < 1 / 100000000 ∧
      basisStep Real.sqrt (1 / 100000000) [1, skewMirror]
        (isFixed (fun _ => (1 : ℝ)) (fun _ => false)) accepted 4
          = accepted ++ [(1 / nrm2 Real.sqrt r) • r] ∧
      lm.strainBasis = accepted ++ [(1 / nrm2 Real.sqrt r) • r] ∧
      lm.e.nDim = 5 :=
  (discard_compares_norm (1 / 100000000) (by norm_num) (by norm_num)).2.2.2.2.2

/-! ## Static loop over spherical harmonics and the phase loop -/

theorem exec_eq_foldl {σ : Type} (Nlm : Nat) (f : Int → σ → σ) :
    ∀ (lmInv : Nat), lmInv ≤ Nlm → ∀ s : σ,
      StaticLoopYlm.exec (Nlm : Int) f lmInv s
        = (List.range' (Nlm - lmInv) lmInv).foldl (fun s (lm : Nat) => f (lm : Int) s) s := by
  intro lmInv
  induction lmInv with
  | zero => intro _ s; rfl
  | succ n ih =>
    intro hn s
    have hcast : ((Nlm : Int) - ((n + 1 : Nat) : Int)) = ((Nlm - (n + 1) : Nat) : Int) := by
      rw [Nat.cast_sub hn]
    have hnext : Nlm - (n + 1) + 1 = Nlm - n := by omega
    rw [StaticLoopYlm.exec, ih (by omega), List.range'_succ, List.foldl_cons, hcast, hnext]

/-- C21: for every `Nlm >= 0`, `staticLoopYlm<Nlm>(f)` has the effect of the run-time loop
`for(lm=0; lm<Nlm; lm++) (*f)(tag<lm>)`: it applies the functor to the tags
`0, 1, ..., Nlm-1`, each once and in increasing order, and does nothing for `Nlm = 0`. -/
theorem staticLoopYlm_refines {σ : Type} (Nlm : Nat) (f : Int → σ → σ) (s : σ) :
    staticLoopYlm Nlm f s = runtimeLoopYlm Nlm f s ∧
    staticLoopYlm Nlm (fun lm (tags : List Int) => tags ++ [lm]) []
      = (List.range Nlm).map (fun (lm : Nat) => (lm : Int)) ∧
    staticLoopYlm 0 f s = s := by
  have hloop : ∀ (τ : Type) (g : Int → τ → τ) (t : τ),
      staticLoopYlm Nlm g t = runtimeLoopYlm Nlm g t := by
    intro τ g t
    unfold staticLoopYlm runtimeLoopYlm
    rw [exec_eq_foldl Nlm g Nlm (le_refl _) t, Nat.sub_self, List.range_eq_range']
  refine ⟨hloop σ f s, ?_, rfl⟩
  rw [hloop]
  unfold runtimeLoopYlm
  suffices h : ∀ (l : List Nat) (acc : List Int),
      l.foldl (fun (tags : List Int) (lm : Nat) => tags ++ [(lm : Int)]) acc
        = acc ++ l.map (fun (lm : Nat) => (lm : Int)) by
    rw [h, List.nil_append]
  intro l
  induction l with
  | nil => intro acc; simp
  | cons x xs ih => intro acc; rw [List.foldl_cons, ih]; simp

theorem phaseLoop_continue {C : Type} [Mul C] (mIota : C) (lm : Int) (l : Nat) (phase : C)
    (h : (l : Int) * ((l : Int) + 2) < lm) :
    phaseLoop mIota lm l phase = phaseLoop mIota lm (l + 1) (phase * mIota) := by
  rw [phaseLoop, if_pos h]

theorem phaseLoop_stop {C : Type} [Mul C] (mIota : C) (lm : Int) (l : Nat) (phase : C)
    (h : ¬ (l : Int) * ((l : Int) + 2) < lm) :
    phaseLoop mIota lm l phase = (l, phase) := by
  rw [phaseLoop, if_neg h]

/-- The loop started at counter `j <= l` with `lm = l*(l+1) + m`, `-l <= m <= l`, stops at
counter `l` after multiplying `l - j` times. -/
theorem phaseLoop_from {C : Type} [Monoid C] (mIota : C) (l : Nat) (m : Int)
    (hm1 : -(l : Int) ≤ m) (hm2 : m ≤ (l : Int)) :
    ∀ (d j : Nat), j + d = l → ∀ phase : C,
      phaseLoop mIota ((l : Int) * ((l : Int) + 1) + m) j phase = (l, phase * mIota ^ d) := by
  intro d
  induction d with
  | zero =>
    intro j hj phase
    rw [Nat.add_zero] at hj
    subst hj
    rw [phaseLoop_stop, pow_zero, mul_one]
    have h0 : (0 : Int) ≤ (j : Int) := Int.ofNat_nonneg j
    nlinarith
  | succ d ih =>
    intro j hj phase
    have hlt : (j : Int) * ((j : Int) + 2) < (l : Int) * ((l : Int) + 1) + m := by
      have h0 : (0 : Int) ≤ (j : Int) := Int.ofNat_nonneg j
      have hjl : (j : Int) + 1 ≤ (l : Int) := by
        have : j + 1 ≤ l := by omega
        exact_mod_cast this
      nlinarith
    rw [phaseLoop_continue _ _ _ _ hlt, ih (j + 1) (by omega), pow_succ', mul_assoc]

/-- C24: for every `l >= 0` and `-l <= m <= l`, with `lm = l*(l+1) + m`, the phase loop
started from `phase = 1` makes exactly `l` passes and ends with `phase = (-i)^l`; the
products `l2*(l2+2)` it tests are at most `l*(l+2)`. -/
theorem phaseOf_eq (l : Nat) (m : Int) (hm1 : -(l : Int) ≤ m) (hm2 : m ≤ (l : Int)) :
    phaseOf ((l : Int) * ((l : Int) + 1) + m) = (l, (-Complex.I) ^ l) ∧
    ∀ l2 : Nat, l2 ≤ l → (l2 : Int) * ((l2 : Int) + 2) ≤ (l : Int) * ((l : Int) + 2) := by
  constructor
  · unfold phaseOf
    have hI : (⟨0, -1⟩ : ℂ) = -Complex.I := by
      apply Complex.ext <;> simp
    have h1 : (⟨1, 0⟩ : ℂ) = 1 := by
      apply Complex.ext <;> simp
    rw [phaseLoop_from (⟨0, -1⟩ : ℂ) l m hm1 hm2 l 0 (Nat.zero_add l), hI, h1, one_mul]
  · intro l2 h
    have h0 : (0 : Int) ≤ (l2 : Int) := Int.ofNat_nonneg l2
    have hle : (l2 : Int) ≤ (l : Int) := by exact_mod_cast h
    nlinarith

/-- C24, witness: `l = 2`, `m = -1`, tag `lm = 5`: two passes, phase `(-i)^2 = -1`. -/
theorem phaseOf_eq_witness :
    phaseOf 5 = (2, (-Complex.I) ^ 2) ∧ phaseOf 5 = (2, -1) := by
  have h := (phaseOf_eq 2 (-1) (by norm_num) (by norm_num)).1
  have h5 : ((2 : Nat) : Int) * (((2 : Nat) : Int) + 1) + -1 = 5 := by norm_num
  rw [h5] at h
  refine ⟨h, ?_⟩
  rw [h]
  simp

/-! ## The empty-basis error -/

theorem trace_conj (m s : matrix3 ℤ) (h : det m = 1 ∨ det m = -1) :
    trace (mInv m * s * m) = trace s := by
  unfold trace
  rw [Matrix.trace_mul_comm, ← Matrix.mul_assoc, mul_mInv m h, Matrix.one_mul]

/-- The trace of the symmetrized generator is the number of symmetry matrices times the trace
of the generator. -/
theorem trace_symmetrize (sym : List (matrix3 ℤ)) (hdet : ∀ m ∈ sym, det m = 1 ∨ det m = -1)
    (s : matrix3 ℤ) : trace (symmetrize sym s) = (sym.length : ℤ) * trace s := by
  rw [symmetrize_eq_sum]
  induction sym with
  | nil => simp [trace]
  | cons m ms ih =>
    rw [List.map_cons, List.sum_cons]
    have hadd : ∀ x y : matrix3 ℤ, trace (x + y) = trace x + trace y := fun x y =>
      Matrix.trace_add x y
    rw [hadd, trace_conj m s (hdet m (List.mem_cons_self _ _)),
      ih fun x hx => hdet x (List.mem_cons_of_mem _ hx)]
    push_cast [List.length_cons]
    ring

theorem trace_generator_diag (k : Nat) (hk : k < 3) : trace (generator k) = 1 := by
  interval_cases k <;> decide

/-- Cauchy-Schwarz against the identity: the square of the trace is at most three times the
squared Frobenius norm. -/
theorem trace_sq_le (a : matrix3 ℝ) : trace a ^ 2 ≤ 3 * dot a a := by
  rw [dot_eq_sum]
  simp only [trace, Matrix.trace, Matrix.diag, Fin.sum_univ_three]
  nlinarith [sq_nonneg (a 0 0 - a 1 1), sq_nonneg (a 0 0 - a 2 2), sq_nonneg (a 1 1 - a 2 2),
    mul_self_nonneg (a 0 1), mul_self_nonneg (a 0 2), mul_self_nonneg (a 1 0),
    mul_self_nonneg (a 1 2), mul_self_nonneg (a 2 0), mul_self_nonneg (a 2 1)]

theorem trace_toReal (w : matrix3 ℤ) : trace (toReal w : matrix3 ℝ) = ((trace w : ℤ) : ℝ) := by
  simp [trace, Matrix.trace, toReal]

/-- The symmetrized diagonal generator has Frobenius norm at least `|sym| / sqrt 3`. -/
theorem nrm2_symmetrize_diag (sym : List (matrix3 ℤ))
    (hdet : ∀ m ∈ sym, det m = 1 ∨ det m = -1) (k : Nat) (hk : k < 3) :
    (sym.length : ℝ) / √3
      ≤ nrm2 Real.sqrt (toReal (symmetrize sym (generator k)) : matrix3 ℝ) := by
  have h3 : (0 : ℝ) < √3 := Real.sqrt_pos.mpr (by norm_num)
  have htr : trace (toReal (symmetrize sym (generator k)) : matrix3 ℝ) = (sym.length : ℝ) := by
    rw [trace_toReal, trace_symmetrize sym hdet, trace_generator_diag k hk]
    push_cast
    ring
  have hcs := trace_sq_le (toReal (symmetrize sym (generator k)) : matrix3 ℝ)
  rw [htr] at hcs
  unfold nrm2
  apply Real.le_sqrt_of_sq_le
  rw [div_pow, Real.sq_sqrt (by norm_num : (0 : ℝ) ≤ 3)]
  rw [div_le_iff₀ (by norm_num : (0 : ℝ) < 3)]
  linarith

theorem basisStep_length_le {K : Type} [LinearOrderedField K] (sqrt : K → K)
    (symmThresholdSq : K) (sym : List (matrix3 ℤ)) (fixed : vector3 Bool)
    (basis : List (matrix3 K)) (k : Nat) :
    (basisStep sqrt symmThresholdSq sym fixed basis k).length ≤ basis.length + 1 := by
  unfold basisStep
  split
  · exact Nat.le_succ _
  · simp only
    split
    · exact Nat.le_succ _
    · simp

theorem buildBasis_length_le {K : Type} [LinearOrderedField K] (sqrt : K → K)
    (symmThresholdSq : K) (sym : List (matrix3 ℤ)) (fixed : vector3 Bool) :
    (buildBasis sqrt symmThresholdSq sym fixed).length ≤ 6 := by
  unfold buildBasis
  suffices h : ∀ (ks : List Nat) (basis : List (matrix3 K)),
      (ks.foldl (basisStep sqrt symmThresholdSq sym fixed) basis).length
        ≤ basis.length + ks.length by
    have := h (List.range 6) []
    simpa using this
  intro ks
  induction ks with
  | nil => intro basis; simp
  | cons k ks ih =>
    intro basis
    rw [List.foldl_cons]
    have h1 := ih (basisStep sqrt symmThresholdSq sym fixed basis k)
    have h2 := basisStep_length_le sqrt symmThresholdSq sym fixed basis k
    simp only [List.length_cons]
    omega

/-- The diagonal generator of a free axis is accepted into the empty basis when the symmetry
list is not empty, has determinants `+1` or `-1`, and the threshold is at most `1/sqrt 3`. -/
theorem basisStep_diag_accept (symmThresholdSq : ℝ) (hthr : symmThresholdSq ≤ 1 / √3)
    (sym : List (matrix3 ℤ)) (hne : sym ≠ []) (hdet : ∀ m ∈ sym, det m = 1 ∨ det m = -1)
    (fixed : vector3 Bool) (k : Nat) (hk : k < 3) (hfree : fixed (axis k) = false) :
    basisStep Real.sqrt symmThresholdSq sym fixed [] k
      = [(1 / nrm2 Real.sqrt (toReal (symmetrize sym (generator k)) : matrix3 ℝ))
          • toReal (symmetrize sym (generator k))] := by
  have h3 : (0 : ℝ) < √3 := Real.sqrt_pos.mpr (by norm_num)
  have hlen : (1 : ℝ) ≤ (sym.length : ℝ) := by
    have : 1 ≤ sym.length := List.length_pos.mpr hne
    exact_mod_cast this
  have hnorm : ¬ nrm2 Real.sqrt (toReal (symmetrize sym (generator k)) : matrix3 ℝ)
      < symmThresholdSq := by
    rw [not_lt]
    refine le_trans hthr (le_trans ?_ (nrm2_symmetrize_diag sym hdet k hk))
    exact div_le_div_of_nonneg_right hlen h3.le
  have hskip : skipped fixed k = false := by
    unfold skipped
    rw [if_pos hk, hfree]
  unfold basisStep
  rw [hskip]
  simp only [Bool.false_eq_true, if_false, orthogonalize_nil, hnorm, List.nil_append]

/-- C22: for a non-empty symmetry list with determinants `+1` or `-1` that passes the
move-scale check and a discard threshold of at most `1/sqrt 3`, the constructor fails with the
empty-basis error exactly when all three axes are fixed. The symmetrized diagonal generator
of a free axis has trace `|sym|` and Frobenius norm at least `|sym|/sqrt 3`; that of the first
free axis is the first vector accepted; and with a free axis the constructor returns a basis
of between 1 and 6 vectors. -/
theorem emptyBasis_iff {ρ : Type} (symmThresholdSq : ℝ) (hthr : symmThresholdSq ≤ 1 / √3)
    (e : Everything ℝ ρ) (hne : e.sym ≠ [])
    (hdet : ∀ m ∈ e.sym, det m = 1 ∨ det m = -1)
    (hcheck : checkMoveScale e.lattMoveScale e.sym = none) :
    (LatticeMinimizer.LatticeMinimizer Real.sqrt symmThresholdSq e = .error .allConstrained ↔
      ∀ k, isFixed e.lattMoveScale e.isTruncated k = true) ∧
    (∀ k : Nat, k < 3 → isFixed e.lattMoveScale e.isTruncated (axis k) = false →
      trace (symmetrize e.sym (generator k)) = (e.sym.length : ℤ) ∧
      (e.sym.length : ℝ) / √3
        ≤ nrm2 Real.sqrt (toReal (symmetrize e.sym (generator k)) : matrix3 ℝ) ∧
      ((∀ j, j < k → isFixed e.lattMoveScale e.isTruncated (axis j) = true) →
        (List.range (k + 1)).foldl
            (basisStep Real.sqrt symmThresholdSq e.sym
              (isFixed e.lattMoveScale e.isTruncated)) []
          = [(1 / nrm2 Real.sqrt (toReal (symmetrize e.sym (generator k)) : matrix3 ℝ))
              • toReal (symmetrize e.sym (generator k))])) ∧
    ((∃ k, isFixed e.lattMoveScale e.isTruncated k = false) →
      ∃ lm, LatticeMinimizer.LatticeMinimizer Real.sqrt symmThresholdSq e = .ok lm ∧
        1 ≤ lm.strainBasis.length ∧ lm.strainBasis.length ≤ 6) := by
  have hsucc : (∃ k, isFixed e.lattMoveScale e.isTruncated k = false) →
      ∃ lm, LatticeMinimizer.LatticeMinimizer Real.sqrt symmThresholdSq e = .ok lm ∧
        1 ≤ lm.strainBasis.length ∧ lm.strainBasis.length ≤ 6 := by
    rintro ⟨k, hk⟩
    have haxis : axis k.val = k := Fin.ext (Nat.mod_eq_of_lt k.isLt)
    have hstep := basisStep_diag_accept symmThresholdSq hthr e.sym hne hdet
      (isFixed e.lattMoveScale e.isTruncated) k.val k.isLt (by rw [haxis]; exact hk)
    have hnonempty : buildBasis Real.sqrt symmThresholdSq e.sym
        (isFixed e.lattMoveScale e.isTruncated) ≠ [] :=
      buildBasis_ne_nil _ _ _ _ k.val (by have := k.isLt; omega)
        (by rw [hstep]; exact List.cons_ne_nil _ _)
    obtain ⟨lm, hlm⟩ := LatticeMinimizer_of_nonempty Real.sqrt symmThresholdSq e hcheck hnonempty
    have hb := (LatticeMinimizer_ok _ _ e lm hlm).2.1
    refine ⟨lm, hlm, ?_, ?_⟩
    · rw [hb]; exact List.length_pos.mpr hnonempty
    · rw [hb]; exact buildBasis_length_le _ _ _ _
  refine ⟨⟨?_, ?_⟩, ?_, hsucc⟩
  · intro herr k
    by_contra hk
    obtain ⟨lm, hlm, _⟩ := hsucc ⟨k, by simpa using hk⟩
    rw [hlm] at herr
    cases herr
  · intro hfix
    exact LatticeMinimizer_of_empty _ _ e hcheck (buildBasis_of_allFixed _ _ _ _ hfix)
  · intro k hk hfree
    refine ⟨?_, nrm2_symmetrize_diag e.sym hdet k hk, ?_⟩
    · rw [trace_symmetrize e.sym hdet, trace_generator_diag k hk, mul_one]
    · intro hprev
      rw [List.range_succ, List.foldl_append, List.foldl_cons, List.foldl_nil,
        foldl_basisStep_nil _ _ _ _ (List.range k) (fun j hj => by
          have hjk : j < k := List.mem_range.mp hj
          unfold basisStep
          have hs : skipped (isFixed e.lattMoveScale e.isTruncated) j = true := by
            unfold skipped
            rw [if_pos (by omega), hprev j hjk]
          rw [hs, if_pos rfl])]
      exact basisStep_diag_accept symmThresholdSq hthr e.sym hne hdet _ k hk hfree

/-- C22, witness: the sample configuration with the axis exchange, whose first axis is
truncated and whose second and third are free, with threshold `1e-8`. -/
theorem emptyBasis_iff_witness :
    ∃ lm, LatticeMinimizer.LatticeMinimizer Real.sqrt (1 / 100000000)
        (config (1 : matrix3 ℝ) [1, swap01] (fun _ => 1) ![true, false, false]) = .ok lm ∧
      1 ≤ lm.strainBasis.length ∧ lm.strainBasis.length ≤ 6 :=
  (emptyBasis_iff (1 / 100000000)
    (le_trans (by norm_num : (1 / 100000000 : ℝ) ≤ 1 / 2)
      (one_div_le_one_div_of_le (Real.sqrt_pos.mpr (by norm_num))
        (Real.sqrt_le_iff.mpr ⟨by norm_num, by norm_num⟩)))
    (config (1 : matrix3 ℝ) [1, swap01] (fun _ => 1) ![true, false, false])
    (List.cons_ne_nil _ _)
    (by decide : ∀ m ∈ [1, swap01], det m = 1 ∨ det m = -1)
    (checkMoveScale_const _ _)).2.2 ⟨1, by simp [isFixed, config]⟩

/-! ## The preconditioner respects the symmetries -/

/-- A matrix that only connects axes of equal move scale commutes with `diag(lattMoveScale)`. -/
theorem Diag_commute {K : Type} [Field K] (lattMoveScale : vector3 K) (m : matrix3 ℤ)
    (h : ∀ i j, m i j ≠ 0 → lattMoveScale i = lattMoveScale j) :
    Diag lattMoveScale * (toReal m : matrix3 K) = toReal m * Diag lattMoveScale := by
  ext i j
  simp only [Diag, Matrix.diagonal_mul, Matrix.mul_diagonal, toReal, Matrix.map_apply]
  by_cases hm : m i j = 0
  · rw [hm, Int.cast_zero, mul_zero, zero_mul]
  · rw [h i j hm, mul_comm]

theorem toReal_one {K : Type} [Field K] : (toReal 1 : matrix3 K) = 1 := by
  ext i j
  by_cases hij : i = j <;> simp [toReal, Matrix.one_apply, hij]

/-- With determinant `+1` or `-1`, what commutes with `m` commutes with
`det(m) * adjugate(m)`. -/
theorem Diag_commute_mInv {K : Type} [Field K] (lattMoveScale : vector3 K) (m : matrix3 ℤ)
    (hdet : det m = 1 ∨ det m = -1)
    (h : ∀ i j, m i j ≠ 0 → lattMoveScale i = lattMoveScale j) :
    Diag lattMoveScale * (toReal (mInv m) : matrix3 K)
      = toReal (mInv m) * Diag lattMoveScale := by
  have hc := Diag_commute lattMoveScale m h
  have h1 : (toReal (mInv m) : matrix3 K) * toReal m = 1 := by
    rw [← toReal_mul, mInv_mul_self m hdet, toReal_one]
  have h2 : (toReal m : matrix3 K) * toReal (mInv m) = 1 := by
    rw [← toReal_mul, mul_mInv m hdet, toReal_one]
  calc Diag lattMoveScale * (toReal (mInv m) : matrix3 K)
      = toReal (mInv m) * toReal m * (Diag lattMoveScale * toReal (mInv m)) := by
        rw [h1, Matrix.one_mul]
    _ = toReal (mInv m) * (toReal m * Diag lattMoveScale) * toReal (mInv m) := by
        simp only [Matrix.mul_assoc]
    _ = toReal (mInv m) * (Diag lattMoveScale * toReal m) * toReal (mInv m) := by rw [hc]
    _ = toReal (mInv m) * Diag lattMoveScale * (toReal m * toReal (mInv m)) := by
        simp only [Matrix.mul_assoc]
    _ = toReal (mInv m) * Diag lattMoveScale := by rw [h2, Matrix.mul_one]

/-- C23: after a successful construction (so that the move-scale check passed) on a symmetry
list with determinants `+1` or `-1`, `D = diag(lattMoveScale)` commutes with every symmetry
matrix `m` and with `m⁻¹ = det(m) * adjugate(m)`, and `precondition` maps every `g` with
`m⁻¹ * g * m = g` for all `m` of the list to a matrix with the same property. -/
theorem precondition_invariant {K ρ : Type} [LinearOrderedField K] (sqrt : K → K)
    (symmThresholdSq : K) (e : Everything K ρ) (lm : LatticeMinimizer K ρ)
    (hdet : ∀ m ∈ e.sym, det m = 1 ∨ det m = -1)
    (hok : LatticeMinimizer.LatticeMinimizer sqrt symmThresholdSq e = .ok lm) :
    (∀ m ∈ e.sym,
      Diag lm.e.lattMoveScale * (toReal m : matrix3 K) = toReal m * Diag lm.e.lattMoveScale ∧
      Diag lm.e.lattMoveScale * (toReal (det m • adjugate m) : matrix3 K)
        = toReal (det m • adjugate m) * Diag lm.e.lattMoveScale) ∧
    (∀ g : matrix3 K,
      (∀ m ∈ e.sym, (toReal (det m • adjugate m) : matrix3 K) * g * toReal m = g) →
      ∀ m ∈ e.sym,
        (toReal (det m • adjugate m) : matrix3 K) * precondition lm g * toReal m
          = precondition lm g) := by
  have hcheck := (checkMoveScale_eq_none _ _).mp (LatticeMinimizer_ok _ _ e lm hok).1
  have hlms : lm.e.lattMoveScale = e.lattMoveScale := (LatticeMinimizer_calls _ _ e lm hok).2.2.1
  have hcomm : ∀ m ∈ e.sym,
      Diag lm.e.lattMoveScale * (toReal m : matrix3 K) = toReal m * Diag lm.e.lattMoveScale ∧
      Diag lm.e.lattMoveScale * (toReal (det m • adjugate m) : matrix3 K)
        = toReal (det m • adjugate m) * Diag lm.e.lattMoveScale := by
    intro m hm
    rw [hlms]
    exact ⟨Diag_commute _ m (hcheck m hm),
      Diag_commute_mInv _ m (hdet m hm) (hcheck m hm)⟩
  refine ⟨hcomm, ?_⟩
  intro g hg m hm
  obtain ⟨h1, h2⟩ := hcomm m hm
  unfold precondition
  calc (toReal (det m • adjugate m) : matrix3 K)
        * (Diag lm.e.lattMoveScale * g * Diag lm.e.lattMoveScale) * toReal m
      = toReal (det m • adjugate m) * Diag lm.e.lattMoveScale * g
          * (Diag lm.e.lattMoveScale * toReal m) := by simp only [Matrix.mul_assoc]
    _ = Diag lm.e.lattMoveScale * toReal (det m • adjugate m) * g
          * (toReal m * Diag lm.e.lattMoveScale) := by rw [h1, h2]
    _ = Diag lm.e.lattMoveScale * (toReal (det m • adjugate m) * g * toReal m)
          * Diag lm.e.lattMoveScale := by simp only [Matrix.mul_assoc]
    _ = Diag lm.e.lattMoveScale * g * Diag lm.e.lattMoveScale := by rw [hg m hm]

/-- The sample configuration with the axis exchange and move scales `(2, 2, 3)` is accepted. -/
theorem scaled_config_ok :
    ∃ lm, LatticeMinimizer.LatticeMinimizer Real.sqrt (1 / 100000000)
      (config (1 : matrix3 ℝ) [1, swap01] ![2, 2, 3] (fun _ => false)) = .ok lm := by
  apply LatticeMinimizer_of_nonempty
  · apply (checkMoveScale_eq_none _ _).mpr
    intro m hm i j hij
    simp only [config, List.mem_cons, List.mem_singleton, List.not_mem_nil, or_false] at hm
    rcases hm with rfl | rfl <;> fin_cases i <;> fin_cases j <;>
      first
        | rfl
        | exact absurd (by decide) hij
  · apply buildBasis_ne_nil _ _ _ _ 0 (by decide)
    show basisStep Real.sqrt (1 / 100000000) [1, swap01]
      (isFixed (![2, 2, 3] : vector3 ℝ) (fun _ => false)) [] 0 ≠ []
    rw [basisStep_nil_accept Real.sqrt _ [1, swap01] _ 0 !![1, 0, 0; 0, 1, 0; 0, 0, 0] 2
      (by decide) (by decide) (by simp [skipped, isFixed, axis])
      (Real.le_sqrt_of_sq_le (by norm_num))]
    exact List.cons_ne_nil _ _

/-- C23, witness: the axis exchange with move scales `(2, 2, 3)`, so that `diag(lattMoveScale)`
is not a multiple of the identity, and the invariant matrix `g` with rows `(1,2,3)`, `(2,1,3)`,
`(4,4,5)`, which `precondition` maps to the rows `(4,8,18)`, `(8,4,18)`, `(24,24,45)`. -/
theorem precondition_invariant_witness :
    ∃ lm, LatticeMinimizer.LatticeMinimizer Real.sqrt (1 / 100000000)
        (config (1 : matrix3 ℝ) [1, swap01] ![2, 2, 3] (fun _ => false)) = .ok lm ∧
      lm.e.lattMoveScale = ![2, 2, 3] ∧
      precondition lm !![1, 2, 3; 2, 1, 3; 4, 4, 5] = !![4, 8, 18; 8, 4, 18; 24, 24, 45] ∧
      (∀ m ∈ [1, swap01],
        Diag lm.e.lattMoveScale * (toReal m : matrix3 ℝ) = toReal m * Diag lm.e.lattMoveScale) ∧
      ∀ m ∈ [1, swap01],
        (toReal (det m • adjugate m) : matrix3 ℝ)
            * precondition lm !![1, 2, 3; 2, 1, 3; 4, 4, 5] * toReal m
          = precondition lm !![1, 2, 3; 2, 1, 3; 4, 4, 5] := by
  obtain ⟨lm, hlm⟩ := scaled_config_ok
  have hlms : lm.e.lattMoveScale = ![2, 2, 3] := (LatticeMinimizer_calls _ _ _ lm hlm).2.2.1
  have h := precondition_invariant Real.sqrt (1 / 100000000) _ lm
    (by decide : ∀ m ∈ [1, swap01], det m = 1 ∨ det m = -1) hlm
  refine ⟨lm, hlm, hlms, ?_, fun m hm => (h.1 m hm).1, h.2 _ ?_⟩
  · unfold precondition
    rw [hlms]
    ext i j
    fin_cases i <;> fin_cases j <;>
      simp [Diag, Matrix.mul_apply, Fin.sum_univ_three, Matrix.diagonal_apply] <;> norm_num
  · intro m hm
    have hinv : det m • adjugate m = m :=
      (by decide : ∀ m ∈ [1, swap01], det m • adjugate m = m) m hm
    rw [hinv]
    simp only [config, List.mem_cons, List.mem_singleton, List.not_mem_nil, or_false] at hm
    rcases hm with rfl | rfl
    · rw [toReal_one, Matrix.one_mul, Matrix.mul_one]
    · ext i j
      fin_cases i <;> fin_cases j <;>
        simp [toReal, swap01, Matrix.mul_apply, Fin.sum_univ_three, Matrix.vecHead,
          Matrix.vecTail]

end JDFTx
